import Mathlib

/-!
Verification of the pyminidb storage / B+Tree core.

This file gives a shallow embedding in Lean 4 of the parts of the
repository that the specification's testable claims are about:

* the key serializers `SimpleBPlusTree._serialize_key`
  (src/index/simple_bplus_tree.py) and `BPlusTree._serialize_key`
  (src/index/bplus_tree.py);
* the `SimpleBPlusTree` structure itself (insert / search /
  range_search / delete with leaf chaining and splits);
* the `Page` binary format (src/storage/page.py): header packing,
  checksum, allocation, serialize / deserialize;
* the `StorageManager` file model (src/storage/storage_manager.py).

Python byte strings are modelled as `List Nat` (each element a byte
value), Python's `bytes` comparison as lexicographic order, Python
`dict` key membership as list membership, and the mutable object graph
of `SimpleBPlusTree` as an explicit state record (routing tree +
leaf-chain in next_leaf order + fresh-id counter).
-/

namespace PyMiniDB

/-! ## Byte strings and their lexicographic order

Python compares `bytes` values lexicographically by unsigned byte
value, a shorter prefix sorting first.  `bytLt a b` mirrors `a < b` on
Python bytes; `bytLe a b` mirrors `a <= b` (for the total byte order
this is exactly `¬ (b < a)`). -/

def bytLt : List Nat → List Nat → Bool
  | _, [] => false
  | [], _ :: _ => true
  | a :: as, b :: bs => if a < b then true else if b < a then false else bytLt as bs

def bytLe (a b : List Nat) : Bool := !(bytLt b a)

theorem bytLt_irrefl (a : List Nat) : bytLt a a = false := by
  induction a with
  | nil => rfl
  | cons x xs ih => simp [bytLt, ih]

theorem bytLt_asymm {a b : List Nat} (h : bytLt a b = true) : bytLt b a = false := by
  induction a generalizing b with
  | nil =>
    cases b with
    | nil => simp [bytLt] at h
    | cons y ys => rfl
  | cons x xs ih =>
    cases b with
    | nil => simp [bytLt] at h
    | cons y ys =>
      by_cases hxy : x < y
      · simp [bytLt, hxy, Nat.lt_asymm hxy]
      · by_cases hyx : y < x
        · simp [bytLt, hxy, hyx] at h
        · have hxy' : x = y := Nat.le_antisymm (Nat.le_of_not_lt hyx) (Nat.le_of_not_lt hxy)
          subst hxy'
          simp [bytLt, Nat.lt_irrefl] at h ⊢
          exact ih h

theorem bytLt_trans {a b c : List Nat} (h₁ : bytLt a b = true) (h₂ : bytLt b c = true) :
    bytLt a c = true := by
  induction a generalizing b c with
  | nil =>
    cases c with
    | nil =>
      cases b with
      | nil => exact h₁
      | cons y ys => simp [bytLt] at h₂
    | cons z zs => rfl
  | cons x xs ih =>
    cases b with
    | nil => simp [bytLt] at h₁
    | cons y ys =>
      cases c with
      | nil => simp [bytLt] at h₂
      | cons z zs =>
        by_cases hxy : x < y <;> by_cases hyz : y < z
        · have hxz : x < z := Nat.lt_trans hxy hyz
          simp [bytLt, hxz]
        · by_cases hzy : z < y
          · simp [bytLt, hyz, hzy] at h₂
          · have : y = z := Nat.le_antisymm (Nat.le_of_not_lt hzy) (Nat.le_of_not_lt hyz)
            subst this
            simp [bytLt, hxy]
        · by_cases hyx : y < x
          · simp [bytLt, hxy, hyx] at h₁
          · have : x = y := Nat.le_antisymm (Nat.le_of_not_lt hyx) (Nat.le_of_not_lt hxy)
            subst this
            simp [bytLt, hyz]
        · by_cases hyx : y < x
          · simp [bytLt, hxy, hyx] at h₁
          · have hxy' : x = y := Nat.le_antisymm (Nat.le_of_not_lt hyx) (Nat.le_of_not_lt hxy)
            subst hxy'
            by_cases hzy : z < x
            · simp [bytLt, hyz, hzy] at h₂
            · have : x = z := Nat.le_antisymm (Nat.le_of_not_lt hzy) (Nat.le_of_not_lt hyz)
              subst this
              simp [bytLt, Nat.lt_irrefl] at h₁ h₂ ⊢
              exact ih h₁ h₂

theorem bytLt_total {a b : List Nat} (h₁ : bytLt a b = false) (h₂ : bytLt b a = false) :
    a = b := by
  induction a generalizing b with
  | nil =>
    cases b with
    | nil => rfl
    | cons y ys => simp [bytLt] at h₁
  | cons x xs ih =>
    cases b with
    | nil => simp [bytLt] at h₂
    | cons y ys =>
      by_cases hxy : x < y
      · simp [bytLt, hxy] at h₁
      · by_cases hyx : y < x
        · simp [bytLt, hyx] at h₂
        · have hxy' : x = y := Nat.le_antisymm (Nat.le_of_not_lt hyx) (Nat.le_of_not_lt hxy)
          subst hxy'
          simp [bytLt, Nat.lt_irrefl] at h₁ h₂
          exact congrArg (x :: ·) (ih h₁ h₂)

theorem bytLe_of_bytLt {a b : List Nat} (h : bytLt a b = true) : bytLe a b = true := by
  simp [bytLe, bytLt_asymm h]

theorem bytLe_refl (a : List Nat) : bytLe a a = true := by
  simp [bytLe, bytLt_irrefl]

theorem bytLt_or_eq_of_bytLe {a b : List Nat} (h : bytLe a b = true) :
    bytLt a b = true ∨ a = b := by
  rcases hab : bytLt a b with _ | _
  · right
    exact bytLt_total hab (by simpa [bytLe] using h)
  · left; rfl

theorem bytLe_trans {a b c : List Nat} (h₁ : bytLe a b = true) (h₂ : bytLe b c = true) :
    bytLe a c = true := by
  rcases bytLt_or_eq_of_bytLe h₁ with h | rfl
  · rcases bytLt_or_eq_of_bytLe h₂ with h' | rfl
    · exact bytLe_of_bytLt (bytLt_trans h h')
    · exact bytLe_of_bytLt h
  · exact h₂

theorem bytLt_of_bytLe_of_bytLt {a b c : List Nat} (h₁ : bytLe a b = true)
    (h₂ : bytLt b c = true) : bytLt a c = true := by
  rcases bytLt_or_eq_of_bytLe h₁ with h | rfl
  · exact bytLt_trans h h₂
  · exact h₂

theorem bytLt_of_bytLt_of_bytLe {a b c : List Nat} (h₁ : bytLt a b = true)
    (h₂ : bytLe b c = true) : bytLt a c = true := by
  rcases bytLt_or_eq_of_bytLe h₂ with h | rfl
  · exact bytLt_trans h₁ h
  · exact h₁

theorem bytLt_of_not_bytLe {a b : List Nat} (h : bytLe a b = false) : bytLt b a = true := by
  simpa [bytLe] using h

end PyMiniDB

namespace PyMiniDB

/-! ## Integer packing

`struct.pack(">Q", k)` / `struct.pack("<Q", k)` produce the 8-byte
big-endian / little-endian encoding of `k`; they raise `struct.error`
unless `0 <= k < 2^64`.  The encoders below are the byte sequences
those calls produce on in-range arguments. -/

/-- Big-endian `n`-byte encoding (most significant byte first), the
byte sequence of `struct.pack` with a big-endian unsigned format. -/
def beBytes : Nat → Nat → List Nat
  | 0, _ => []
  | n + 1, k => (k / 256 ^ n) :: beBytes n (k % 256 ^ n)

/-- Little-endian `n`-byte encoding (least significant byte first), the
byte sequence of `struct.pack` with a little-endian unsigned format. -/
def leBytes : Nat → Nat → List Nat
  | 0, _ => []
  | n + 1, k => (k % 256) :: leBytes n (k / 256)

/-- Little-endian decoding, as done by `struct.unpack` with a
little-endian unsigned format. -/
def decodeLE : List Nat → Nat
  | [] => 0
  | b :: t => b + 256 * decodeLE t

theorem beBytes_length (n k : Nat) : (beBytes n k).length = n := by
  induction n generalizing k with
  | zero => rfl
  | succ n ih => simp [beBytes, ih]

theorem leBytes_length (n k : Nat) : (leBytes n k).length = n := by
  induction n generalizing k with
  | zero => rfl
  | succ n ih => simp [leBytes, ih]

theorem decodeLE_leBytes (n k : Nat) : decodeLE (leBytes n k) = k % 256 ^ n := by
  induction n generalizing k with
  | zero => simp [leBytes, decodeLE, Nat.mod_one]
  | succ n ih =>
    simp only [leBytes, decodeLE, ih]
    rw [Nat.pow_succ, Nat.mul_comm (256 ^ n) 256, Nat.mod_mul]

theorem leBytes_lt (n k : Nat) : ∀ b ∈ leBytes n k, b < 256 := by
  induction n generalizing k with
  | zero => intro b hb; simp [leBytes] at hb
  | succ n ih =>
    intro b hb
    simp only [leBytes, List.mem_cons] at hb
    rcases hb with rfl | hb
    · exact Nat.mod_lt _ (by omega)
    · exact ih _ b hb

/-- Numeric order agrees with byte-lexicographic order for equal-width
big-endian encodings. -/
theorem beBytes_lt_of_lt {n a b : Nat} (hab : a < b) (hb : b < 256 ^ n) :
    bytLt (beBytes n a) (beBytes n b) = true := by
  induction n generalizing a b with
  | zero => simp [Nat.pow_zero] at hb; omega
  | succ n ih =>
    have ha' : a / 256 ^ n ≤ b / 256 ^ n := Nat.div_le_div_right (Nat.le_of_lt hab)
    rcases Nat.lt_or_ge (a / 256 ^ n) (b / 256 ^ n) with h | h
    · simp [beBytes, bytLt, h]
    · have hdiv : a / 256 ^ n = b / 256 ^ n := Nat.le_antisymm ha' h
      have hmod : a % 256 ^ n < b % 256 ^ n := by
        have ha2 := Nat.div_add_mod a (256 ^ n)
        have hb2 := Nat.div_add_mod b (256 ^ n)
        rw [hdiv] at ha2
        omega
      have hbmod : b % 256 ^ n < 256 ^ n := Nat.mod_lt _ (Nat.pos_pow_of_pos n (by omega))
      simp [beBytes, bytLt, hdiv, ih hmod hbmod]

end PyMiniDB

namespace PyMiniDB

/-! ## Python keys and the two key serializers

Keys arrive at the trees as dynamically typed Python values.  The
claims only distinguish integers, strings, byte strings and "anything
else"; a value of any other type is represented by the text that
Python's `str()` would produce for it. -/

inductive PyKey where
  | pyInt (n : Int)
  | pyStr (s : String)
  | pyBytes (b : List Nat)
  | pyOther (s : String)
deriving DecidableEq

/-- UTF-8 encoding of one character (`str.encode` in Python). -/
def utf8Char (c : Char) : List Nat :=
  let n := c.toNat
  if n < 0x80 then [n]
  else if n < 0x800 then [0xC0 + n / 64, 0x80 + n % 64]
  else if n < 0x10000 then [0xE0 + n / 4096, 0x80 + n / 64 % 64, 0x80 + n % 64]
  else [0xF0 + n / 262144, 0x80 + n / 4096 % 64, 0x80 + n / 64 % 64, 0x80 + n % 64]

/-- UTF-8 encoding of a string (`s.encode('utf-8')`). -/
def utf8Bytes (s : String) : List Nat :=
  s.data.foldr (fun c acc => utf8Char c ++ acc) []

/-- One hexadecimal digit character. -/
def hexDigit (n : Nat) : Char :=
  if n < 10 then Char.ofNat (48 + n) else Char.ofNat (87 + n)

/-- How Python's `repr` escapes one byte inside a bytes literal with
quote character `q`: backslash and the quote are backslash-escaped,
tab / newline / carriage return use their short escapes, other
printable ASCII bytes stand for themselves, everything else becomes a
hexadecimal escape. -/
def pyByteEsc (q : Nat) (b : Nat) : List Char :=
  if b = 0x5C then ['\\', '\\']
  else if b = q then ['\\', Char.ofNat q]
  else if b = 9 then ['\\', 't']
  else if b = 10 then ['\\', 'n']
  else if b = 13 then ['\\', 'r']
  else if 0x20 ≤ b ∧ b < 0x7F then [Char.ofNat b]
  else ['\\', 'x', hexDigit (b / 16), hexDigit (b % 16)]

/-- Python's `str()` of a `bytes` value: `b'...'` (or `b"..."` when the
content contains a single quote but no double quote). -/
def pyReprBytes (b : List Nat) : List Char :=
  let q : Nat := if 0x27 ∈ b ∧ ¬ 0x22 ∈ b then 0x22 else 0x27
  'b' :: Char.ofNat q :: (b.foldr (fun x acc => pyByteEsc q x ++ acc) [Char.ofNat q])

/-- `SimpleBPlusTree._serialize_key` (src/index/simple_bplus_tree.py):
integers are packed with `struct.pack(">Q", key)` (big-endian, raising
`struct.error` outside `[0, 2^64)`), strings are UTF-8 encoded, and
every other value - including `bytes` - falls through to
`str(key).encode('utf-8')`. -/
def simpleSerializeKey : PyKey → Except String (List Nat)
  | .pyInt n =>
    if 0 ≤ n ∧ n < 2 ^ 64 then .ok (beBytes 8 n.toNat) else .error "struct.error"
  | .pyStr s => .ok (utf8Bytes s)
  | .pyBytes b => .ok (utf8Bytes ⟨pyReprBytes b⟩)
  | .pyOther s => .ok (utf8Bytes s)

/-- `BPlusTree._serialize_key` (src/index/bplus_tree.py): integers are
packed with `struct.pack("<Q", key)` (little-endian), strings are
UTF-8 encoded then truncated or zero-padded to `config.key_size`,
`bytes` values pass through unchanged, and any other type raises
`TypeError` ("Unsupported key type"). -/
def bplusSerializeKey (keySize : Nat) : PyKey → Except String (List Nat)
  | .pyInt n =>
    if 0 ≤ n ∧ n < 2 ^ 64 then .ok (leBytes 8 n.toNat) else .error "struct.error"
  | .pyStr s =>
    let e := utf8Bytes s
    if keySize < e.length then .ok (e.take keySize)
    else .ok (e ++ List.replicate (keySize - e.length) 0)
  | .pyBytes b => .ok b
  | .pyOther _ => .error "TypeError: Unsupported key type"

end PyMiniDB

namespace PyMiniDB

/-- C1 counterexample: the claim fails on `BPlusTree._serialize_key`
(src/index/bplus_tree.py, one of the two cited serializers): it packs
integers little-endian, so `serialize(1)` is `01 00 00 00 00 00 00 00`
(not the big-endian encoding) and `serialize(256) < serialize(1)`
byte-lexicographically, the opposite of the claimed order; moreover
even `SimpleBPlusTree._serialize_key` does not encode *every* integer,
raising `struct.error` on `-1`. -/
theorem c1_counterexample :
    bplusSerializeKey 8 (.pyInt 1) = .ok [1, 0, 0, 0, 0, 0, 0, 0] ∧
    bplusSerializeKey 8 (.pyInt 256) = .ok [0, 1, 0, 0, 0, 0, 0, 0] ∧
    bytLt [0, 1, 0, 0, 0, 0, 0, 0] [1, 0, 0, 0, 0, 0, 0, 0] = true ∧
    [1, 0, 0, 0, 0, 0, 0, 0] ≠ [0, 0, 0, 0, 0, 0, 0, 1] ∧
    simpleSerializeKey (.pyInt (-1)) = .error "struct.error" := by
  refine ⟨?_, ?_, by decide, by decide, ?_⟩
  · simp [bplusSerializeKey, leBytes]
  · simp [bplusSerializeKey, leBytes]
  · rfl

/-- C1 (amended): `SimpleBPlusTree._serialize_key` encodes integer keys
in `[0, 2^64)` as fixed 8-byte big-endian values, so byte-lexicographic
order matches numeric order there, with `serialize(1) = 00..00 01` and
`serialize(256) = 00..01 00`; `BPlusTree._serialize_key` instead packs
little-endian (and both raise `struct.error` outside `[0, 2^64)`). -/
theorem c1_key_serialization :
    simpleSerializeKey (.pyInt 1) = .ok [0, 0, 0, 0, 0, 0, 0, 1] ∧
    simpleSerializeKey (.pyInt 256) = .ok [0, 0, 0, 0, 0, 0, 1, 0] ∧
    (∀ a b : Int, 0 ≤ a → a < b → b < 2 ^ 64 →
      simpleSerializeKey (.pyInt a) = .ok (beBytes 8 a.toNat) ∧
      simpleSerializeKey (.pyInt b) = .ok (beBytes 8 b.toNat) ∧
      bytLt (beBytes 8 a.toNat) (beBytes 8 b.toNat) = true) ∧
    bplusSerializeKey 8 (.pyInt 1) = .ok [1, 0, 0, 0, 0, 0, 0, 0] ∧
    (∀ n : Int, n < 0 ∨ 2 ^ 64 ≤ n →
      simpleSerializeKey (.pyInt n) = .error "struct.error") := by
  refine ⟨by simp [simpleSerializeKey]; decide, by simp [simpleSerializeKey]; decide,
    ?_, by simp [bplusSerializeKey, leBytes], ?_⟩
  · intro a b ha hab hb
    have hser : simpleSerializeKey (.pyInt a) = .ok (beBytes 8 a.toNat) := by
      simp [simpleSerializeKey]
      omega
    have hser' : simpleSerializeKey (.pyInt b) = .ok (beBytes 8 b.toNat) := by
      simp [simpleSerializeKey]
      omega
    refine ⟨hser, hser', beBytes_lt_of_lt ?_ ?_⟩
    · omega
    · have : (256 : Nat) ^ 8 = 2 ^ 64 := by norm_num
      omega
  · intro n hn
    simp [simpleSerializeKey]
    omega

/-- C1 witness: the order-preservation part of the amended claim at the
concrete keys 1 and 256. -/
theorem c1_witness :
    simpleSerializeKey (.pyInt 1) = .ok (beBytes 8 (1 : Int).toNat) ∧
    simpleSerializeKey (.pyInt 256) = .ok (beBytes 8 (256 : Int).toNat) ∧
    bytLt (beBytes 8 (1 : Int).toNat) (beBytes 8 (256 : Int).toNat) = true :=
  c1_key_serialization.2.2.1 1 256 (by decide) (by decide) (by decide)

/-- C6 counterexample: the claim fails on `SimpleBPlusTree._serialize_key`
(one of the two cited serializers): a raw byte key is NOT passed through
unchanged (it falls into the `str(key).encode` branch, so `b"a"`, the
single byte 97, becomes the four bytes of the text `b'a'`), and a value
of unsupported type (e.g. `None`, whose `str()` is `"None"`) does not
fail but is serialized as UTF-8 text. -/
theorem c6_counterexample :
    simpleSerializeKey (.pyBytes [97]) = .ok [98, 39, 97, 39] ∧
    [98, 39, 97, 39] ≠ [97] ∧
    simpleSerializeKey (.pyOther "None") = .ok [78, 111, 110, 101] := by
  refine ⟨?_, by decide, ?_⟩
  · simp [simpleSerializeKey]
    decide
  · simp [simpleSerializeKey]
    decide

/-- C6 (amended): in `BPlusTree._serialize_key`, raw byte keys pass
through unchanged and any key that is not an integer, string or bytes
raises `TypeError` (the `UnsupportedKeyType` failure); in
`SimpleBPlusTree._serialize_key`, however, bytes keys and all other
non-int non-str values are serialized as the UTF-8 encoding of their
`str()` text and never produce a type failure. -/
theorem c6_key_type_boundary :
    (∀ b : List Nat, bplusSerializeKey 8 (.pyBytes b) = .ok b) ∧
    (∀ s : String, bplusSerializeKey 8 (.pyOther s) =
      .error "TypeError: Unsupported key type") ∧
    (∀ b : List Nat, simpleSerializeKey (.pyBytes b) = .ok (utf8Bytes ⟨pyReprBytes b⟩)) ∧
    (∀ s : String, simpleSerializeKey (.pyOther s) = .ok (utf8Bytes s)) :=
  ⟨fun _ => rfl, fun _ => rfl, fun _ => rfl, fun _ => rfl⟩

end PyMiniDB

namespace PyMiniDB

/-! ## Pages (src/storage/page.py)

A `Page` is a 4096-byte unit with a 29-byte header packed with
`struct.pack("<Q B I H H Q I", ...)` and a 4067-byte data region.  The
`dirty` flag is not modelled (no claim mentions it).  `struct.pack`
raises on out-of-range field values; the encoders here produce its
bytes for in-range values, and the claims carry the range hypotheses. -/

inductive PType where
  | free
  | dataPage
  | indexPage
  | catalogPage
  | freeSpaceMap
deriving DecidableEq

def ptypeToNat : PType → Nat
  | .free => 0
  | .dataPage => 1
  | .indexPage => 2
  | .catalogPage => 3
  | .freeSpaceMap => 4

/-- `PageType(v)` on an integer: raises `ValueError` unless `v` is one
of the five enum values. -/
def ptypeOfNat : Nat → Except String PType
  | 0 => .ok .free
  | 1 => .ok .dataPage
  | 2 => .ok .indexPage
  | 3 => .ok .catalogPage
  | 4 => .ok .freeSpaceMap
  | _ => .error "ValueError: invalid PageType"

def PAGE_SIZE : Nat := 4096

def HEADER_SIZE : Nat := 29

def DATA_SIZE : Nat := 4067

structure PageState where
  page_id : Nat
  page_type : PType
  table_id : Nat
  free_space_start : Nat
  free_space_end : Nat
  lsn : Nat
  checksum : Nat
  data : List Nat
deriving DecidableEq

/-- `Page.__init__`: fresh page with empty (zeroed) data region. -/
def freshPage (pid : Nat) (pt : PType) (tid : Nat) : PageState :=
  ⟨pid, pt, tid, HEADER_SIZE, PAGE_SIZE, 0, 0, List.replicate DATA_SIZE 0⟩

/-- The header bytes `struct.pack(Page.HEADER_FORMAT, ...)` with
checksum field value `c`. -/
def packHeader (p : PageState) (c : Nat) : List Nat :=
  leBytes 8 p.page_id ++ leBytes 1 (ptypeToNat p.page_type) ++ leBytes 4 p.table_id ++
    leBytes 2 p.free_space_start ++ leBytes 2 p.free_space_end ++ leBytes 8 p.lsn ++
    leBytes 4 c

/-- XOR-fold of 4-byte little-endian words, zero-padding a short final
chunk, as in the loop of `Page._calculate_checksum`. -/
def xorChunks : List Nat → Nat
  | [] => 0
  | [b0] => b0
  | [b0, b1] => b0 + 256 * b1
  | [b0, b1, b2] => b0 + 256 * b1 + 65536 * b2
  | b0 :: b1 :: b2 :: b3 :: rest =>
    (b0 + 256 * b1 + 65536 * b2 + 16777216 * b3) ^^^ xorChunks rest

/-- `Page._calculate_checksum`. -/
def calcChecksum (l : List Nat) : Nat :=
  if l.length < 4 then 0 else xorChunks l % 2 ^ 32

/-- The byte string returned by `Page.serialize`: the checksum is
computed over the header packed with the page's current `checksum`
attribute (0 on a freshly constructed page) followed by the data
region, then the header is re-packed with the computed checksum. -/
def pageSerializeBytes (p : PageState) : List Nat :=
  packHeader p (calcChecksum (packHeader p p.checksum ++ p.data)) ++ p.data

/-- The state update performed by `Page.serialize` (it assigns the
computed checksum to `self.checksum`). -/
def pageSerializeUpd (p : PageState) : PageState :=
  { p with checksum := calcChecksum (packHeader p p.checksum ++ p.data) }

/-- `Page.deserialize`: rejects a buffer that is not exactly 4096
bytes, unpacks every header field from the buffer (the `page_id`
argument is unused), and fails if the page-type byte is not a valid
`PageType` value. -/
def pageDeserialize (page_id : Nat) (raw : List Nat) : Except String PageState :=
  if raw.length ≠ PAGE_SIZE then .error "ValueError: wrong buffer size"
  else
    match ptypeOfNat (decodeLE ((raw.drop 8).take 1)) with
    | .error e => .error e
    | .ok pt =>
      .ok ⟨decodeLE (raw.take 8), pt, decodeLE ((raw.drop 9).take 4),
        decodeLE ((raw.drop 13).take 2), decodeLE ((raw.drop 15).take 2),
        decodeLE ((raw.drop 17).take 8), decodeLE ((raw.drop 25).take 4),
        (raw.drop 29).take 4067⟩

/-- `Page.allocate_space`: bump allocation from `free_space_start`,
returning the old offset on success and `None` when the request does
not fit; it is a total function and raises no exception. -/
def allocateSpace (p : PageState) (size : Nat) : Option Nat × PageState :=
  if p.free_space_start + size ≤ p.free_space_end then
    (some p.free_space_start, { p with free_space_start := p.free_space_start + size })
  else (none, p)

theorem packHeader_length (p : PageState) (c : Nat) : (packHeader p c).length = 29 := by
  simp [packHeader, leBytes_length]

theorem calcChecksum_lt (l : List Nat) : calcChecksum l < 2 ^ 32 := by
  unfold calcChecksum
  split
  · positivity
  · exact Nat.mod_lt _ (by positivity)

theorem pageSerializeBytes_length (p : PageState) (h : p.data.length = 4067) :
    (pageSerializeBytes p).length = 4096 := by
  simp [pageSerializeBytes, packHeader_length, h]

/-- Dropping the first 25 bytes of a serialized page exposes the
checksum field followed by the data region. -/
theorem packHeader_drop25 (p : PageState) (c : Nat) (rest : List Nat) :
    (packHeader p c ++ rest).drop 25 = leBytes 4 c ++ rest := rfl

end PyMiniDB

namespace PyMiniDB

theorem xorChunks_replicate_zero (n : Nat) : xorChunks (List.replicate n 0) = 0 := by
  induction n using Nat.strong_induction_on with
  | _ n ih =>
    match n with
    | 0 => rfl
    | 1 => rfl
    | 2 => rfl
    | 3 => rfl
    | m + 4 =>
      have : List.replicate (m + 4) (0 : Nat) = 0 :: 0 :: 0 :: 0 :: List.replicate m 0 := rfl
      rw [this]
      show (0 + 256 * 0 + 65536 * 0 + 16777216 * 0) ^^^ xorChunks (List.replicate m 0) = 0
      rw [ih m (by omega), Nat.xor_zero]

theorem xorChunks_cons3_replicate (b n : Nat) :
    xorChunks (b :: List.replicate (n + 3) 0) = b := by
  have : List.replicate (n + 3) (0 : Nat) = 0 :: 0 :: 0 :: List.replicate n 0 := rfl
  rw [this]
  show (b + 256 * 0 + 65536 * 0 + 16777216 * 0) ^^^ xorChunks (List.replicate n 0) = b
  rw [xorChunks_replicate_zero, Nat.xor_zero]
  omega

end PyMiniDB

namespace PyMiniDB

theorem xorChunks_four (b0 b1 b2 b3 : Nat) (rest : List Nat) :
    xorChunks (b0 :: b1 :: b2 :: b3 :: rest) =
      (b0 + 256 * b1 + 65536 * b2 + 16777216 * b3) ^^^ xorChunks rest := rfl

theorem xorChunks_cons_datazeros (b : Nat) : xorChunks (b :: List.replicate 4067 0) = b := by
  have h := xorChunks_cons3_replicate b 4064
  have e : 4064 + 3 = 4067 := rfl
  rw [e] at h
  exact h

end PyMiniDB

namespace PyMiniDB

theorem take4_leBytes4 (c : Nat) (rest : List Nat) :
    (leBytes 4 c ++ rest).take 4 = leBytes 4 c := rfl

theorem take_datazeros : (List.replicate 4067 (0 : Nat)).take 4067 = List.replicate 4067 0 := by
  rw [List.take_replicate, Nat.min_self]

/-- The checksum field stored in a serialized page is the checksum of
the header packed with the page's current (pre-call) `checksum`
attribute, concatenated with the data region. -/
theorem pageSerializeBytes_stored_checksum (p : PageState) :
    decodeLE (((pageSerializeBytes p).drop 25).take 4) =
      calcChecksum (packHeader p p.checksum ++ p.data) := by
  unfold pageSerializeBytes
  rw [packHeader_drop25, take4_leBytes4, decodeLE_leBytes]
  exact Nat.mod_eq_of_lt (calcChecksum_lt _)

/-- C7 counterexample: the claim fails on a valid reachable page state.
Take the in-memory page produced by `Page(1, PageType.FREE)` followed
by one `serialize()` call (exactly what `create_database` does for
page 1): its `checksum` attribute is now 7441, and a second
`serialize()` stores checksum 1903633, the checksum of the header
packed with 7441 - not 7441, the checksum computed over the header
with a zeroed checksum field concatenated with the data region. -/
theorem c7_counterexample :
    decodeLE (((pageSerializeBytes (pageSerializeUpd (freshPage 1 .free 0))).drop 25).take 4) =
      1903633 ∧
    calcChecksum (packHeader (pageSerializeUpd (freshPage 1 .free 0)) 0 ++
      (pageSerializeUpd (freshPage 1 .free 0)).data) = 7441 ∧
    (1903633 : Nat) ≠ 7441 := by
  have hzero : calcChecksum (packHeader (freshPage 1 .free 0) 0 ++ List.replicate 4067 0)
      = 7441 := by
    unfold calcChecksum
    rw [if_neg (by rw [List.length_append, packHeader_length, List.length_replicate]; omega)]
    simp only [packHeader, leBytes, freshPage, ptypeToNat, HEADER_SIZE, PAGE_SIZE,
      List.cons_append, List.nil_append, Nat.reduceDiv, Nat.reduceMod, Nat.reduceAdd,
      Nat.reduceMul, Nat.reducePow]
    rw [xorChunks_four, xorChunks_four, xorChunks_four, xorChunks_four, xorChunks_four,
      xorChunks_four, xorChunks_four, xorChunks_cons_datazeros]
    decide
  have hupd : pageSerializeUpd (freshPage 1 .free 0) =
      { freshPage 1 .free 0 with checksum := 7441 } := by
    unfold pageSerializeUpd
    rw [show (freshPage 1 .free 0).checksum = 0 from rfl]
    rw [show (freshPage 1 .free 0).data = List.replicate 4067 0 from rfl]
    rw [hzero]
    rfl
  have hsecond : calcChecksum (packHeader { freshPage 1 .free 0 with checksum := 7441 } 7441 ++
      List.replicate 4067 0) = 1903633 := by
    unfold calcChecksum
    rw [if_neg (by rw [List.length_append, packHeader_length, List.length_replicate]; omega)]
    simp only [packHeader, leBytes, freshPage, ptypeToNat, HEADER_SIZE, PAGE_SIZE,
      List.cons_append, List.nil_append, Nat.reduceDiv, Nat.reduceMod, Nat.reduceAdd,
      Nat.reduceMul, Nat.reducePow]
    rw [xorChunks_four, xorChunks_four, xorChunks_four, xorChunks_four, xorChunks_four,
      xorChunks_four, xorChunks_four, xorChunks_cons_datazeros]
    decide
  refine ⟨?_, ?_, by decide⟩
  · rw [pageSerializeBytes_stored_checksum, hupd]
    rw [show ({ freshPage 1 .free 0 with checksum := 7441 } : PageState).checksum = 7441 from
      rfl]
    rw [show ({ freshPage 1 .free 0 with checksum := 7441 } : PageState).data =
      List.replicate 4067 0 from rfl]
    exact hsecond
  · rw [hupd]
    rw [show ({ freshPage 1 .free 0 with checksum := 7441 } : PageState).data =
      List.replicate 4067 0 from rfl]
    have : packHeader ({ freshPage 1 .free 0 with checksum := 7441 } : PageState) 0 =
        packHeader (freshPage 1 .free 0) 0 := rfl
    rw [this, hzero]

/-- C7 (amended): for every page state with a full-sized data region,
`serialize()` returns exactly `PAGE_SIZE` (4096) bytes and is a pure
function of the page state (so two calls on the same state yield the
same bytes), and the stored checksum is the checksum computed over the
header packed with the page's current `checksum` field concatenated
with the data region; this coincides with the claimed
header-with-zeroed-checksum computation exactly when the current
checksum field is 0, as on every freshly constructed page (but not
after a previous `serialize()` or after `deserialize`, since
`serialize` re-packs with whatever `self.checksum` holds). -/
theorem c7_page_serialization (p : PageState) (hdata : p.data.length = 4067) :
    (pageSerializeBytes p).length = 4096 ∧
    decodeLE (((pageSerializeBytes p).drop 25).take 4) =
      calcChecksum (packHeader p p.checksum ++ p.data) ∧
    (p.checksum = 0 →
      decodeLE (((pageSerializeBytes p).drop 25).take 4) =
        calcChecksum (packHeader p 0 ++ p.data)) := by
  refine ⟨pageSerializeBytes_length p hdata, pageSerializeBytes_stored_checksum p, ?_⟩
  intro h0
  rw [pageSerializeBytes_stored_checksum, h0]

/-- C7 witness: the amended claim applied to a freshly constructed
Free page with id 0. -/
theorem c7_witness :
    ((pageSerializeBytes (freshPage 0 .free 0)).length = 4096 ∧
      decodeLE (((pageSerializeBytes (freshPage 0 .free 0)).drop 25).take 4) =
        calcChecksum (packHeader (freshPage 0 .free 0) (freshPage 0 .free 0).checksum ++
          (freshPage 0 .free 0).data) ∧
      ((freshPage 0 .free 0).checksum = 0 →
        decodeLE (((pageSerializeBytes (freshPage 0 .free 0)).drop 25).take 4) =
          calcChecksum (packHeader (freshPage 0 .free 0) 0 ++ (freshPage 0 .free 0).data))) :=
  c7_page_serialization (freshPage 0 .free 0)
    (by rw [show (freshPage 0 .free 0).data = List.replicate 4067 0 from rfl,
      List.length_replicate])

/-- C8: `allocate_space` returns `None` exactly when
`free_space_start + size > free_space_end`, and otherwise returns the
old `free_space_start` and advances it by `size`, leaving every other
field unchanged; it is a total function (never an exception).  On a
fresh Data page (`free_space_start = 29`, `free_space_end = 4096`),
`allocate(4067)` succeeds returning offset 29 and exhausts the page,
and a subsequent `allocate(1)` returns `None`. -/
theorem c8_page_allocation :
    (∀ (p : PageState) (size : Nat),
      ((allocateSpace p size).1 = none ↔ p.free_space_end < p.free_space_start + size) ∧
      (p.free_space_start + size ≤ p.free_space_end →
        allocateSpace p size =
          (some p.free_space_start,
            { p with free_space_start := p.free_space_start + size }))) ∧
    (allocateSpace (freshPage 0 .dataPage 0) 4067).1 = some 29 ∧
    (allocateSpace (freshPage 0 .dataPage 0) 4067).2.free_space_start = 4096 ∧
    (allocateSpace (allocateSpace (freshPage 0 .dataPage 0) 4067).2 1).1 = none := by
  refine ⟨?_, by decide, by decide, by decide⟩
  intro p size
  constructor
  · unfold allocateSpace
    split
    · simp
      omega
    · simp
      omega
  · intro h
    unfold allocateSpace
    rw [if_pos h]

/-- C8 witness: the allocation contract applied to a fresh Data page
and size 4067. -/
theorem c8_witness :
    (freshPage 0 .dataPage 0).free_space_start + 4067 ≤
      (freshPage 0 .dataPage 0).free_space_end ∧
    allocateSpace (freshPage 0 .dataPage 0) 4067 =
      (some (freshPage 0 .dataPage 0).free_space_start,
        { freshPage 0 .dataPage 0 with
          free_space_start := (freshPage 0 .dataPage 0).free_space_start + 4067 }) :=
  ⟨by decide, (c8_page_allocation.1 (freshPage 0 .dataPage 0) 4067).2 (by decide)⟩

theorem ptypeToNat_ofNat {v : Nat} {pt : PType} (h : ptypeOfNat v = .ok pt) :
    ptypeToNat pt = v := by
  match v, h with
  | 0, h => cases h; rfl
  | 1, h => cases h; rfl
  | 2, h => cases h; rfl
  | 3, h => cases h; rfl
  | 4, h => cases h; rfl

/-- C10: `Page.deserialize` ignores its `page_id` argument entirely:
for any two argument values and any buffer it returns identical
results, and on success every header field of the returned page - in
particular `page_id` - is the value decoded from the corresponding
slice of the buffer's 29 header bytes, with the data region being the
remaining 4067 bytes. -/
theorem c10_deserialize_ignores_page_id :
    (∀ (pid1 pid2 : Nat) (raw : List Nat),
      pageDeserialize pid1 raw = pageDeserialize pid2 raw) ∧
    (∀ (pid : Nat) (raw : List Nat) (p : PageState),
      pageDeserialize pid raw = .ok p →
      p.page_id = decodeLE (raw.take 8) ∧
      ptypeToNat p.page_type = decodeLE ((raw.drop 8).take 1) ∧
      p.table_id = decodeLE ((raw.drop 9).take 4) ∧
      p.free_space_start = decodeLE ((raw.drop 13).take 2) ∧
      p.free_space_end = decodeLE ((raw.drop 15).take 2) ∧
      p.lsn = decodeLE ((raw.drop 17).take 8) ∧
      p.checksum = decodeLE ((raw.drop 25).take 4) ∧
      p.data = (raw.drop 29).take 4067) := by
  refine ⟨fun pid1 pid2 raw => rfl, ?_⟩
  intro pid raw p h
  unfold pageDeserialize at h
  split at h
  · cases h
  · split at h
    · cases h
    · rename_i pt hpt
      cases h
      exact ⟨rfl, ptypeToNat_ofNat hpt, rfl, rfl, rfl, rfl, rfl, rfl⟩

end PyMiniDB

namespace PyMiniDB

/-- C10 witness: deserializing a concrete 4096-byte buffer (header for
page 5, table 7, followed by a zeroed data region) with page-id
arguments 99 and 3 gives identical results, whose fields are the
decoded buffer values (page id 5, not 99 or 3). -/
theorem c10_witness :
    pageDeserialize 99 (packHeader (freshPage 5 .free 7) 0 ++ List.replicate 4067 0) =
      pageDeserialize 3 (packHeader (freshPage 5 .free 7) 0 ++ List.replicate 4067 0) ∧
    (5 : Nat) =
      decodeLE ((packHeader (freshPage 5 .free 7) 0 ++ List.replicate 4067 0).take 8) := by
  have hok : pageDeserialize 99 (packHeader (freshPage 5 .free 7) 0 ++ List.replicate 4067 0) =
      .ok ⟨5, .free, 7, 29, 4096, 0, 0, List.replicate 4067 0⟩ := by
    have hscrut : ptypeOfNat (decodeLE (List.take 1 (List.drop 8
        (packHeader (freshPage 5 .free 7) 0 ++ List.replicate 4067 0)))) =
        Except.ok PType.free := rfl
    have hdat : List.drop 29 (packHeader (freshPage 5 .free 7) 0 ++ List.replicate 4067 0) =
        List.replicate 4067 0 := rfl
    unfold pageDeserialize
    rw [if_neg (by
      rw [List.length_append, packHeader_length, List.length_replicate]
      simp only [PAGE_SIZE]
      omega)]
    rw [hscrut, hdat, take_datazeros]
    rfl
  refine ⟨c10_deserialize_ignores_page_id.1 99 3 _, ?_⟩
  have h2 := (c10_deserialize_ignores_page_id.2 99
    (packHeader (freshPage 5 .free 7) 0 ++ List.replicate 4067 0)
    ⟨5, .free, 7, 29, 4096, 0, 0, List.replicate 4067 0⟩ hok).1
  exact h2

end PyMiniDB

namespace PyMiniDB

/-! ## Storage manager (src/storage/storage_manager.py)

The database file is modelled as a byte list.  `seek`+`write` becomes
`writeAt` (zero-filling a gap beyond the end of file, as POSIX files
do; the code never actually seeks past the end).  Console printing and
the file handle are not modelled; `is_open` is. -/

structure DBHeader where
  magic : Nat
  page_size : Nat
  db_size : Nat
  catalog_root : Nat
  free_list_head : Nat
  last_transaction_id : Nat
  checksum : Nat
deriving DecidableEq

/-- `DatabaseHeader.MAGIC_NUMBER` (0x504D4442, "PMDB"). -/
def MAGIC : Nat := 0x504D4442

/-- `DatabaseHeader.__init__`. -/
def dbHeaderNew : DBHeader := ⟨MAGIC, 4096, 0, 0, 0, 0, 0⟩

/-- `DatabaseHeader.serialize`: `struct.pack("<I I Q Q Q Q I", ...)`
(44 bytes) zero-padded (`ljust`) to 4096 bytes. -/
def dbHeaderSerialize (h : DBHeader) : List Nat :=
  leBytes 4 h.magic ++ leBytes 4 h.page_size ++ leBytes 8 h.db_size ++
    leBytes 8 h.catalog_root ++ leBytes 8 h.free_list_head ++
    leBytes 8 h.last_transaction_id ++ leBytes 4 h.checksum ++ List.replicate 4052 0

/-- `DatabaseHeader.deserialize`: needs at least 44 bytes, validates
the magic number, unpacks the fields. -/
def dbHeaderDeserialize (data : List Nat) : Except String DBHeader :=
  if data.length < 44 then .error "ValueError: invalid header data"
  else if decodeLE (data.take 4) ≠ MAGIC then .error "ValueError: invalid magic number"
  else .ok ⟨decodeLE (data.take 4), decodeLE ((data.drop 4).take 4),
    decodeLE ((data.drop 8).take 8), decodeLE ((data.drop 16).take 8),
    decodeLE ((data.drop 24).take 8), decodeLE ((data.drop 32).take 8),
    decodeLE ((data.drop 40).take 4)⟩

/-- The byte content written by `StorageManager.create_database` on a
fresh path: a header with `db_size = 10` followed by the 9 serialized
Free pages with ids 1..9. -/
def createDatabaseFile : List Nat :=
  dbHeaderSerialize { dbHeaderNew with db_size := 10 } ++
    (List.range' 1 9).foldr (fun pid acc => pageSerializeBytes (freshPage pid .free 0) ++ acc) []

structure SMState where
  header : DBHeader
  file : List Nat
  isOpen : Bool
deriving DecidableEq

/-- `StorageManager.open` on a file with the given byte content: reads
the first 4096 bytes, validates the header, checks the page size. -/
def smOpen (file : List Nat) : Except String SMState :=
  match dbHeaderDeserialize (file.take 4096) with
  | .error e => .error e
  | .ok h =>
    if h.page_size ≠ 4096 then .error "ValueError: page size mismatch"
    else .ok ⟨h, file, true⟩

/-- `seek(off)` followed by `write(bytes)` on a file, zero-filling any
gap beyond the current end of file. -/
def writeAt (file : List Nat) (off : Nat) (bytes : List Nat) : List Nat :=
  let f := file ++ List.replicate (off - file.length) 0
  f.take off ++ bytes ++ f.drop (off + bytes.length)

/-- `StorageManager.read_page`. -/
def readPage (s : SMState) (pid : Nat) : Except String PageState :=
  if s.isOpen = false then .error "RuntimeError: not open"
  else if s.header.db_size ≤ pid then .error "ValueError: page out of bounds"
  else if ((s.file.drop (pid * 4096)).take 4096).length ≠ 4096 then
    .error "ValueError: could not read full page"
  else pageDeserialize pid ((s.file.drop (pid * 4096)).take 4096)

/-- `StorageManager._extend_file`. -/
def extendFile (s : SMState) (newSize : Nat) : SMState :=
  if newSize ≤ s.header.db_size then s
  else
    let oldSize := s.header.db_size
    let file1 := writeAt s.file (oldSize * 4096)
      ((List.range' oldSize (newSize - oldSize)).foldr
        (fun pid acc => pageSerializeBytes (freshPage pid .free 0) ++ acc) [])
    let h' := { s.header with db_size := newSize }
    ⟨h', writeAt file1 0 (dbHeaderSerialize h'), s.isOpen⟩

/-- `StorageManager.write_page` (the `dirty` flag is not modelled). -/
def writePage (s : SMState) (p : PageState) : Except String SMState :=
  if s.isOpen = false then .error "RuntimeError: not open"
  else
    let s1 := if s.header.db_size ≤ p.page_id then extendFile s (p.page_id + 1) else s
    .ok ⟨s1.header, writeAt s1.file (p.page_id * 4096) (pageSerializeBytes p), s1.isOpen⟩

theorem dbHeaderSerialize_length (h : DBHeader) : (dbHeaderSerialize h).length = 4096 := by
  simp only [dbHeaderSerialize, List.length_append, leBytes_length, List.length_replicate]

theorem pagesFold_length (l : List Nat) :
    ((l.foldr (fun pid acc => pageSerializeBytes (freshPage pid .free 0) ++ acc) []).length) =
      l.length * 4096 := by
  induction l with
  | nil => rfl
  | cons x xs ih =>
    simp only [List.foldr_cons, List.length_append, ih, List.length_cons]
    rw [pageSerializeBytes_length]
    · ring
    · rw [show (freshPage x .free 0).data = List.replicate 4067 0 from rfl,
        List.length_replicate]

theorem createDatabaseFile_length : createDatabaseFile.length = 40960 := by
  simp only [createDatabaseFile, List.length_append, dbHeaderSerialize_length, pagesFold_length]
  rfl

end PyMiniDB

namespace PyMiniDB

theorem ptypeToNat_lt (pt : PType) : ptypeToNat pt < 256 := by
  cases pt <;> decide

theorem ptypeOfNat_toNat (pt : PType) : ptypeOfNat (ptypeToNat pt) = .ok pt := by
  cases pt <;> rfl

theorem pageSerializeBytes_take8 (p : PageState) :
    (pageSerializeBytes p).take 8 = leBytes 8 p.page_id := rfl

theorem pageSerializeBytes_slice_ptype (p : PageState) :
    ((pageSerializeBytes p).drop 8).take 1 = leBytes 1 (ptypeToNat p.page_type) := rfl

theorem pageSerializeBytes_slice_tid (p : PageState) :
    ((pageSerializeBytes p).drop 9).take 4 = leBytes 4 p.table_id := rfl

theorem pageSerializeBytes_slice_fss (p : PageState) :
    ((pageSerializeBytes p).drop 13).take 2 = leBytes 2 p.free_space_start := rfl

theorem pageSerializeBytes_slice_fse (p : PageState) :
    ((pageSerializeBytes p).drop 15).take 2 = leBytes 2 p.free_space_end := rfl

theorem pageSerializeBytes_slice_lsn (p : PageState) :
    ((pageSerializeBytes p).drop 17).take 8 = leBytes 8 p.lsn := rfl

theorem pageSerializeBytes_drop29 (p : PageState) :
    (pageSerializeBytes p).drop 29 = p.data := rfl

/-- Round trip: deserializing a serialized page recovers every header
field and the data region; only the `checksum` attribute differs from
the in-memory original (it becomes the stored checksum). -/
theorem pageDeserialize_pageSerializeBytes (pid : Nat) (p : PageState)
    (hdata : p.data.length = 4067) (hpid : p.page_id < 2 ^ 64) (htid : p.table_id < 2 ^ 32)
    (hfss : p.free_space_start < 2 ^ 16) (hfse : p.free_space_end < 2 ^ 16)
    (hlsn : p.lsn < 2 ^ 64) :
    pageDeserialize pid (pageSerializeBytes p) =
      .ok { p with checksum := calcChecksum (packHeader p p.checksum ++ p.data) } := by
  unfold pageDeserialize
  rw [if_neg (by rw [pageSerializeBytes_length p hdata]; exact fun h => h rfl)]
  rw [pageSerializeBytes_slice_ptype, decodeLE_leBytes,
    Nat.mod_eq_of_lt (by have := ptypeToNat_lt p.page_type; simpa using this),
    ptypeOfNat_toNat]
  rw [pageSerializeBytes_take8, decodeLE_leBytes,
    Nat.mod_eq_of_lt (by simpa using hpid)]
  rw [pageSerializeBytes_slice_tid, decodeLE_leBytes,
    Nat.mod_eq_of_lt (by simpa using htid)]
  rw [pageSerializeBytes_slice_fss, decodeLE_leBytes,
    Nat.mod_eq_of_lt (by simpa using hfss)]
  rw [pageSerializeBytes_slice_fse, decodeLE_leBytes,
    Nat.mod_eq_of_lt (by simpa using hfse)]
  rw [pageSerializeBytes_slice_lsn, decodeLE_leBytes,
    Nat.mod_eq_of_lt (by simpa using hlsn)]
  rw [pageSerializeBytes_stored_checksum]
  rw [pageSerializeBytes_drop29,
    show p.data.take 4067 = p.data by rw [← hdata]; exact List.take_length p.data]

end PyMiniDB

namespace PyMiniDB

/-- Writing at exactly the end of file appends. -/
theorem writeAt_end (f b : List Nat) : writeAt f f.length b = f ++ b := by
  unfold writeAt
  rw [Nat.sub_self]
  simp only [List.replicate_zero, List.append_nil]
  rw [List.take_length, List.drop_eq_nil_of_le (by omega)]
  rw [List.append_nil]

/-- Writing at offset 0 a block no longer than the file overwrites its
prefix. -/
theorem writeAt_zero (f b : List Nat) :
    writeAt f 0 b = b ++ f.drop b.length := by
  unfold writeAt
  rw [Nat.zero_sub]
  simp only [List.replicate_zero, List.append_nil, List.take_zero, List.nil_append,
    Nat.zero_add]

/-- Writing a block that ends exactly at the end of file replaces the
suffix. -/
theorem writeAt_suffix (f b : List Nat) (off : Nat) (h : f.length = off + b.length) :
    writeAt f off b = f.take off ++ b := by
  unfold writeAt
  rw [show off - f.length = 0 by omega]
  simp only [List.replicate_zero, List.append_nil]
  rw [List.drop_eq_nil_of_le (by omega), List.append_nil]

end PyMiniDB

namespace PyMiniDB

theorem dbHeaderSerialize_take4 (h : DBHeader) :
    (dbHeaderSerialize h).take 4 = leBytes 4 h.magic := rfl

theorem dbHeaderSerialize_slice_ps (h : DBHeader) :
    ((dbHeaderSerialize h).drop 4).take 4 = leBytes 4 h.page_size := rfl

theorem dbHeaderSerialize_slice_db (h : DBHeader) :
    ((dbHeaderSerialize h).drop 8).take 8 = leBytes 8 h.db_size := rfl

theorem dbHeaderSerialize_slice_cr (h : DBHeader) :
    ((dbHeaderSerialize h).drop 16).take 8 = leBytes 8 h.catalog_root := rfl

theorem dbHeaderSerialize_slice_fl (h : DBHeader) :
    ((dbHeaderSerialize h).drop 24).take 8 = leBytes 8 h.free_list_head := rfl

theorem dbHeaderSerialize_slice_tx (h : DBHeader) :
    ((dbHeaderSerialize h).drop 32).take 8 = leBytes 8 h.last_transaction_id := rfl

theorem dbHeaderSerialize_slice_cs (h : DBHeader) :
    ((dbHeaderSerialize h).drop 40).take 4 = leBytes 4 h.checksum := rfl

/-- Round trip for the database file header (all fields in range and a
valid magic number). -/
theorem dbHeaderDeserialize_serialize (h : DBHeader) (hm : h.magic = MAGIC)
    (hps : h.page_size < 2 ^ 32) (hdb : h.db_size < 2 ^ 64) (hcr : h.catalog_root < 2 ^ 64)
    (hfl : h.free_list_head < 2 ^ 64) (htx : h.last_transaction_id < 2 ^ 64)
    (hcs : h.checksum < 2 ^ 32) :
    dbHeaderDeserialize (dbHeaderSerialize h) = .ok h := by
  have hm32 : h.magic < 2 ^ 32 := by rw [hm]; decide
  unfold dbHeaderDeserialize
  rw [if_neg (by rw [dbHeaderSerialize_length]; omega)]
  rw [dbHeaderSerialize_take4, decodeLE_leBytes, Nat.mod_eq_of_lt (by simpa using hm32), hm]
  rw [if_neg (by exact fun hc => hc rfl)]
  rw [dbHeaderSerialize_slice_ps, decodeLE_leBytes, Nat.mod_eq_of_lt (by simpa using hps)]
  rw [dbHeaderSerialize_slice_db, decodeLE_leBytes, Nat.mod_eq_of_lt (by simpa using hdb)]
  rw [dbHeaderSerialize_slice_cr, decodeLE_leBytes, Nat.mod_eq_of_lt (by simpa using hcr)]
  rw [dbHeaderSerialize_slice_fl, decodeLE_leBytes, Nat.mod_eq_of_lt (by simpa using hfl)]
  rw [dbHeaderSerialize_slice_tx, decodeLE_leBytes, Nat.mod_eq_of_lt (by simpa using htx)]
  rw [dbHeaderSerialize_slice_cs, decodeLE_leBytes, Nat.mod_eq_of_lt (by simpa using hcs)]
  rw [← hm]

end PyMiniDB

namespace PyMiniDB

/-- The state produced by `create` + `open`. -/
def openedState : SMState :=
  ⟨{ dbHeaderNew with db_size := 10 }, createDatabaseFile, true⟩

theorem createDatabaseFile_take4096 :
    createDatabaseFile.take 4096 = dbHeaderSerialize { dbHeaderNew with db_size := 10 } := by
  unfold createDatabaseFile
  rw [show (4096 : Nat) =
    (dbHeaderSerialize { dbHeaderNew with db_size := 10 }).length from
    (dbHeaderSerialize_length _).symm]
  exact List.take_left _ _

/-- Opening the file written by `create_database` succeeds and reports
`db_size = 10`. -/
theorem smOpen_createDatabaseFile : smOpen createDatabaseFile = .ok openedState := by
  unfold smOpen
  rw [createDatabaseFile_take4096]
  rw [dbHeaderDeserialize_serialize _ rfl (by decide) (by decide) (by decide) (by decide)
    (by decide) (by decide)]
  rfl

end PyMiniDB

namespace PyMiniDB

theorem freshPage_data_length (pid : Nat) (pt : PType) (tid : Nat) :
    (freshPage pid pt tid).data.length = 4067 := by
  rw [show (freshPage pid pt tid).data = List.replicate 4067 0 from rfl, List.length_replicate]

theorem openedState_slice1 :
    (createDatabaseFile.drop (1 * 4096)).take 4096 =
      pageSerializeBytes (freshPage 1 .free 0) := by
  rw [show (1 * 4096 : Nat) = 4096 from rfl]
  have hdrop : createDatabaseFile.drop 4096 =
      (List.range' 1 9).foldr
        (fun pid acc => pageSerializeBytes (freshPage pid .free 0) ++ acc) [] := by
    unfold createDatabaseFile
    rw [show (4096 : Nat) =
      (dbHeaderSerialize { dbHeaderNew with db_size := 10 }).length from
      (dbHeaderSerialize_length _).symm]
    exact List.drop_left _ _
  rw [hdrop]
  rw [show (List.range' 1 9).foldr
      (fun pid acc => pageSerializeBytes (freshPage pid .free 0) ++ acc) [] =
    pageSerializeBytes (freshPage 1 .free 0) ++
      (List.range' 2 8).foldr
        (fun pid acc => pageSerializeBytes (freshPage pid .free 0) ++ acc) [] from rfl]
  rw [show (4096 : Nat) = (pageSerializeBytes (freshPage 1 .free 0)).length from
    (pageSerializeBytes_length _ (freshPage_data_length 1 .free 0)).symm]
  exact List.take_left _ _

/-- `readPage(1)` after `create` + `open` returns the serialized Free
page 1 (its `page_type` is `FREE`). -/
theorem readPage_openedState_1 :
    readPage openedState 1 =
      .ok { freshPage 1 .free 0 with
        checksum := calcChecksum (packHeader (freshPage 1 .free 0) 0 ++
          (freshPage 1 .free 0).data) } := by
  unfold readPage
  rw [if_neg (by decide)]
  rw [if_neg (by decide)]
  rw [show openedState.file = createDatabaseFile from rfl]
  rw [openedState_slice1]
  rw [if_neg (by
    rw [pageSerializeBytes_length _ (freshPage_data_length 1 .free 0)]
    exact fun hc => hc rfl)]
  rw [pageDeserialize_pageSerializeBytes 1 (freshPage 1 .free 0)
    (freshPage_data_length 1 .free 0) (by decide) (by decide) (by decide) (by decide)
    (by decide)]
  rfl

end PyMiniDB

namespace PyMiniDB

/-- Writing a page with `page_id ≥ db_size` extends the file to
`page_id + 1` pages and stores the serialized page at its offset; a
subsequent `read_page(page_id)` returns it with `page_id`,
`page_type`, `table_id` and the data region unchanged. -/
theorem writePage_extends_and_reads (s : SMState) (p : PageState)
    (hopen : s.isOpen = true)
    (hlen : s.file.length = s.header.db_size * 4096)
    (hid : s.header.db_size ≤ p.page_id)
    (hdata : p.data.length = 4067) (hpid : p.page_id < 2 ^ 64) (htid : p.table_id < 2 ^ 32)
    (hfss : p.free_space_start < 2 ^ 16) (hfse : p.free_space_end < 2 ^ 16)
    (hlsn : p.lsn < 2 ^ 64) :
    ∃ s2, writePage s p = .ok s2 ∧ s2.header.db_size = p.page_id + 1 ∧
      readPage s2 p.page_id =
        .ok { p with checksum := calcChecksum (packHeader p p.checksum ++ p.data) } := by
  have h1 : writePage s p = .ok ⟨(extendFile s (p.page_id + 1)).header,
      writeAt (extendFile s (p.page_id + 1)).file (p.page_id * 4096) (pageSerializeBytes p),
      (extendFile s (p.page_id + 1)).isOpen⟩ := by
    unfold writePage
    rw [if_neg (by rw [hopen]; simp), if_pos hid]
  have h2 : extendFile s (p.page_id + 1) =
      ⟨{ s.header with db_size := p.page_id + 1 },
        writeAt (writeAt s.file (s.header.db_size * 4096)
          ((List.range' s.header.db_size (p.page_id + 1 - s.header.db_size)).foldr
            (fun pid acc => pageSerializeBytes (freshPage pid .free 0) ++ acc) [])) 0
          (dbHeaderSerialize { s.header with db_size := p.page_id + 1 }),
        s.isOpen⟩ := by
    unfold extendFile
    rw [if_neg (by omega)]
  have hpagesLen : ((List.range' s.header.db_size (p.page_id + 1 - s.header.db_size)).foldr
      (fun pid acc => pageSerializeBytes (freshPage pid .free 0) ++ acc) []).length =
      (p.page_id + 1 - s.header.db_size) * 4096 := by
    rw [pagesFold_length, List.length_range']
  have hfile1 : writeAt s.file (s.header.db_size * 4096)
      ((List.range' s.header.db_size (p.page_id + 1 - s.header.db_size)).foldr
        (fun pid acc => pageSerializeBytes (freshPage pid .free 0) ++ acc) []) =
      s.file ++ (List.range' s.header.db_size (p.page_id + 1 - s.header.db_size)).foldr
        (fun pid acc => pageSerializeBytes (freshPage pid .free 0) ++ acc) [] := by
    rw [← hlen]
    exact writeAt_end _ _
  have hlen1 : (s.file ++ (List.range' s.header.db_size
      (p.page_id + 1 - s.header.db_size)).foldr
        (fun pid acc => pageSerializeBytes (freshPage pid .free 0) ++ acc) []).length =
      (p.page_id + 1) * 4096 := by
    rw [List.length_append, hlen, hpagesLen]
    have := hid
    omega
  have hfile2 : writeAt (s.file ++ (List.range' s.header.db_size
      (p.page_id + 1 - s.header.db_size)).foldr
        (fun pid acc => pageSerializeBytes (freshPage pid .free 0) ++ acc) []) 0
      (dbHeaderSerialize { s.header with db_size := p.page_id + 1 }) =
      dbHeaderSerialize { s.header with db_size := p.page_id + 1 } ++
        (s.file ++ (List.range' s.header.db_size
          (p.page_id + 1 - s.header.db_size)).foldr
            (fun pid acc => pageSerializeBytes (freshPage pid .free 0) ++ acc) []).drop
          (dbHeaderSerialize { s.header with db_size := p.page_id + 1 }).length := by
    exact writeAt_zero _ _
  have hlen2 : (dbHeaderSerialize { s.header with db_size := p.page_id + 1 } ++
      (s.file ++ (List.range' s.header.db_size
        (p.page_id + 1 - s.header.db_size)).foldr
          (fun pid acc => pageSerializeBytes (freshPage pid .free 0) ++ acc) []).drop
        (dbHeaderSerialize { s.header with db_size := p.page_id + 1 }).length).length =
      (p.page_id + 1) * 4096 := by
    rw [List.length_append, List.length_drop, hlen1, dbHeaderSerialize_length]
    omega
  set file2 := dbHeaderSerialize { s.header with db_size := p.page_id + 1 } ++
    (s.file ++ (List.range' s.header.db_size
      (p.page_id + 1 - s.header.db_size)).foldr
        (fun pid acc => pageSerializeBytes (freshPage pid .free 0) ++ acc) []).drop
      (dbHeaderSerialize { s.header with db_size := p.page_id + 1 }).length with hfile2def
  have hfile3 : writeAt file2 (p.page_id * 4096) (pageSerializeBytes p) =
      file2.take (p.page_id * 4096) ++ pageSerializeBytes p := by
    refine writeAt_suffix _ _ _ ?_
    rw [hlen2, pageSerializeBytes_length _ hdata]
    omega
  have htakeLen : (file2.take (p.page_id * 4096)).length = p.page_id * 4096 := by
    rw [List.length_take, hlen2]
    omega
  refine ⟨⟨{ s.header with db_size := p.page_id + 1 },
    file2.take (p.page_id * 4096) ++ pageSerializeBytes p, s.isOpen⟩, ?_, rfl, ?_⟩
  · rw [h1, h2]
    dsimp only
    rw [hfile1, hfile2, hfile3]
  · set A := file2.take (p.page_id * 4096) with hA
    unfold readPage
    dsimp only
    rw [if_neg (by rw [hopen]; decide)]
    rw [if_neg (by omega)]
    rw [← htakeLen]
    rw [List.drop_left]
    rw [show (4096 : Nat) = (pageSerializeBytes p).length from
      (pageSerializeBytes_length _ hdata).symm]
    rw [List.take_length]
    rw [if_neg (by rw [pageSerializeBytes_length _ hdata]; exact fun hc => hc rfl)]
    exact pageDeserialize_pageSerializeBytes _ p hdata hpid htid hfss hfse hlsn

end PyMiniDB

namespace PyMiniDB

/-- C9: after `create` followed by `open`, `db_size` is 10 and
`readPage(1)` returns a page of type Free; and for every open state
with a consistent file (length `db_size * 4096`) and every page with
in-range header fields and `page_id ≥ db_size`, `writePage` succeeds,
raises `db_size` to `page_id + 1`, and a subsequent
`readPage(page_id)` returns the written content - `page_id`,
`page_type`, `table_id` and the data bytes unchanged (only the
in-memory `checksum` attribute is replaced by the stored checksum). -/
theorem c9_storage_round_trip :
    (smOpen createDatabaseFile = .ok openedState ∧
      openedState.header.db_size = 10 ∧
      (∃ q, readPage openedState 1 = .ok q ∧ q.page_type = .free)) ∧
    (∀ (s : SMState) (p : PageState),
      s.isOpen = true → s.file.length = s.header.db_size * 4096 →
      s.header.db_size ≤ p.page_id → p.data.length = 4067 → p.page_id < 2 ^ 64 →
      p.table_id < 2 ^ 32 → p.free_space_start < 2 ^ 16 → p.free_space_end < 2 ^ 16 →
      p.lsn < 2 ^ 64 →
      ∃ s2, writePage s p = .ok s2 ∧ s2.header.db_size = p.page_id + 1 ∧
        readPage s2 p.page_id = .ok { p with
          checksum := calcChecksum (packHeader p p.checksum ++ p.data) }) := by
  refine ⟨⟨smOpen_createDatabaseFile, rfl, ?_⟩, ?_⟩
  · exact ⟨_, readPage_openedState_1, rfl⟩
  · intro s p hopen hlen hid hdata hpid htid hfss hfse hlsn
    exact writePage_extends_and_reads s p hopen hlen hid hdata hpid htid hfss hfse hlsn

/-- C9 witness: writing a fresh Data page with id 10 for table 3 into
the just-created-and-opened database. -/
theorem c9_witness :
    ∃ s2, writePage openedState (freshPage 10 .dataPage 3) = .ok s2 ∧
      s2.header.db_size = (freshPage 10 .dataPage 3).page_id + 1 ∧
      readPage s2 (freshPage 10 .dataPage 3).page_id =
        .ok { freshPage 10 .dataPage 3 with
          checksum := calcChecksum (packHeader (freshPage 10 .dataPage 3)
            (freshPage 10 .dataPage 3).checksum ++ (freshPage 10 .dataPage 3).data) } :=
  c9_storage_round_trip.2 openedState (freshPage 10 .dataPage 3) rfl
    (by
      rw [show openedState.file = createDatabaseFile from rfl, createDatabaseFile_length]
      decide)
    (by decide) (freshPage_data_length 10 .dataPage 3) (by decide) (by decide) (by decide)
    (by decide) (by decide)

end PyMiniDB

namespace PyMiniDB

/-! ## SimpleBPlusTree (src/index/simple_bplus_tree.py)

The Python tree is a mutable object graph: internal `TreeNode`s hold
child references, leaves hold parallel `keys`/`values` lists and a
`next_leaf` pointer, and `_find_parent` walks from the root comparing
nodes (dataclass equality, which within one tree coincides with object
identity, since distinct leaves always differ in their `next_leaf`
chains).  The embedding makes the graph explicit:

* `RT` is the routing tree; its leaves are numeric ids (standing for
  the identity of the Python leaf objects);
* `chain` lists the leaf records in `next_leaf` order (the record
  after id `i` is the leaf `i`'s `next_leaf`); a leaf split inserts
  the new right leaf directly after the split leaf in `chain`
  (`new_leaf.next_leaf = leaf.next_leaf; leaf.next_leaf = new_leaf`),
  while the routing tree inserts it at the position determined by the
  promoted key - these can disagree, exactly as in the source;
* `nextId` supplies fresh ids for newly allocated leaf objects;
* `mapKeys` is the key set of the auxiliary `key_to_value` dict
  (insert adds the serialized key, delete removes it; its values are
  never read by search, so only the key set is modelled);
* the recursive insert mirrors the source's split/promote logic: the
  bottom-up `_find_parent` lookups always find exactly the parent on
  the descent path, so promotion along the recursion path is the same
  computation.

Keys are the serialized byte strings (`List Nat`); the tree operations
receive them directly, mirroring the `key_bytes` values that the
Python methods compute first. -/

structure LeafRec (V : Type) where
  id : Nat
  keys : List (List Nat)
  vals : List V
deriving DecidableEq

inductive RT where
  | leaf (id : Nat)
  | node (keys : List (List Nat)) (children : List RT)

/-- The keys stored in a node (empty for the leaf ids of the routing
tree; leaf keys live in the chain records). -/
def RT.nodeKeys : RT → List (List Nat)
  | .leaf _ => []
  | .node keys _ => keys

/-- The number of children of a node. -/
def RT.childCount : RT → Nat
  | .leaf _ => 0
  | .node _ children => children.length

/-- Whether the node is a leaf reference. -/
def RT.isLeafRef : RT → Bool
  | .leaf _ => true
  | .node _ _ => false

/-- `SimpleBPlusTree.__init__`: a single empty root leaf. -/
structure TreeState (V : Type) where
  order : Nat
  root : RT
  chain : List (LeafRec V)
  nextId : Nat
  mapKeys : List (List Nat)

def initState (V : Type) (order : Nat) : TreeState V :=
  ⟨order, .leaf 0, [⟨0, [], []⟩], 1, []⟩

/-- The child index chosen by `_find_leaf`:
`while idx < len(keys) and key_bytes >= keys[idx]: idx += 1`. -/
def routeIdx (keys : List (List Nat)) (kb : List Nat) : Nat :=
  (keys.takeWhile (fun k => bytLe k kb)).length

/-- The insertion position used by `_insert_into_leaf` and
`_insert_into_internal`: `while idx < len(keys) and keys[idx] < key`. -/
def insPos (keys : List (List Nat)) (kb : List Nat) : Nat :=
  (keys.takeWhile (fun k => bytLt k kb)).length

mutual

/-- `_find_leaf`: descend to the leaf (id) that owns `kb`, following
child number `routeIdx` at each internal node.  `findLeafChildren`
walks to that child structurally; an out-of-range child access cannot
happen on well-formed trees (in Python it would be an `IndexError`),
and the model returns id 0 there. -/
def findLeafRT : RT → List Nat → Nat
  | .leaf i, _ => i
  | .node keys children, kb => findLeafChildren children (routeIdx keys kb) kb

def findLeafChildren : List RT → Nat → List Nat → Nat
  | [], _, _ => 0
  | c :: _, 0, kb => findLeafRT c kb
  | _ :: cs, n + 1, kb => findLeafChildren cs n kb

end

/-- Look up the leaf object with id `i`. -/
def chainGet {V : Type} (ch : List (LeafRec V)) (i : Nat) : Option (LeafRec V) :=
  ch.find? (fun r => r.id == i)

/-- Replace the contents of leaf object `i` (in-place mutation). -/
def chainSet {V : Type} (ch : List (LeafRec V)) (i : Nat) (r : LeafRec V) :
    List (LeafRec V) :=
  ch.map (fun x => if x.id = i then r else x)

/-- Splice a new leaf object directly after leaf `i` in `next_leaf`
order (`new_leaf.next_leaf = leaf.next_leaf; leaf.next_leaf = new_leaf`). -/
def chainInsertAfter {V : Type} (ch : List (LeafRec V)) (i : Nat) (r : LeafRec V) :
    List (LeafRec V) :=
  match ch with
  | [] => []
  | x :: t => if x.id = i then x :: r :: t else x :: chainInsertAfter t i r

mutual

/-- The recursive core of `insert`: descend along the routing path
(`insertChildren` walks to child number `routeIdx` and rebuilds the
child list with the updated subtree in place), insert into the owning
leaf, split on overflow (`len(keys) >= order`) and propagate the
promoted key into the parent at the position `_insert_into_internal`
computes (`insPos` of the promoted key), splitting internal nodes that
overflow in turn.  Returns the updated subtree, an optional
`(promoted key, new right sibling)`, and the updated chain and
fresh-id counter.  The bottom-up `_find_parent` lookups of the source
always find exactly the parent on the descent path, so performing the
promotion along the recursion path is the same computation. -/
def insertGo {V : Type} (order : Nat) : RT → List Nat → V →
    List (LeafRec V) → Nat → RT × Option (List Nat × RT) × List (LeafRec V) × Nat
  | .leaf i, kb, v, ch, nid =>
    match chainGet ch i with
    | none => (.leaf i, none, ch, nid)
    | some r =>
      let pos := insPos r.keys kb
      let ks := r.keys.insertIdx pos kb
      let vs := r.vals.insertIdx pos v
      if order ≤ ks.length then
        let mid := ks.length / 2
        let pk := ks.getD mid []
        let ch2 := chainInsertAfter (chainSet ch i ⟨i, ks.take mid, vs.take mid⟩) i
          ⟨nid, ks.drop mid, vs.drop mid⟩
        (.leaf i, some (pk, .leaf nid), ch2, nid + 1)
      else (.leaf i, none, chainSet ch i ⟨i, ks, vs⟩, nid)
  | .node keys children, kb, v, ch, nid =>
    let res := insertChildren order children (routeIdx keys kb) kb v ch nid
    match res.2.1 with
    | none => (.node keys res.1, none, res.2.2.1, res.2.2.2)
    | some (pk, rsub) =>
      let p := insPos keys pk
      let keys2 := keys.insertIdx p pk
      let children2 := res.1.insertIdx (p + 1) rsub
      if order ≤ keys2.length then
        let mid := keys2.length / 2
        let pk2 := keys2.getD mid []
        (.node (keys2.take mid) (children2.take (mid + 1)),
          some (pk2, .node (keys2.drop (mid + 1)) (children2.drop (mid + 1))),
          res.2.2.1, res.2.2.2)
      else (.node keys2 children2, none, res.2.2.1, res.2.2.2)

def insertChildren {V : Type} (order : Nat) : List RT → Nat → List Nat → V →
    List (LeafRec V) → Nat → List RT × Option (List Nat × RT) × List (LeafRec V) × Nat
  | [], _, _, _, ch, nid => ([], none, ch, nid)
  | c :: cs, 0, kb, v, ch, nid =>
    let res := insertGo order c kb v ch nid
    (res.1 :: cs, res.2.1, res.2.2.1, res.2.2.2)
  | c :: cs, n + 1, kb, v, ch, nid =>
    let res := insertChildren order cs n kb v ch nid
    (c :: res.1, res.2.1, res.2.2.1, res.2.2.2)

end

/-- `insert(key, value)` on serialized key bytes `kb`: records the key
in `key_to_value`, inserts into the owning leaf, splits upward as
needed, and replaces the root when the old root splits. -/
def insertB {V : Type} (s : TreeState V) (kb : List Nat) (v : V) : TreeState V :=
  let mk := if kb ∈ s.mapKeys then s.mapKeys else s.mapKeys ++ [kb]
  let res := insertGo s.order s.root kb v s.chain s.nextId
  match res.2.1 with
  | none => ⟨s.order, res.1, res.2.2.1, res.2.2.2, mk⟩
  | some (pk, r) => ⟨s.order, .node [pk] [res.1, r], res.2.2.1, res.2.2.2, mk⟩

/-- `search(key)`: descend to the owning leaf, return the first value
whose key matches exactly. -/
def searchB {V : Type} (s : TreeState V) (kb : List Nat) : Option V :=
  match chainGet s.chain (findLeafRT s.root kb) with
  | none => none
  | some r => ((r.keys.zip r.vals).find? (fun kv => kv.1 == kb)).map (fun kv => kv.2)

/-- The suffix of the leaf chain starting at leaf id `i` (the
`next_leaf` traversal beginning at that leaf). -/
def chainFrom {V : Type} (ch : List (LeafRec V)) (i : Nat) : List (LeafRec V) :=
  match ch with
  | [] => []
  | x :: t => if x.id = i then x :: t else chainFrom t i

/-- One leaf of the `range_search` loop: collect values with
`start <= key < end`, stop the whole scan at the first
`key >= end`, skip keys below `start`.  The Bool is the early-return
flag. -/
def scanLeaf {V : Type} (pairs : List (List Nat × V)) (sb eb : List Nat) :
    List V × Bool :=
  match pairs with
  | [] => ([], false)
  | (k, v) :: t =>
    if bytLe sb k && bytLt k eb then
      let r := scanLeaf t sb eb
      (v :: r.1, r.2)
    else if bytLe eb k then ([], true)
    else scanLeaf t sb eb

/-- The `while leaf:` loop of `range_search` over the leaf chain. -/
def rangeGo {V : Type} (chs : List (LeafRec V)) (sb eb : List Nat) : List V :=
  match chs with
  | [] => []
  | r :: t =>
    let sc := scanLeaf (r.keys.zip r.vals) sb eb
    if sc.2 then sc.1 else sc.1 ++ rangeGo t sb eb

/-- `range_search(start_key, end_key)` on serialized bounds. -/
def rangeSearchB {V : Type} (s : TreeState V) (sb eb : List Nat) : List V :=
  rangeGo (chainFrom s.chain (findLeafRT s.root sb)) sb eb

/-- `delete(key)`: only keys present in the `key_to_value` dict can be
deleted; the dict entry is removed, then the first exact match in the
owning leaf is popped.  Returns whether a leaf entry was removed. -/
def deleteB {V : Type} (s : TreeState V) (kb : List Nat) : Bool × TreeState V :=
  if kb ∈ s.mapKeys then
    let mk := s.mapKeys.erase kb
    let i := findLeafRT s.root kb
    match chainGet s.chain i with
    | none => (false, { s with mapKeys := mk })
    | some r =>
      match r.keys.findIdx? (fun k => k == kb) with
      | none => (false, { s with mapKeys := mk })
      | some j =>
        (true, { s with
          chain := chainSet s.chain i ⟨r.id, r.keys.eraseIdx j, r.vals.eraseIdx j⟩,
          mapKeys := mk })
  else (false, s)

/-- Run a list of operations (inserts and deletes) left to right. -/
def runOps {V : Type} (s : TreeState V) : List (List Nat × Option V) → TreeState V
  | [] => s
  | (kb, some v) :: rest => runOps (insertB s kb v) rest
  | (kb, none) :: rest => runOps (deleteB s kb).2 rest

end PyMiniDB

namespace PyMiniDB

/-- The C2 scenario after the first three inserts (order 4). -/
def c2s3 : TreeState String :=
  insertB (insertB (insertB (initState String 4)
    (beBytes 8 10) "a") (beBytes 8 20) "b") (beBytes 8 30) "c"

/-- The C2 scenario after the fourth insert. -/
def c2s4 : TreeState String := insertB c2s3 (beBytes 8 40) "d"

/-- The C2 scenario after all five inserts. -/
def c2s5 : TreeState String := insertB c2s4 (beBytes 8 50) "e"

/-- C2: on a tree of order 4, inserting (10,a) (20,b) (30,c) (40,d)
(50,e): the root is still a leaf after three inserts; the fourth
insert splits it, giving an internal root with exactly one key and two
children; rangeSearch(15,45) yields b, c, d in order; search(25) is
none; delete(30) returns true and search(30) afterwards is none
(keys serialized with the 8-byte big-endian integer encoding). -/
theorem c2_concrete_scenario :
    c2s3.root.isLeafRef = true ∧
    c2s4.root.isLeafRef = false ∧
    c2s4.root.nodeKeys.length = 1 ∧
    c2s4.root.childCount = 2 ∧
    rangeSearchB c2s5 (beBytes 8 15) (beBytes 8 45) = ["b", "c", "d"] ∧
    searchB c2s5 (beBytes 8 25) = none ∧
    (deleteB c2s5 (beBytes 8 30)).1 = true ∧
    searchB (deleteB c2s5 (beBytes 8 30)).2 (beBytes 8 30) = none := by
  decide

end PyMiniDB

namespace PyMiniDB

/-- All (key, value) leaf entries in `next_leaf` chain order. -/
def chainPairs {V : Type} (s : TreeState V) : List (List Nat × V) :=
  s.chain.foldr (fun r acc => r.keys.zip r.vals ++ acc) []

/-- All keys in `next_leaf` chain order. -/
def chainKeys {V : Type} (s : TreeState V) : List (List Nat) :=
  s.chain.foldr (fun r acc => r.keys ++ acc) []

/-- Strictly increasing in byte-lexicographic order. -/
def strictInc : List (List Nat) → Bool
  | [] => true
  | [_] => true
  | a :: b :: t => bytLt a b && strictInc (b :: t)

/-- Non-decreasing in byte-lexicographic order. -/
def nonDec : List (List Nat) → Bool
  | [] => true
  | [_] => true
  | a :: b :: t => bytLe a b && strictInc (b :: t)

/-- Order-3 tree after inserting key 2 four times (values 1-4) and
key 3 once (value 5): the second leaf split places the new right leaf
at the promoted-key position in the parent but directly after the
split leaf in the `next_leaf` chain, so chain order and routing order
disagree. -/
def dupState : TreeState Nat :=
  insertB (insertB (insertB (insertB (insertB (initState Nat 3)
    (beBytes 8 2) 1) (beBytes 8 2) 2) (beBytes 8 2) 3) (beBytes 8 2) 4) (beBytes 8 3) 5

/-- Order-4 tree after inserting key 1 twice (values "a", "b"). -/
def dupState2 : TreeState String :=
  insertB (insertB (initState String 4) (beBytes 8 1) "a") (beBytes 8 1) "b"

/-- C3 counterexample: on `dupState`, `range_search(2, 4)` (serialized
bounds) returns the values [4, 5, 2, 1] - it misses value 3, whose
key 2 lies inside the half-open interval, and its keys run
2, 3, 2, 2, which is not ascending order. -/
theorem c3_counterexample :
    rangeSearchB dupState (beBytes 8 2) (beBytes 8 4) = [4, 5, 2, 1] ∧
    (beBytes 8 2, 3) ∈ chainPairs dupState ∧
    bytLe (beBytes 8 2) (beBytes 8 2) = true ∧
    bytLt (beBytes 8 2) (beBytes 8 4) = true ∧
    ¬ (3 : Nat) ∈ rangeSearchB dupState (beBytes 8 2) (beBytes 8 4) := by
  decide

/-- C4 counterexample: after inserting key 1 twice and deleting it
once (which returns true), `search(1)` still returns the remaining
duplicate "a", yet a second `delete(1)` returns false and removes
nothing - the `key_to_value` map no longer contains the key, so a key
that is present in the tree cannot be deleted. -/
theorem c4_counterexample :
    (deleteB dupState2 (beBytes 8 1)).1 = true ∧
    searchB (deleteB dupState2 (beBytes 8 1)).2 (beBytes 8 1) = some "a" ∧
    (deleteB (deleteB dupState2 (beBytes 8 1)).2 (beBytes 8 1)).1 = false ∧
    searchB (deleteB (deleteB dupState2 (beBytes 8 1)).2 (beBytes 8 1)).2 (beBytes 8 1) =
      some "a" := by
  decide

/-- C5 counterexample: after inserting key 1 twice into an order-4
tree, the root leaf holds the keys [1, 1] (serialized), which is not
strictly increasing; and on `dupState` the keys encountered by
next-leaf traversal from the leftmost leaf run 2, 3, 2, 2, so the
leaves are not chained in global sorted key order. -/
theorem c5_counterexample :
    dupState2.root.isLeafRef = true ∧
    chainKeys dupState2 = [beBytes 8 1, beBytes 8 1] ∧
    strictInc (chainKeys dupState2) = false ∧
    nonDec (chainKeys dupState) = false := by
  decide

end PyMiniDB

namespace PyMiniDB

/-! ## Well-formedness of `SimpleBPlusTree` states

`Bnd ch order t lo hi` is the classical B+Tree interval invariant for
the routing tree `t` over the leaf store `ch`: every key in the
subtree lies in the half-open interval `[lo, hi)` (an absent bound is
infinite), node keys are strictly increasing, child `j` covers
`[keys[j-1], keys[j])` (duplicate keys route right, matching
`_find_leaf`), every node holds at most `order - 1` keys, and leaf
records keep `len(values) == len(keys)`.  It holds for every state
reachable by inserts of pairwise-distinct keys and arbitrary
deletes. -/

def loOk (lo : Option (List Nat)) (k : List Nat) : Prop :=
  match lo with
  | none => True
  | some l => bytLe l k = true

def hiOk (hi : Option (List Nat)) (k : List Nat) : Prop :=
  match hi with
  | none => True
  | some h => bytLt k h = true

def loLt (lo : Option (List Nat)) (k : List Nat) : Prop :=
  match lo with
  | none => True
  | some l => bytLt l k = true

mutual

/-- The in-order sequence of leaf ids of a routing tree. -/
def leafIds : RT → List Nat
  | .leaf i => [i]
  | .node _ children => leafIdsL children

def leafIdsL : List RT → List Nat
  | [] => []
  | c :: cs => leafIds c ++ leafIdsL cs

end

/-- The concatenated keys of a raw chain (in `next_leaf` order). -/
def recKeys {V : Type} (ch : List (LeafRec V)) : List (List Nat) :=
  ch.foldr (fun r acc => r.keys ++ acc) []

/-- The concatenated (key, value) pairs of a raw chain. -/
def recPairs {V : Type} (ch : List (LeafRec V)) : List (List Nat × V) :=
  ch.foldr (fun r acc => r.keys.zip r.vals ++ acc) []

mutual

inductive Bnd {V : Type} (ch : List (LeafRec V)) (order : Nat) :
    RT → Option (List Nat) → Option (List Nat) → Prop where
  | leaf {i lo hi} (r : LeafRec V) (hget : chainGet ch i = some r)
      (hlen : r.vals.length = r.keys.length) (hcnt : r.keys.length ≤ order - 1)
      (hsort : strictInc r.keys = true)
      (hin : ∀ k ∈ r.keys, loOk lo k ∧ hiOk hi k) :
      Bnd ch order (.leaf i) lo hi
  | node {keys children lo hi} (hsort : strictInc keys = true)
      (hcnt : keys.length ≤ order - 1)
      (hin : ∀ k ∈ keys, loOk lo k ∧ hiOk hi k)
      (hch : BndL ch order children lo hi keys) :
      Bnd ch order (.node keys children) lo hi

inductive BndL {V : Type} (ch : List (LeafRec V)) (order : Nat) :
    List RT → Option (List Nat) → Option (List Nat) → List (List Nat) → Prop where
  | last {c lo hi} (hc : Bnd ch order c lo hi) : BndL ch order [c] lo hi []
  | cons {c cs k ks lo hi} (hc : Bnd ch order c lo (some k))
      (hcs : BndL ch order cs (some k) hi ks) :
      BndL ch order (c :: cs) lo hi (k :: ks)

end

theorem BndL_length {V : Type} {ch : List (LeafRec V)} {order : Nat} {cs : List RT}
    {lo hi : Option (List Nat)} {ks : List (List Nat)}
    (h : BndL ch order cs lo hi ks) : cs.length = ks.length + 1 := by
  cases h with
  | last _ => rfl
  | cons _ hcs => simp [List.length_cons, BndL_length hcs]

mutual

theorem Bnd_congr {V : Type} {ch ch' : List (LeafRec V)} {order : Nat} {t : RT}
    {lo hi : Option (List Nat)} (h : Bnd ch order t lo hi)
    (hsame : ∀ j ∈ leafIds t, chainGet ch' j = chainGet ch j) :
    Bnd ch' order t lo hi := by
  cases h with
  | leaf r hget hlen hcnt hsort hin =>
    exact .leaf r (by rw [hsame _ (by simp [leafIds]), hget]) hlen hcnt hsort hin
  | node hsort hcnt hin hch =>
    exact .node hsort hcnt hin (BndL_congr hch (by simpa [leafIds] using hsame))

theorem BndL_congr {V : Type} {ch ch' : List (LeafRec V)} {order : Nat} {cs : List RT}
    {lo hi : Option (List Nat)} {ks : List (List Nat)} (h : BndL ch order cs lo hi ks)
    (hsame : ∀ j ∈ leafIdsL cs, chainGet ch' j = chainGet ch j) :
    BndL ch' order cs lo hi ks := by
  cases h with
  | last hc =>
    exact .last (Bnd_congr hc (by simpa [leafIdsL] using hsame))
  | cons hc hcs =>
    refine .cons (Bnd_congr hc ?_) (BndL_congr hcs ?_)
    · intro j hj
      exact hsame j (by simp [leafIdsL, hj])
    · intro j hj
      exact hsame j (by simp [leafIdsL, hj])

end

end PyMiniDB

namespace PyMiniDB

/-- The strict byte order as a relation (for `List.Pairwise`). -/
def KLt (a b : List Nat) : Prop := bytLt a b = true

instance : IsTrans (List Nat) KLt := ⟨fun _ _ _ => bytLt_trans⟩

theorem strictInc_iff_chain {l : List (List Nat)} :
    strictInc l = true ↔ List.Chain' KLt l := by
  induction l with
  | nil => simp [strictInc]
  | cons a t ih =>
    cases t with
    | nil => simp [strictInc]
    | cons b t2 =>
      rw [strictInc, Bool.and_eq_true, List.chain'_cons, ih]
      exact and_congr_left fun _ => Iff.rfl

theorem strictInc_iff_pairwise {l : List (List Nat)} :
    strictInc l = true ↔ l.Pairwise KLt := by
  rw [strictInc_iff_chain, List.chain'_iff_pairwise]

theorem KLt_irrefl' {a : List Nat} (h : KLt a a) : False := by
  unfold KLt at h
  rw [bytLt_irrefl] at h
  cases h

/-- Inserting a fresh key into a strictly sorted key list at the
position `_insert_into_leaf` / `_insert_into_internal` computes splits
the list around the new key. -/
theorem sorted_insert_spec (ks : List (List Nat)) (kb : List Nat)
    (hs : ks.Pairwise KLt) (hf : ¬ kb ∈ ks) :
    ∃ P S, ks = P ++ S ∧ ks.insertIdx (insPos ks kb) kb = P ++ kb :: S ∧
      (∀ x ∈ P, KLt x kb) ∧ (∀ x ∈ S, KLt kb x) := by
  induction ks with
  | nil => exact ⟨[], [], rfl, rfl, by simp, by simp⟩
  | cons k t ih =>
    by_cases hk : bytLt k kb = true
    · obtain ⟨P, S, h1, h2, h3, h4⟩ := ih (List.Pairwise.of_cons hs)
        (fun hc => hf (List.mem_cons_of_mem _ hc))
      refine ⟨k :: P, S, by simp [h1], ?_, ?_, h4⟩
      · rw [show insPos (k :: t) kb = insPos t kb + 1 by simp [insPos, List.takeWhile, hk]]
        rw [List.insertIdx_succ_cons, h2]
        rfl
      · intro x hx
        rcases List.mem_cons.mp hx with rfl | hx
        · exact hk
        · exact h3 x hx
    · have hne : kb ≠ k := fun hc => hf (hc ▸ List.mem_cons_self _ _)
      have hkb : KLt kb k := by
        unfold KLt
        rcases hbk : bytLt kb k with _ | _
        · exact absurd (bytLt_total (by simpa using hk) hbk).symm hne
        · rfl
      refine ⟨[], k :: t, rfl, ?_, by simp, ?_⟩
      · rw [show insPos (k :: t) kb = 0 by simp [insPos, List.takeWhile, hk]]
        rfl
      · intro x hx
        rcases List.mem_cons.mp hx with rfl | hx
        · exact hkb
        · exact bytLt_trans hkb (List.rel_of_pairwise_cons hs hx)

theorem routeIdx_cons (k : List Nat) (ks : List (List Nat)) (kb : List Nat) :
    routeIdx (k :: ks) kb = if bytLe k kb then routeIdx ks kb + 1 else 0 := by
  by_cases h : bytLe k kb = true
  · simp [routeIdx, List.takeWhile, h]
  · have hb : bytLe k kb = false := by
      rcases hx : bytLe k kb with _ | _
      · rfl
      · exact absurd hx h
    simp [routeIdx, List.takeWhile, hb]

end PyMiniDB

namespace PyMiniDB

mutual

/-- Every key stored under a bounded subtree lies in its interval. -/
theorem Bnd_keys_in {V : Type} {ch : List (LeafRec V)} {order : Nat} {t : RT}
    {lo hi : Option (List Nat)} (hb : Bnd ch order t lo hi) :
    ∀ j ∈ leafIds t, ∀ r, chainGet ch j = some r → ∀ k ∈ r.keys, loOk lo k ∧ hiOk hi k := by
  cases hb with
  | leaf r hget hlen hcnt hsort hin =>
    intro j hj r' hget' k hk
    simp only [leafIds, List.mem_singleton] at hj
    subst hj
    rw [hget] at hget'
    cases hget'
    exact hin k hk
  | node hsort hcnt hin hch =>
    intro j hj r hget k hk
    exact BndL_keys_in hch (strictInc_iff_pairwise.mp hsort) hin j
      (by simpa [leafIds] using hj) r hget k hk

theorem BndL_keys_in {V : Type} {ch : List (LeafRec V)} {order : Nat} {cs : List RT}
    {lo hi : Option (List Nat)} {ks : List (List Nat)} (hb : BndL ch order cs lo hi ks)
    (hsort : ks.Pairwise KLt) (hks : ∀ k ∈ ks, loOk lo k ∧ hiOk hi k) :
    ∀ j ∈ leafIdsL cs, ∀ r, chainGet ch j = some r → ∀ k ∈ r.keys,
      loOk lo k ∧ hiOk hi k := by
  cases hb with
  | last hc =>
    intro j hj r hget k hk
    exact Bnd_keys_in hc j (by simpa [leafIdsL] using hj) r hget k hk
  | cons hc hcs =>
    rename_i c cs' k0 ks'
    intro j hj r hget k hk
    obtain ⟨hk0lo, hk0hi⟩ := hks k0 (List.mem_cons_self _ _)
    rcases List.mem_append.mp (by simpa [leafIdsL] using hj) with hj1 | hj2
    · obtain ⟨h1, h2⟩ := Bnd_keys_in hc j hj1 r hget k hk
      refine ⟨h1, ?_⟩
      cases hi with
      | none => trivial
      | some h => exact bytLt_trans h2 hk0hi
    · have hks' : ∀ x ∈ ks', loOk (some k0) x ∧ hiOk hi x := by
        intro x hx
        refine ⟨bytLe_of_bytLt (List.rel_of_pairwise_cons hsort hx), (hks x ?_).2⟩
        exact List.mem_cons_of_mem _ hx
      obtain ⟨h1, h2⟩ := BndL_keys_in hcs (List.Pairwise.of_cons hsort) hks' j hj2 r hget k hk
      refine ⟨?_, h2⟩
      cases lo with
      | none => trivial
      | some l =>
        cases hlo2 : (some k0 : Option (List Nat)) with
        | none => cases hlo2
        | some _ => exact bytLe_trans hk0lo h1

end

end PyMiniDB

namespace PyMiniDB

mutual

/-- `_find_leaf` lands on a leaf; every leaf before it in tree order
holds only keys below `kb`, every leaf after it only keys above. -/
theorem find_spec {V : Type} {ch : List (LeafRec V)} {order : Nat} {t : RT}
    {lo hi : Option (List Nat)} {kb : List Nat} (hb : Bnd ch order t lo hi)
    (hlo : loOk lo kb) (hhi : hiOk hi kb) :
    ∃ pre post, leafIds t = pre ++ findLeafRT t kb :: post ∧
      (∀ j ∈ pre, ∀ r, chainGet ch j = some r → ∀ k ∈ r.keys, KLt k kb) ∧
      (∀ j ∈ post, ∀ r, chainGet ch j = some r → ∀ k ∈ r.keys, KLt kb k) := by
  cases hb with
  | leaf r hget hlen hcnt hsort hin =>
    exact ⟨[], [], rfl, by simp, by simp⟩
  | node hsort hcnt hin hch =>
    obtain ⟨pre, post, h1, h2, h3⟩ := find_specL hch (strictInc_iff_pairwise.mp hsort)
      hin hlo hhi
    exact ⟨pre, post, by simpa [leafIds, findLeafRT] using h1, h2, h3⟩

theorem find_specL {V : Type} {ch : List (LeafRec V)} {order : Nat} {cs : List RT}
    {lo hi : Option (List Nat)} {ks : List (List Nat)} {kb : List Nat}
    (hb : BndL ch order cs lo hi ks) (hsort : ks.Pairwise KLt)
    (hks : ∀ k ∈ ks, loOk lo k ∧ hiOk hi k) (hlo : loOk lo kb) (hhi : hiOk hi kb) :
    ∃ pre post, leafIdsL cs = pre ++ findLeafChildren cs (routeIdx ks kb) kb :: post ∧
      (∀ j ∈ pre, ∀ r, chainGet ch j = some r → ∀ k ∈ r.keys, KLt k kb) ∧
      (∀ j ∈ post, ∀ r, chainGet ch j = some r → ∀ k ∈ r.keys, KLt kb k) := by
  cases hb with
  | last hc =>
    obtain ⟨pre, post, h1, h2, h3⟩ := find_spec hc hlo hhi
    refine ⟨pre, post, ?_, h2, h3⟩
    simpa [leafIdsL, routeIdx, findLeafChildren] using h1
  | cons hc hcs =>
    rename_i c cs' k0 ks'
    obtain ⟨hk0lo, hk0hi⟩ := hks k0 (List.mem_cons_self _ _)
    rw [routeIdx_cons]
    by_cases hle : bytLe k0 kb = true
    · rw [if_pos hle]
      have hks' : ∀ x ∈ ks', loOk (some k0) x ∧ hiOk hi x := by
        intro x hx
        exact ⟨bytLe_of_bytLt (List.rel_of_pairwise_cons hsort hx),
          (hks x (List.mem_cons_of_mem _ hx)).2⟩
      obtain ⟨pre, post, h1, h2, h3⟩ := find_specL hcs (List.Pairwise.of_cons hsort)
        hks' hle hhi
      refine ⟨leafIds c ++ pre, post, ?_, ?_, h3⟩
      · rw [show findLeafChildren (c :: cs') (routeIdx ks' kb + 1) kb =
          findLeafChildren cs' (routeIdx ks' kb) kb from rfl]
        simp [leafIdsL, h1]
      · intro j hj r hget k hk
        rcases List.mem_append.mp hj with hj1 | hj2
        · have := (Bnd_keys_in hc j hj1 r hget k hk).2
          exact bytLt_of_bytLt_of_bytLe this hle
        · exact h2 j hj2 r hget k hk
    · rw [if_neg hle]
      have hkb0 : bytLt kb k0 = true := by
        rcases hx : bytLe k0 kb with _ | _
        · exact bytLt_of_not_bytLe hx
        · exact absurd hx hle
      obtain ⟨pre, post, h1, h2, h3⟩ := find_spec hc hlo hkb0
      refine ⟨pre, post ++ leafIdsL cs', ?_, h2, ?_⟩
      · rw [show findLeafChildren (c :: cs') 0 kb = findLeafRT c kb from rfl]
        simp [leafIdsL, h1]
      · intro j hj r hget k hk
        rcases List.mem_append.mp hj with hj1 | hj2
        · exact h3 j hj1 r hget k hk
        · have hks' : ∀ x ∈ ks', loOk (some k0) x ∧ hiOk hi x := by
            intro x hx
            exact ⟨bytLe_of_bytLt (List.rel_of_pairwise_cons hsort hx),
              (hks x (List.mem_cons_of_mem _ hx)).2⟩
          have := (BndL_keys_in hcs (List.Pairwise.of_cons hsort) hks' j hj2 r hget k hk).1
          exact bytLt_of_bytLt_of_bytLe hkb0 this

end

end PyMiniDB

namespace PyMiniDB

/-- Insert `nid` directly after the first occurrence of `i`. -/
def idInsertAfter (l : List Nat) (i nid : Nat) : List Nat :=
  match l with
  | [] => []
  | x :: t => if x = i then x :: nid :: t else x :: idInsertAfter t i nid

theorem chainGet_cons_ne {V : Type} (x : LeafRec V) (t : List (LeafRec V)) {j : Nat}
    (h : x.id ≠ j) : chainGet (x :: t) j = chainGet t j := by
  unfold chainGet
  exact List.find?_cons_of_neg _ (by simpa using h)

theorem chainGet_cons_self {V : Type} (x : LeafRec V) (t : List (LeafRec V)) :
    chainGet (x :: t) x.id = some x := by
  unfold chainGet
  exact List.find?_cons_of_pos _ (by simp)

theorem chainGet_decomp {V : Type} {ch : List (LeafRec V)} {i : Nat} {r : LeafRec V}
    (h : chainGet ch i = some r) :
    ∃ pre post, ch = pre ++ r :: post ∧ (∀ y ∈ pre, y.id ≠ i) ∧ r.id = i := by
  induction ch with
  | nil => cases h
  | cons x t ih =>
    by_cases hx : x.id = i
    · rw [← hx, chainGet_cons_self] at h
      cases h
      exact ⟨[], t, rfl, by simp, hx⟩
    · rw [chainGet_cons_ne x t hx] at h
      obtain ⟨pre, post, h1, h2, h3⟩ := ih h
      refine ⟨x :: pre, post, by simp [h1], ?_, h3⟩
      intro y hy
      rcases List.mem_cons.mp hy with rfl | hy
      · exact hx
      · exact h2 y hy

theorem chainGet_append {V : Type} (A B : List (LeafRec V)) (j : Nat) :
    chainGet (A ++ B) j =
      match chainGet A j with
      | some r => some r
      | none => chainGet B j := by
  induction A with
  | nil => simp [chainGet]
  | cons x t ih =>
    by_cases hx : x.id = j
    · subst hx
      rw [List.cons_append, chainGet_cons_self, chainGet_cons_self]
    · rw [List.cons_append, chainGet_cons_ne x _ hx, chainGet_cons_ne x t hx, ih]

/-- `chainSet` leaves records with other ids alone. -/
theorem chainSet_skip {V : Type} (l : List (LeafRec V)) (i : Nat) (r : LeafRec V)
    (h : ∀ y ∈ l, y.id ≠ i) : chainSet l i r = l := by
  unfold chainSet
  calc l.map (fun y => if y.id = i then r else y) = l.map id :=
        List.map_congr_left (by intro y hy; rw [if_neg (h y hy)]; rfl)
    _ = l := List.map_id l

theorem chainSet_decomp {V : Type} (pre post : List (LeafRec V)) (x r : LeafRec V)
    {i : Nat} (hpre : ∀ y ∈ pre, y.id ≠ i) (hx : x.id = i)
    (hpost : ∀ y ∈ post, y.id ≠ i) :
    chainSet (pre ++ x :: post) i r = pre ++ r :: post := by
  unfold chainSet
  rw [List.map_append]
  rw [show (pre.map (fun y => if y.id = i then r else y)) = pre from chainSet_skip pre i r hpre]
  congr 1
  rw [List.map_cons, if_pos hx]
  rw [show (post.map (fun y => if y.id = i then r else y)) = post from
    chainSet_skip post i r hpost]

theorem chainInsertAfter_decomp {V : Type} (pre post : List (LeafRec V)) (x r : LeafRec V)
    {i : Nat} (hpre : ∀ y ∈ pre, y.id ≠ i) (hx : x.id = i) :
    chainInsertAfter (pre ++ x :: post) i r = pre ++ x :: r :: post := by
  induction pre with
  | nil =>
    simp only [List.nil_append, chainInsertAfter]
    rw [if_pos hx]
  | cons a t ih =>
    simp only [List.cons_append, chainInsertAfter]
    rw [if_neg (hpre a (List.mem_cons_self _ _))]
    exact congrArg (List.cons a) (ih fun y hy => hpre y (List.mem_cons_of_mem _ hy))

theorem chainGet_of_mem_nodup {V : Type} {ch : List (LeafRec V)} {x : LeafRec V}
    (hnd : (ch.map (fun r => r.id)).Nodup) (hm : x ∈ ch) : chainGet ch x.id = some x := by
  induction ch with
  | nil => cases hm
  | cons a t ih =>
    rw [List.map_cons, List.nodup_cons] at hnd
    rcases List.mem_cons.mp hm with rfl | hm
    · exact chainGet_cons_self _ t
    · have hne : a.id ≠ x.id := by
        intro hc
        exact hnd.1 (hc ▸ List.mem_map_of_mem (fun r => r.id) hm)
      rw [chainGet_cons_ne a t hne]
      exact ih hnd.2 hm

theorem map_id_decomp {V : Type} {ch : List (LeafRec V)} {A B : List Nat} {i : Nat}
    (h : ch.map (fun r => r.id) = A ++ i :: B) :
    ∃ pre x post, ch = pre ++ x :: post ∧ pre.map (fun r => r.id) = A ∧ x.id = i ∧
      post.map (fun r => r.id) = B := by
  induction ch generalizing A with
  | nil =>
    cases A <;> simp at h
  | cons a t ih =>
    cases A with
    | nil =>
      simp only [List.map, List.nil_append, List.cons.injEq] at h
      exact ⟨[], a, t, rfl, rfl, h.1, h.2⟩
    | cons a0 A' =>
      simp only [List.map, List.cons_append, List.cons.injEq] at h
      obtain ⟨pre, x, post, h1, h2, h3, h4⟩ := ih h.2
      exact ⟨a :: pre, x, post, by simp [h1], by simp [h2, h.1], h3, h4⟩

end PyMiniDB

namespace PyMiniDB

theorem insPos_le_length (ks : List (List Nat)) (kb : List Nat) :
    insPos ks kb ≤ ks.length := by
  unfold insPos
  exact (List.length_le_of_sublist (List.takeWhile_sublist _))

theorem routeIdx_le_length (ks : List (List Nat)) (kb : List Nat) :
    routeIdx ks kb ≤ ks.length := by
  unfold routeIdx
  exact (List.length_le_of_sublist (List.takeWhile_sublist _))

theorem insertIdx_take_drop {α : Type} (l : List α) (n : Nat) (a : α)
    (h : n ≤ l.length) : l.insertIdx n a = l.take n ++ a :: l.drop n := by
  induction l generalizing n with
  | nil =>
    cases n with
    | zero => rfl
    | succ n => simp at h
  | cons x t ih =>
    cases n with
    | zero => rfl
    | succ n =>
      rw [List.insertIdx_succ_cons, ih n (by simpa using h)]
      rfl

/-- If the first `n` keys are below `pk` and the rest are above, the
internal insertion position for `pk` is `n`. -/
theorem insPos_eq (ks : List (List Nat)) (pk : List Nat) (n : Nat) (hn : n ≤ ks.length)
    (h1 : ∀ j ∈ ks.take n, KLt j pk) (h2 : ∀ j ∈ ks.drop n, KLt pk j) :
    insPos ks pk = n := by
  induction ks generalizing n with
  | nil =>
    have : n = 0 := by simpa using hn
    subst this
    rfl
  | cons k t ih =>
    cases n with
    | zero =>
      have hk : KLt pk k := h2 k (by simp)
      have hkf : bytLt k pk = false := bytLt_asymm hk
      simp [insPos, List.takeWhile, hkf]
    | succ n =>
      have hk : KLt k pk := h1 k (by simp [List.take_succ_cons])
      unfold insPos
      rw [show List.takeWhile (fun x => bytLt x pk) (k :: t) =
        k :: List.takeWhile (fun x => bytLt x pk) t from by
          simp only [List.takeWhile]
          rw [show bytLt k pk = true from hk]]
      have := ih n (by simpa using hn)
        (fun j hj => h1 j (by simp [List.take_succ_cons, hj]))
        (fun j hj => h2 j (by simpa [List.drop_succ_cons] using hj))
      unfold insPos at this
      simp [this]

theorem leafIdsL_append (A B : List RT) : leafIdsL (A ++ B) = leafIdsL A ++ leafIdsL B := by
  induction A with
  | nil => rfl
  | cons c cs ih => simp [leafIdsL, ih]

theorem idInsertAfter_left {A B : List Nat} {i nid : Nat} (h : i ∈ A) :
    idInsertAfter (A ++ B) i nid = idInsertAfter A i nid ++ B := by
  induction A with
  | nil => cases h
  | cons a t ih =>
    by_cases ha : a = i
    · simp [idInsertAfter, ha]
    · rw [show idInsertAfter ((a :: t) ++ B) i nid =
        a :: idInsertAfter (t ++ B) i nid from by simp [idInsertAfter, ha]]
      rw [show idInsertAfter (a :: t) i nid = a :: idInsertAfter t i nid from by
        simp [idInsertAfter, ha]]
      have hm : i ∈ t := by
        rcases List.mem_cons.mp h with rfl | hm
        · exact absurd rfl ha
        · exact hm
      rw [ih hm]
      rfl

theorem idInsertAfter_right {A B : List Nat} {i nid : Nat} (h : ¬ i ∈ A) :
    idInsertAfter (A ++ B) i nid = A ++ idInsertAfter B i nid := by
  induction A with
  | nil => rfl
  | cons a t ih =>
    have ha : a ≠ i := fun hc => h (hc ▸ List.mem_cons_self _ _)
    rw [show idInsertAfter ((a :: t) ++ B) i nid =
      a :: idInsertAfter (t ++ B) i nid from by simp [idInsertAfter, ha]]
    rw [ih fun hc => h (List.mem_cons_of_mem _ hc)]
    rfl

theorem chainGet_skip_all {V : Type} {A : List (LeafRec V)} (B : List (LeafRec V))
    {j : Nat} (h : ∀ y ∈ A, y.id ≠ j) : chainGet (A ++ B) j = chainGet B j := by
  induction A with
  | nil => rfl
  | cons a t ih =>
    rw [List.cons_append, chainGet_cons_ne a _ (h a (List.mem_cons_self _ _))]
    exact ih fun y hy => h y (List.mem_cons_of_mem _ hy)

/-- A bounded-keys decomposition can be cut at any separator key. -/
theorem BndL_split {V : Type} {ch : List (LeafRec V)} {order : Nat} {cs : List RT}
    {lo hi : Option (List Nat)} {A B : List (List Nat)} {m : List Nat}
    (hb : BndL ch order cs lo hi (A ++ m :: B)) :
    ∃ csA csB, cs = csA ++ csB ∧ csA.length = A.length + 1 ∧
      BndL ch order csA lo (some m) A ∧ BndL ch order csB (some m) hi B := by
  induction A generalizing cs lo with
  | nil =>
    cases hb with
    | cons hc hcs =>
      rename_i c cs'
      exact ⟨[c], cs', rfl, rfl, .last hc, hcs⟩
  | cons a A' ih =>
    cases hb with
    | cons hc hcs =>
      rename_i c cs'
      obtain ⟨csA, csB, h1, h2, h3, h4⟩ := ih hcs
      exact ⟨c :: csA, csB, by simp [h1], by simp [h2], .cons hc h3, h4⟩

mutual

/-- Every leaf id of a bounded tree has a chain record carrying that id. -/
theorem Bnd_leaf_get {V : Type} {ch : List (LeafRec V)} {order : Nat} {t : RT}
    {lo hi : Option (List Nat)} (hb : Bnd ch order t lo hi) :
    ∀ j ∈ leafIds t, ∃ r, chainGet ch j = some r ∧ r.id = j := by
  cases hb with
  | leaf r hget hlen hcnt hsort hin =>
    intro j hj
    simp only [leafIds, List.mem_singleton] at hj
    subst hj
    refine ⟨r, hget, ?_⟩
    have := List.find?_some hget
    simpa using this
  | node hsort hcnt hin hch =>
    intro j hj
    exact BndL_leaf_get hch j (by simpa [leafIds] using hj)

theorem BndL_leaf_get {V : Type} {ch : List (LeafRec V)} {order : Nat} {cs : List RT}
    {lo hi : Option (List Nat)} {ks : List (List Nat)} (hb : BndL ch order cs lo hi ks) :
    ∀ j ∈ leafIdsL cs, ∃ r, chainGet ch j = some r ∧ r.id = j := by
  cases hb with
  | last hc =>
    intro j hj
    exact Bnd_leaf_get hc j (by simpa [leafIdsL] using hj)
  | cons hc hcs =>
    intro j hj
    rcases List.mem_append.mp (by simpa [leafIdsL] using hj) with hj1 | hj2
    · exact Bnd_leaf_get hc j hj1
    · exact BndL_leaf_get hcs j hj2

end

end PyMiniDB

namespace PyMiniDB

theorem pairwise_insert_mid {P S : List (List Nat)} {kb : List Nat}
    (hPS : (P ++ S).Pairwise KLt) (hP : ∀ x ∈ P, KLt x kb) (hS : ∀ x ∈ S, KLt kb x) :
    (P ++ kb :: S).Pairwise KLt := by
  rw [List.pairwise_append] at hPS
  rw [List.pairwise_append]
  refine ⟨hPS.1, ?_, ?_⟩
  · rw [List.pairwise_cons]
    exact ⟨hS, hPS.2.1⟩
  · intro a ha b hb
    rcases List.mem_cons.mp hb with rfl | hb
    · exact hP a ha
    · exact hPS.2.2 a ha b hb

/-- The outcome contract of `insertGo` on a bounded subtree: the chain
gains the new key inside the target leaf record (possibly split into
two records, the right one carrying the fresh id), and the returned
subtree (with its possible promoted sibling) is bounded again, with
leaf ids transformed exactly like the chain ids. -/
def InsOut {V : Type} (order : Nat) (kb : List Nat) (lo hi : Option (List Nat)) (t : RT)
    (ch : List (LeafRec V)) (nid : Nat)
    (res : RT × Option (List Nat × RT) × List (LeafRec V) × Nat) : Prop :=
  ∃ pre x post P S newIds,
    ch = pre ++ x :: post ∧
    x.id = findLeafRT t kb ∧
    x.keys = P ++ S ∧
    (∀ k ∈ P, KLt k kb) ∧
    (∀ k ∈ S, KLt kb k) ∧
    ((∃ vs, res.2.2.1 = pre ++ LeafRec.mk x.id (P ++ kb :: S) vs :: post ∧
        res.2.2.2 = nid ∧ newIds = leafIds t) ∨
      (∃ ksL vsL ksR vsR, res.2.2.1 = pre ++ LeafRec.mk x.id ksL vsL ::
          LeafRec.mk nid ksR vsR :: post ∧ ksL ++ ksR = P ++ kb :: S ∧
        res.2.2.2 = nid + 1 ∧ newIds = idInsertAfter (leafIds t) x.id nid)) ∧
    (match res.2.1 with
      | none => Bnd res.2.2.1 order res.1 lo hi ∧ leafIds res.1 = newIds
      | some (pk, rt) =>
          Bnd res.2.2.1 order res.1 lo (some pk) ∧ Bnd res.2.2.1 order rt (some pk) hi ∧
          loLt lo pk ∧ hiOk hi pk ∧ leafIds res.1 ++ leafIds rt = newIds)

/-- The outcome contract of `insertChildren` at the routing index: on
a promoted split, inserting the promoted key at the routing index and
the sibling after it re-establishes the bounded shape. -/
def InsOutL {V : Type} (order : Nat) (kb : List Nat) (lo hi : Option (List Nat))
    (cs : List RT) (ks : List (List Nat)) (ch : List (LeafRec V)) (nid : Nat)
    (res : List RT × Option (List Nat × RT) × List (LeafRec V) × Nat) : Prop :=
  ∃ pre x post P S newIds,
    ch = pre ++ x :: post ∧
    x.id = findLeafChildren cs (routeIdx ks kb) kb ∧
    x.keys = P ++ S ∧
    (∀ k ∈ P, KLt k kb) ∧
    (∀ k ∈ S, KLt kb k) ∧
    ((∃ vs, res.2.2.1 = pre ++ LeafRec.mk x.id (P ++ kb :: S) vs :: post ∧
        res.2.2.2 = nid ∧ newIds = leafIdsL cs) ∨
      (∃ ksL vsL ksR vsR, res.2.2.1 = pre ++ LeafRec.mk x.id ksL vsL ::
          LeafRec.mk nid ksR vsR :: post ∧ ksL ++ ksR = P ++ kb :: S ∧
        res.2.2.2 = nid + 1 ∧ newIds = idInsertAfter (leafIdsL cs) x.id nid)) ∧
    (match res.2.1 with
      | none => BndL res.2.2.1 order res.1 lo hi ks ∧ leafIdsL res.1 = newIds
      | some (pk, rt) =>
          BndL res.2.2.1 order (res.1.insertIdx (routeIdx ks kb + 1) rt) lo hi
            (ks.insertIdx (routeIdx ks kb) pk) ∧
          leafIdsL (res.1.insertIdx (routeIdx ks kb + 1) rt) = newIds ∧
          (∀ j ∈ ks.take (routeIdx ks kb), KLt j pk) ∧
          (∀ j ∈ ks.drop (routeIdx ks kb), KLt pk j) ∧
          loLt lo pk ∧ hiOk hi pk)

end PyMiniDB

namespace PyMiniDB

theorem sorted_split_facts {ks : List (List Nat)} {mid : Nat} (hmid : mid < ks.length)
    (hs : ks.Pairwise KLt) :
    (∀ x ∈ ks.take mid, KLt x (ks.getD mid [])) ∧
    (∀ y ∈ ks.drop mid, bytLe (ks.getD mid []) y = true) ∧
    ks.getD mid [] ∈ ks := by
  rw [List.getD_eq_getElem ks [] hmid]
  have hsplit : ks.take mid ++ ks.drop mid = ks := List.take_append_drop mid ks
  have hpw : (ks.take mid ++ ks.drop mid).Pairwise KLt := by rw [hsplit]; exact hs
  rw [List.pairwise_append] at hpw
  have hdropC : ks.drop mid = ks[mid] :: ks.drop (mid + 1) := List.drop_eq_getElem_cons hmid
  refine ⟨?_, ?_, List.getElem_mem hmid⟩
  · intro x hx
    exact hpw.2.2 x hx ks[mid] (by rw [hdropC]; exact List.mem_cons_self _ _)
  · intro y hy
    rw [hdropC] at hy
    rcases List.mem_cons.mp hy with rfl | hy
    · exact bytLe_refl _
    · refine bytLe_of_bytLt ?_
      have := hpw.2.1
      rw [hdropC] at this
      exact List.rel_of_pairwise_cons this hy

theorem loLt_getD {ks : List (List Nat)} {mid : Nat} {lo : Option (List Nat)}
    (hmid : 1 ≤ mid) (hlen : mid < ks.length) (hs : ks.Pairwise KLt)
    (h0 : ∀ k ∈ ks, loOk lo k) : loLt lo (ks.getD mid []) := by
  cases lo with
  | none => trivial
  | some l =>
    have h0lt : 0 < ks.length := by omega
    have hrel : KLt ks[0] ks[mid] := by
      rw [List.pairwise_iff_getElem] at hs
      exact hs 0 mid h0lt hlen (by omega)
    have hle : bytLe l ks[0] = true := h0 ks[0] (List.getElem_mem h0lt)
    rw [List.getD_eq_getElem ks [] hlen]
    exact bytLt_of_bytLe_of_bytLt hle hrel

end PyMiniDB

namespace PyMiniDB

theorem chainGet_mem {V : Type} {ch : List (LeafRec V)} {j : Nat} {r : LeafRec V}
    (h : chainGet ch j = some r) : r ∈ ch := by
  unfold chainGet at h
  exact List.mem_of_find?_eq_some h

theorem chainGet_update_other {V : Type} {pre post : List (LeafRec V)} {x x' : LeafRec V}
    {j : Nat} (hx : x'.id = x.id) (hj : j ≠ x.id) :
    chainGet (pre ++ x' :: post) j = chainGet (pre ++ x :: post) j := by
  rw [chainGet_append, chainGet_append]
  cases chainGet pre j with
  | some r => rfl
  | none =>
    show chainGet (x' :: post) j = chainGet (x :: post) j
    rw [chainGet_cons_ne x' post (by rw [hx]; exact Ne.symm hj),
      chainGet_cons_ne x post (Ne.symm hj)]

theorem chainGet_update2_other {V : Type} {pre post : List (LeafRec V)}
    {x x' x2 : LeafRec V} {j : Nat} (hx : x'.id = x.id) (hj : j ≠ x.id)
    (hj2 : j ≠ x2.id) :
    chainGet (pre ++ x' :: x2 :: post) j = chainGet (pre ++ x :: post) j := by
  rw [chainGet_append, chainGet_append]
  cases chainGet pre j with
  | some r => rfl
  | none =>
    show chainGet (x' :: x2 :: post) j = chainGet (x :: post) j
    rw [chainGet_cons_ne x' _ (by rw [hx]; exact Ne.symm hj),
      chainGet_cons_ne x2 post (Ne.symm hj2),
      chainGet_cons_ne x post (Ne.symm hj)]

/-- Leaf insert without overflow: the target record gains the key at
its sorted position and the leaf stays bounded. -/
theorem insertGo_leaf_nosplit {V : Type} {ch : List (LeafRec V)} {order : Nat} {i : Nat}
    {lo hi : Option (List Nat)} {kb : List Nat} {v : V} {nid : Nat} {r : LeafRec V}
    (hget : chainGet ch i = some r)
    (hlen : r.vals.length = r.keys.length)
    (hsortK : strictInc r.keys = true)
    (hin : ∀ k ∈ r.keys, loOk lo k ∧ hiOk hi k)
    (hlo : loOk lo kb) (hhi : hiOk hi kb)
    (hfr : ¬ kb ∈ r.keys)
    (hnd : (ch.map (fun t => t.id)).Nodup)
    (hov : ¬ order ≤ (r.keys.insertIdx (insPos r.keys kb) kb).length) :
    InsOut order kb lo hi (RT.leaf i) ch nid (insertGo order (RT.leaf i) kb v ch nid) := by
  obtain ⟨P, S, hPS, hIns, hP, hS⟩ := sorted_insert_spec r.keys kb
    (strictInc_iff_pairwise.mp hsortK) hfr
  obtain ⟨pre, post, hchEq, hpreIds, hrid⟩ := chainGet_decomp hget
  have hpostIds : ∀ y ∈ post, y.id ≠ i := by
    have hnd2 := hnd
    rw [hchEq, List.map_append, List.map_cons] at hnd2
    have h2 := (List.nodup_append.mp hnd2).2.1
    rw [List.nodup_cons] at h2
    intro y hy hc
    exact h2.1 (hrid ▸ hc ▸ List.mem_map_of_mem (fun z => z.id) hy)
  have hks2in : ∀ k ∈ r.keys.insertIdx (insPos r.keys kb) kb, loOk lo k ∧ hiOk hi k := by
    intro k hk
    rw [hIns] at hk
    rcases List.mem_append.mp hk with hk1 | hk2
    · exact hin k (by rw [hPS]; exact List.mem_append_left _ hk1)
    · rcases List.mem_cons.mp hk2 with rfl | hk3
      · exact ⟨hlo, hhi⟩
      · exact hin k (by rw [hPS]; exact List.mem_append_right _ hk3)
  have hks2pw : (r.keys.insertIdx (insPos r.keys kb) kb).Pairwise KLt := by
    rw [hIns]
    exact pairwise_insert_mid (hPS ▸ strictInc_iff_pairwise.mp hsortK) hP hS
  have hks2len : (r.keys.insertIdx (insPos r.keys kb) kb).length = r.keys.length + 1 :=
    List.length_insertIdx _ _ (insPos_le_length _ _)
  have hvs2len : (r.vals.insertIdx (insPos r.keys kb) v).length = r.vals.length + 1 :=
    List.length_insertIdx _ _ (by rw [hlen]; exact insPos_le_length _ _)
  have hstep : insertGo order (RT.leaf i) kb v ch nid =
      (RT.leaf i, none,
        chainSet ch i ⟨i, r.keys.insertIdx (insPos r.keys kb) kb,
          r.vals.insertIdx (insPos r.keys kb) v⟩, nid) := by
    rw [show insertGo order (RT.leaf i) kb v ch nid =
      (match chainGet ch i with
        | none => (RT.leaf i, none, ch, nid)
        | some r =>
          let pos := insPos r.keys kb
          let ks := r.keys.insertIdx pos kb
          let vs := r.vals.insertIdx pos v
          if order ≤ ks.length then
            let mid := ks.length / 2
            let pk := ks.getD mid []
            let ch2 := chainInsertAfter (chainSet ch i ⟨i, ks.take mid, vs.take mid⟩) i
              ⟨nid, ks.drop mid, vs.drop mid⟩
            (RT.leaf i, some (pk, RT.leaf nid), ch2, nid + 1)
          else (RT.leaf i, none, chainSet ch i ⟨i, ks, vs⟩, nid)) from rfl]
    rw [hget]
    simp only [if_neg hov]
  have hchain2 : chainSet ch i ⟨i, r.keys.insertIdx (insPos r.keys kb) kb,
      r.vals.insertIdx (insPos r.keys kb) v⟩ =
      pre ++ (⟨i, r.keys.insertIdx (insPos r.keys kb) kb,
        r.vals.insertIdx (insPos r.keys kb) v⟩ : LeafRec V) :: post := by
    rw [hchEq]
    exact chainSet_decomp pre post r _ hpreIds hrid hpostIds
  rw [hstep]
  unfold InsOut
  refine ⟨pre, r, post, P, S, leafIds (RT.leaf i), hchEq, hrid, hPS, hP, hS, ?_, ?_⟩
  · refine Or.inl ⟨r.vals.insertIdx (insPos r.keys kb) v, ?_, rfl, rfl⟩
    show chainSet ch i ⟨i, r.keys.insertIdx (insPos r.keys kb) kb,
        r.vals.insertIdx (insPos r.keys kb) v⟩ =
      pre ++ LeafRec.mk r.id (P ++ kb :: S)
        (r.vals.insertIdx (insPos r.keys kb) v) :: post
    rw [hchain2, hrid, ← hIns]
  · show Bnd (chainSet ch i ⟨i, r.keys.insertIdx (insPos r.keys kb) kb,
        r.vals.insertIdx (insPos r.keys kb) v⟩) order (RT.leaf i) lo hi ∧
      leafIds (RT.leaf i) = leafIds (RT.leaf i)
    refine ⟨?_, rfl⟩
    rw [hchain2]
    refine Bnd.leaf ⟨i, r.keys.insertIdx (insPos r.keys kb) kb,
        r.vals.insertIdx (insPos r.keys kb) v⟩ ?_ ?_ ?_ ?_ ?_
    · rw [chainGet_skip_all _ hpreIds]
      exact chainGet_cons_self _ _
    · show (r.vals.insertIdx (insPos r.keys kb) v).length =
        (r.keys.insertIdx (insPos r.keys kb) kb).length
      rw [hvs2len, hks2len, hlen]
    · show (r.keys.insertIdx (insPos r.keys kb) kb).length ≤ order - 1
      omega
    · exact strictInc_iff_pairwise.mpr hks2pw
    · exact hks2in

end PyMiniDB

namespace PyMiniDB

/-- Leaf insert with overflow: the record is split at the midpoint,
the right half moves to a fresh record spliced in after it, and the
midpoint key is promoted. -/
theorem insertGo_leaf_split {V : Type} {ch : List (LeafRec V)} {order : Nat} {i : Nat}
    {lo hi : Option (List Nat)} {kb : List Nat} {v : V} {nid : Nat} {r : LeafRec V}
    (hget : chainGet ch i = some r)
    (hlen : r.vals.length = r.keys.length) (hcnt : r.keys.length ≤ order - 1)
    (hsortK : strictInc r.keys = true)
    (hin : ∀ k ∈ r.keys, loOk lo k ∧ hiOk hi k)
    (hlo : loOk lo kb) (hhi : hiOk hi kb)
    (hfr : ¬ kb ∈ r.keys)
    (hnd : (ch.map (fun t => t.id)).Nodup)
    (hidlt : ∀ t ∈ ch, t.id < nid)
    (horder : 3 ≤ order)
    (hov : order ≤ (r.keys.insertIdx (insPos r.keys kb) kb).length) :
    InsOut order kb lo hi (RT.leaf i) ch nid (insertGo order (RT.leaf i) kb v ch nid) := by
  obtain ⟨P, S, hPS, hIns, hP, hS⟩ := sorted_insert_spec r.keys kb
    (strictInc_iff_pairwise.mp hsortK) hfr
  obtain ⟨pre, post, hchEq, hpreIds, hrid⟩ := chainGet_decomp hget
  have hpostIds : ∀ y ∈ post, y.id ≠ i := by
    have hnd2 := hnd
    rw [hchEq, List.map_append, List.map_cons] at hnd2
    have h2 := (List.nodup_append.mp hnd2).2.1
    rw [List.nodup_cons] at h2
    intro y hy hc
    exact h2.1 (hrid ▸ hc ▸ List.mem_map_of_mem (fun z => z.id) hy)
  have hks2in : ∀ k ∈ r.keys.insertIdx (insPos r.keys kb) kb, loOk lo k ∧ hiOk hi k := by
    intro k hk
    rw [hIns] at hk
    rcases List.mem_append.mp hk with hk1 | hk2
    · exact hin k (by rw [hPS]; exact List.mem_append_left _ hk1)
    · rcases List.mem_cons.mp hk2 with rfl | hk3
      · exact ⟨hlo, hhi⟩
      · exact hin k (by rw [hPS]; exact List.mem_append_right _ hk3)
  have hks2pw : (r.keys.insertIdx (insPos r.keys kb) kb).Pairwise KLt := by
    rw [hIns]
    exact pairwise_insert_mid (hPS ▸ strictInc_iff_pairwise.mp hsortK) hP hS
  have hks2len : (r.keys.insertIdx (insPos r.keys kb) kb).length = r.keys.length + 1 :=
    List.length_insertIdx _ _ (insPos_le_length _ _)
  have hvs2len : (r.vals.insertIdx (insPos r.keys kb) v).length = r.vals.length + 1 :=
    List.length_insertIdx _ _ (by rw [hlen]; exact insPos_le_length _ _)
  have hklen : (r.keys.insertIdx (insPos r.keys kb) kb).length = order := by omega
  have hmid1 : 1 ≤ (r.keys.insertIdx (insPos r.keys kb) kb).length / 2 := by omega
  have hmidlt : (r.keys.insertIdx (insPos r.keys kb) kb).length / 2 <
      (r.keys.insertIdx (insPos r.keys kb) kb).length := by omega
  have hilt : i < nid := by
    have hm : r ∈ ch := by
      rw [hchEq]
      exact List.mem_append_right _ (List.mem_cons_self _ _)
    have := hidlt r hm
    omega
  have hpreNid : ∀ y ∈ pre, y.id ≠ nid := by
    intro y hy hc
    have hm : y ∈ ch := by rw [hchEq]; exact List.mem_append_left _ hy
    have := hidlt y hm
    omega
  obtain ⟨hsf1, hsf2, hsf3⟩ := sorted_split_facts hmidlt hks2pw
  have hstep : insertGo order (RT.leaf i) kb v ch nid =
      (RT.leaf i,
        some ((r.keys.insertIdx (insPos r.keys kb) kb).getD
          ((r.keys.insertIdx (insPos r.keys kb) kb).length / 2) [], RT.leaf nid),
        chainInsertAfter (chainSet ch i
          ⟨i, (r.keys.insertIdx (insPos r.keys kb) kb).take
              ((r.keys.insertIdx (insPos r.keys kb) kb).length / 2),
            (r.vals.insertIdx (insPos r.keys kb) v).take
              ((r.keys.insertIdx (insPos r.keys kb) kb).length / 2)⟩) i
          ⟨nid, (r.keys.insertIdx (insPos r.keys kb) kb).drop
              ((r.keys.insertIdx (insPos r.keys kb) kb).length / 2),
            (r.vals.insertIdx (insPos r.keys kb) v).drop
              ((r.keys.insertIdx (insPos r.keys kb) kb).length / 2)⟩,
        nid + 1) := by
    rw [show insertGo order (RT.leaf i) kb v ch nid =
      (match chainGet ch i with
        | none => (RT.leaf i, none, ch, nid)
        | some r =>
          let pos := insPos r.keys kb
          let ks := r.keys.insertIdx pos kb
          let vs := r.vals.insertIdx pos v
          if order ≤ ks.length then
            let mid := ks.length / 2
            let pk := ks.getD mid []
            let ch2 := chainInsertAfter (chainSet ch i ⟨i, ks.take mid, vs.take mid⟩) i
              ⟨nid, ks.drop mid, vs.drop mid⟩
            (RT.leaf i, some (pk, RT.leaf nid), ch2, nid + 1)
          else (RT.leaf i, none, chainSet ch i ⟨i, ks, vs⟩, nid)) from rfl]
    rw [hget]
    simp only [if_pos hov]
  have hchain2 : chainInsertAfter (chainSet ch i
      ⟨i, (r.keys.insertIdx (insPos r.keys kb) kb).take
          ((r.keys.insertIdx (insPos r.keys kb) kb).length / 2),
        (r.vals.insertIdx (insPos r.keys kb) v).take
          ((r.keys.insertIdx (insPos r.keys kb) kb).length / 2)⟩) i
      ⟨nid, (r.keys.insertIdx (insPos r.keys kb) kb).drop
          ((r.keys.insertIdx (insPos r.keys kb) kb).length / 2),
        (r.vals.insertIdx (insPos r.keys kb) v).drop
          ((r.keys.insertIdx (insPos r.keys kb) kb).length / 2)⟩ =
      pre ++ (⟨i, (r.keys.insertIdx (insPos r.keys kb) kb).take
          ((r.keys.insertIdx (insPos r.keys kb) kb).length / 2),
        (r.vals.insertIdx (insPos r.keys kb) v).take
          ((r.keys.insertIdx (insPos r.keys kb) kb).length / 2)⟩ : LeafRec V) ::
        (⟨nid, (r.keys.insertIdx (insPos r.keys kb) kb).drop
          ((r.keys.insertIdx (insPos r.keys kb) kb).length / 2),
        (r.vals.insertIdx (insPos r.keys kb) v).drop
          ((r.keys.insertIdx (insPos r.keys kb) kb).length / 2)⟩ : LeafRec V) :: post := by
    rw [hchEq, chainSet_decomp pre post r _ hpreIds hrid hpostIds]
    exact chainInsertAfter_decomp pre post _ _ hpreIds rfl
  rw [hstep]
  unfold InsOut
  refine ⟨pre, r, post, P, S, [i, nid], hchEq, hrid, hPS, hP, hS, ?_, ?_⟩
  · refine Or.inr ⟨(r.keys.insertIdx (insPos r.keys kb) kb).take
        ((r.keys.insertIdx (insPos r.keys kb) kb).length / 2),
      (r.vals.insertIdx (insPos r.keys kb) v).take
        ((r.keys.insertIdx (insPos r.keys kb) kb).length / 2),
      (r.keys.insertIdx (insPos r.keys kb) kb).drop
        ((r.keys.insertIdx (insPos r.keys kb) kb).length / 2),
      (r.vals.insertIdx (insPos r.keys kb) v).drop
        ((r.keys.insertIdx (insPos r.keys kb) kb).length / 2), ?_, ?_, rfl, ?_⟩
    · show chainInsertAfter (chainSet ch i _) i _ = _
      rw [hchain2, hrid]
    · rw [List.take_append_drop, hIns]
    · show [i, nid] = idInsertAfter (leafIds (RT.leaf i)) r.id nid
      rw [hrid]
      simp [leafIds, idInsertAfter]
  · show Bnd _ order (RT.leaf i) lo
        (some ((r.keys.insertIdx (insPos r.keys kb) kb).getD
          ((r.keys.insertIdx (insPos r.keys kb) kb).length / 2) [])) ∧
      Bnd _ order (RT.leaf nid)
        (some ((r.keys.insertIdx (insPos r.keys kb) kb).getD
          ((r.keys.insertIdx (insPos r.keys kb) kb).length / 2) [])) hi ∧
      loLt lo ((r.keys.insertIdx (insPos r.keys kb) kb).getD
          ((r.keys.insertIdx (insPos r.keys kb) kb).length / 2) []) ∧
      hiOk hi ((r.keys.insertIdx (insPos r.keys kb) kb).getD
          ((r.keys.insertIdx (insPos r.keys kb) kb).length / 2) []) ∧
      leafIds (RT.leaf i) ++ leafIds (RT.leaf nid) = [i, nid]
    rw [hchain2]
    refine ⟨?_, ?_, ?_, ?_, rfl⟩
    · refine Bnd.leaf ⟨i, (r.keys.insertIdx (insPos r.keys kb) kb).take
          ((r.keys.insertIdx (insPos r.keys kb) kb).length / 2),
        (r.vals.insertIdx (insPos r.keys kb) v).take
          ((r.keys.insertIdx (insPos r.keys kb) kb).length / 2)⟩ ?_ ?_ ?_ ?_ ?_
      · rw [chainGet_skip_all _ hpreIds]
        exact chainGet_cons_self _ _
      · show ((r.vals.insertIdx (insPos r.keys kb) v).take _).length =
          ((r.keys.insertIdx (insPos r.keys kb) kb).take _).length
        rw [List.length_take, List.length_take, hvs2len, hks2len, hlen]
      · show ((r.keys.insertIdx (insPos r.keys kb) kb).take _).length ≤ order - 1
        rw [List.length_take]
        omega
      · exact strictInc_iff_pairwise.mpr
          (List.Pairwise.sublist (List.take_sublist _ _) hks2pw)
      · intro k hk
        exact ⟨(hks2in k (List.mem_of_mem_take hk)).1, hsf1 k hk⟩
    · refine Bnd.leaf ⟨nid, (r.keys.insertIdx (insPos r.keys kb) kb).drop
          ((r.keys.insertIdx (insPos r.keys kb) kb).length / 2),
        (r.vals.insertIdx (insPos r.keys kb) v).drop
          ((r.keys.insertIdx (insPos r.keys kb) kb).length / 2)⟩ ?_ ?_ ?_ ?_ ?_
      · rw [chainGet_skip_all _ hpreNid]
        rw [chainGet_cons_ne _ _ (show i ≠ nid by omega)]
        exact chainGet_cons_self _ _
      · show ((r.vals.insertIdx (insPos r.keys kb) v).drop _).length =
          ((r.keys.insertIdx (insPos r.keys kb) kb).drop _).length
        rw [List.length_drop, List.length_drop, hvs2len, hks2len, hlen]
      · show ((r.keys.insertIdx (insPos r.keys kb) kb).drop _).length ≤ order - 1
        rw [List.length_drop]
        omega
      · exact strictInc_iff_pairwise.mpr
          (List.Pairwise.sublist (List.drop_sublist _ _) hks2pw)
      · intro k hk
        exact ⟨hsf2 k hk, (hks2in k (List.mem_of_mem_drop hk)).2⟩
    · exact loLt_getD hmid1 hmidlt hks2pw (fun k hk => (hks2in k hk).1)
    · exact (hks2in _ hsf3).2

end PyMiniDB

namespace PyMiniDB

/-- Routing-node step: combining the child-list outcome contract with
the parent-level promoted-key insertion (at `insPos`, which coincides
with the routing index) and the internal split on overflow. -/
theorem insertGo_node_step {V : Type} {ch : List (LeafRec V)} {order : Nat}
    {keys : List (List Nat)} {children : List RT} {lo hi : Option (List Nat)}
    {kb : List Nat} {v : V} {nid : Nat}
    (hsortN : strictInc keys = true) (hcnt : keys.length ≤ order - 1)
    (hin : ∀ k ∈ keys, loOk lo k ∧ hiOk hi k)
    (horder : 3 ≤ order)
    (ho : InsOutL order kb lo hi children keys ch nid
      (insertChildren order children (routeIdx keys kb) kb v ch nid)) :
    InsOut order kb lo hi (RT.node keys children) ch nid
      (insertGo order (RT.node keys children) kb v ch nid) := by
  obtain ⟨pre, x, post, P, S, newIds, h1, h2, h3, h4, h5, h6, h7⟩ := ho
  have hstep0 : insertGo order (RT.node keys children) kb v ch nid =
      (match (insertChildren order children (routeIdx keys kb) kb v ch nid).2.1 with
        | none =>
          (RT.node keys (insertChildren order children (routeIdx keys kb) kb v ch nid).1,
            none,
            (insertChildren order children (routeIdx keys kb) kb v ch nid).2.2.1,
            (insertChildren order children (routeIdx keys kb) kb v ch nid).2.2.2)
        | some (pk, rsub) =>
          if order ≤ (keys.insertIdx (insPos keys pk) pk).length then
            (RT.node ((keys.insertIdx (insPos keys pk) pk).take
                ((keys.insertIdx (insPos keys pk) pk).length / 2))
              (((insertChildren order children (routeIdx keys kb) kb v ch nid).1.insertIdx
                (insPos keys pk + 1) rsub).take
                ((keys.insertIdx (insPos keys pk) pk).length / 2 + 1)),
              some ((keys.insertIdx (insPos keys pk) pk).getD
                  ((keys.insertIdx (insPos keys pk) pk).length / 2) [],
                RT.node ((keys.insertIdx (insPos keys pk) pk).drop
                  ((keys.insertIdx (insPos keys pk) pk).length / 2 + 1))
                  (((insertChildren order children (routeIdx keys kb) kb v ch nid).1.insertIdx
                    (insPos keys pk + 1) rsub).drop
                    ((keys.insertIdx (insPos keys pk) pk).length / 2 + 1))),
              (insertChildren order children (routeIdx keys kb) kb v ch nid).2.2.1,
              (insertChildren order children (routeIdx keys kb) kb v ch nid).2.2.2)
          else
            (RT.node (keys.insertIdx (insPos keys pk) pk)
              ((insertChildren order children (routeIdx keys kb) kb v ch nid).1.insertIdx
                (insPos keys pk + 1) rsub),
              none,
              (insertChildren order children (routeIdx keys kb) kb v ch nid).2.2.1,
              (insertChildren order children (routeIdx keys kb) kb v ch nid).2.2.2)) := rfl
  rcases hres : (insertChildren order children (routeIdx keys kb) kb v ch nid).2.1 with
    _ | ⟨pk, rsub⟩
  · rw [hres] at h7
    obtain ⟨hbndl, hids⟩ := h7
    rw [hstep0, hres]
    unfold InsOut
    dsimp only
    exact ⟨pre, x, post, P, S, newIds, h1, h2, h3, h4, h5, h6,
      Bnd.node hsortN hcnt hin hbndl, hids⟩
  · rw [hres] at h7
    obtain ⟨hBL, hids, htk, hdk, hloLt2, hhiOk2⟩ := h7
    have hp : insPos keys pk = routeIdx keys kb :=
      insPos_eq keys pk (routeIdx keys kb) (routeIdx_le_length _ _) htk hdk
    have hksTD : keys.insertIdx (routeIdx keys kb) pk =
        keys.take (routeIdx keys kb) ++ pk :: keys.drop (routeIdx keys kb) :=
      insertIdx_take_drop _ _ _ (routeIdx_le_length _ _)
    have hkeys2pw : (keys.insertIdx (routeIdx keys kb) pk).Pairwise KLt := by
      rw [hksTD]
      refine pairwise_insert_mid ?_ htk hdk
      rw [List.take_append_drop]
      exact strictInc_iff_pairwise.mp hsortN
    have hkeys2in : ∀ k ∈ keys.insertIdx (routeIdx keys kb) pk,
        loOk lo k ∧ hiOk hi k := by
      intro k hk
      rw [hksTD] at hk
      rcases List.mem_append.mp hk with hk1 | hk2
      · exact hin k (List.mem_of_mem_take hk1)
      · rcases List.mem_cons.mp hk2 with rfl | hk3
        · refine ⟨?_, hhiOk2⟩
          cases lo with
          | none => trivial
          | some l => exact bytLe_of_bytLt hloLt2
        · exact hin k (List.mem_of_mem_drop hk3)
    have hkeys2len : (keys.insertIdx (routeIdx keys kb) pk).length = keys.length + 1 :=
      List.length_insertIdx _ _ (routeIdx_le_length _ _)
    rw [hstep0, hres]
    dsimp only
    rw [hp]
    by_cases hov : order ≤ (keys.insertIdx (routeIdx keys kb) pk).length
    · rw [if_pos hov]
      have hklen2 : (keys.insertIdx (routeIdx keys kb) pk).length = order := by omega
      have hmid1 : 1 ≤ (keys.insertIdx (routeIdx keys kb) pk).length / 2 := by omega
      have hmidlt : (keys.insertIdx (routeIdx keys kb) pk).length / 2 <
          (keys.insertIdx (routeIdx keys kb) pk).length := by omega
      have hdropC : (keys.insertIdx (routeIdx keys kb) pk).drop
          ((keys.insertIdx (routeIdx keys kb) pk).length / 2) =
          (keys.insertIdx (routeIdx keys kb) pk).getD
            ((keys.insertIdx (routeIdx keys kb) pk).length / 2) [] ::
          (keys.insertIdx (routeIdx keys kb) pk).drop
            ((keys.insertIdx (routeIdx keys kb) pk).length / 2 + 1) := by
        rw [List.getD_eq_getElem _ [] hmidlt]
        exact List.drop_eq_getElem_cons hmidlt
      have hsplitEq : keys.insertIdx (routeIdx keys kb) pk =
          (keys.insertIdx (routeIdx keys kb) pk).take
            ((keys.insertIdx (routeIdx keys kb) pk).length / 2) ++
          (keys.insertIdx (routeIdx keys kb) pk).getD
            ((keys.insertIdx (routeIdx keys kb) pk).length / 2) [] ::
          (keys.insertIdx (routeIdx keys kb) pk).drop
            ((keys.insertIdx (routeIdx keys kb) pk).length / 2 + 1) := by
        have h := List.take_append_drop
          ((keys.insertIdx (routeIdx keys kb) pk).length / 2)
          (keys.insertIdx (routeIdx keys kb) pk)
        rw [hdropC] at h
        exact h.symm
      obtain ⟨csA, csB, hcsEq, hcsLen, hBA, hBB⟩ :=
        BndL_split (by rw [← hsplitEq]; exact hBL)
      have hlenA : csA.length = (keys.insertIdx (routeIdx keys kb) pk).length / 2 + 1 := by
        rw [hcsLen, List.length_take]
        omega
      have hcsA : ((insertChildren order children (routeIdx keys kb) kb v ch
          nid).1.insertIdx (routeIdx keys kb + 1) rsub).take
          ((keys.insertIdx (routeIdx keys kb) pk).length / 2 + 1) = csA := by
        rw [hcsEq]
        exact List.take_left' hlenA
      have hcsB : ((insertChildren order children (routeIdx keys kb) kb v ch
          nid).1.insertIdx (routeIdx keys kb + 1) rsub).drop
          ((keys.insertIdx (routeIdx keys kb) pk).length / 2 + 1) = csB := by
        rw [hcsEq]
        exact List.drop_left' hlenA
      obtain ⟨hsfa, hsfb, hsfc⟩ := sorted_split_facts hmidlt hkeys2pw
      unfold InsOut
      dsimp only
      refine ⟨pre, x, post, P, S, newIds, h1, h2, h3, h4, h5, h6, ?_, ?_, ?_, ?_, ?_⟩
      · refine Bnd.node ?_ ?_ ?_ ?_
        · exact strictInc_iff_pairwise.mpr
            (List.Pairwise.sublist (List.take_sublist _ _) hkeys2pw)
        · rw [List.length_take]
          omega
        · intro k hk
          exact ⟨(hkeys2in k (List.mem_of_mem_take hk)).1, hsfa k hk⟩
        · rw [hcsA]
          exact hBA
      · refine Bnd.node ?_ ?_ ?_ ?_
        · exact strictInc_iff_pairwise.mpr
            (List.Pairwise.sublist (List.drop_sublist _ _) hkeys2pw)
        · rw [List.length_drop]
          omega
        · intro k hk
          refine ⟨?_, (hkeys2in k (List.mem_of_mem_drop hk)).2⟩
          refine hsfb k ?_
          rw [hdropC]
          exact List.mem_cons_of_mem _ hk
        · rw [hcsB]
          exact hBB
      · exact loLt_getD hmid1 hmidlt hkeys2pw (fun k hk => (hkeys2in k hk).1)
      · exact (hkeys2in _ hsfc).2
      · show leafIdsL _ ++ leafIdsL _ = newIds
        rw [← leafIdsL_append, List.take_append_drop]
        exact hids
    · rw [if_neg hov]
      unfold InsOut
      dsimp only
      refine ⟨pre, x, post, P, S, newIds, h1, h2, h3, h4, h5, h6,
        Bnd.node (strictInc_iff_pairwise.mpr hkeys2pw) (by omega) hkeys2in hBL, hids⟩

end PyMiniDB

namespace PyMiniDB

/-- Child-list step at the last (separator-less) child. -/
theorem insertChildren_last_step {V : Type} {ch : List (LeafRec V)} {order : Nat}
    {c : RT} {lo hi : Option (List Nat)} {kb : List Nat} {v : V} {nid : Nat}
    (ho : InsOut order kb lo hi c ch nid (insertGo order c kb v ch nid)) :
    InsOutL order kb lo hi [c] [] ch nid
      (insertChildren order [c] (routeIdx [] kb) kb v ch nid) := by
  obtain ⟨pre, x, post, P, S, newIds, h1, h2, h3, h4, h5, h6, h7⟩ := ho
  have hstep : insertChildren order [c] (routeIdx [] kb) kb v ch nid =
      ((insertGo order c kb v ch nid).1 :: [],
        (insertGo order c kb v ch nid).2.1,
        (insertGo order c kb v ch nid).2.2.1,
        (insertGo order c kb v ch nid).2.2.2) := rfl
  rw [hstep]
  unfold InsOutL
  dsimp only
  refine ⟨pre, x, post, P, S, newIds, h1, h2, h3, h4, h5, ?_, ?_⟩
  · rcases h6 with ⟨vs, ha, hb, hc'⟩ | ⟨ksL, vsL, ksR, vsR, ha, hb, hc', hd⟩
    · refine Or.inl ⟨vs, ha, hb, ?_⟩
      rw [hc']
      simp [leafIdsL]
    · refine Or.inr ⟨ksL, vsL, ksR, vsR, ha, hb, hc', ?_⟩
      rw [hd]
      simp [leafIdsL]
  · rcases hres : (insertGo order c kb v ch nid).2.1 with _ | ⟨pk, rt⟩ <;>
      rw [hres] at h7
    · obtain ⟨hb1, hb2⟩ := h7
      refine ⟨BndL.last hb1, ?_⟩
      simp only [leafIdsL, List.append_nil]
      exact hb2
    · obtain ⟨hb1, hb2, hb3, hb4, hb5⟩ := h7
      refine ⟨?_, ?_, ?_, ?_, hb3, hb4⟩
      · show BndL _ order ([(insertGo order c kb v ch nid).1].insertIdx
          (routeIdx ([] : List (List Nat)) kb + 1) rt) lo hi
          (([] : List (List Nat)).insertIdx (routeIdx ([] : List (List Nat)) kb) pk)
        exact BndL.cons hb1 (BndL.last hb2)
      · show leafIdsL ([(insertGo order c kb v ch nid).1].insertIdx
          (routeIdx ([] : List (List Nat)) kb + 1) rt) = newIds
        show leafIdsL [(insertGo order c kb v ch nid).1, rt] = newIds
        simp only [leafIdsL, List.append_nil]
        exact hb5
      · intro j hj
        simp [routeIdx] at hj
      · intro j hj
        simp [routeIdx] at hj

end PyMiniDB

namespace PyMiniDB

/-- Child-list step when the router moves past the first separator
(`key_bytes >= keys[0]`): recurse into the remaining children; the
first child's leaves are untouched. -/
theorem insertChildren_cons_right_step {V : Type} {ch : List (LeafRec V)} {order : Nat}
    {c : RT} {cs' : List RT} {k0 : List Nat} {ks' : List (List Nat)}
    {lo hi : Option (List Nat)} {kb : List Nat} {v : V} {nid : Nat}
    (hc : Bnd ch order c lo (some k0))
    (hcs : BndL ch order cs' (some k0) hi ks')
    (hsort : (k0 :: ks').Pairwise KLt)
    (hks : ∀ k ∈ k0 :: ks', loOk lo k ∧ hiOk hi k)
    (hle : bytLe k0 kb = true)
    (hhi : hiOk hi kb)
    (hidlt : ∀ t ∈ ch, t.id < nid)
    (hLnd : (leafIdsL (c :: cs')).Nodup)
    (ho : InsOutL order kb (some k0) hi cs' ks' ch nid
      (insertChildren order cs' (routeIdx ks' kb) kb v ch nid)) :
    InsOutL order kb lo hi (c :: cs') (k0 :: ks') ch nid
      (insertChildren order (c :: cs') (routeIdx (k0 :: ks') kb) kb v ch nid) := by
  obtain ⟨pre, x, post, P, S, newIds, h1, h2, h3, h4, h5, h6, h7⟩ := ho
  have hroute : routeIdx (k0 :: ks') kb = routeIdx ks' kb + 1 := by
    rw [routeIdx_cons, if_pos hle]
  have hstep : insertChildren order (c :: cs') (routeIdx ks' kb + 1) kb v ch nid =
      (c :: (insertChildren order cs' (routeIdx ks' kb) kb v ch nid).1,
        (insertChildren order cs' (routeIdx ks' kb) kb v ch nid).2.1,
        (insertChildren order cs' (routeIdx ks' kb) kb v ch nid).2.2.1,
        (insertChildren order cs' (routeIdx ks' kb) kb v ch nid).2.2.2) := rfl
  have hks2 : ∀ y ∈ ks', loOk (some k0) y ∧ hiOk hi y := fun y hy =>
    ⟨bytLe_of_bytLt (List.rel_of_pairwise_cons hsort hy),
      (hks y (List.mem_cons_of_mem _ hy)).2⟩
  have hmem : findLeafChildren cs' (routeIdx ks' kb) kb ∈ leafIdsL cs' := by
    obtain ⟨pre2, post2, he, _, _⟩ :=
      find_specL hcs (List.Pairwise.of_cons hsort) hks2 hle hhi
    rw [he]
    exact List.mem_append_right _ (List.mem_cons_self _ _)
  have hxmem : x.id ∈ leafIdsL cs' := by rw [h2]; exact hmem
  have hdisj : List.Disjoint (leafIds c) (leafIdsL cs') :=
    (List.nodup_append.mp (by simpa [leafIdsL] using hLnd)).2.2
  have hxnotc : ¬ x.id ∈ leafIds c := fun hcA => hdisj hcA hxmem
  have hpres : ∀ j ∈ leafIds c,
      chainGet (insertChildren order cs' (routeIdx ks' kb) kb v ch nid).2.2.1 j =
      chainGet ch j := by
    intro j hj
    have hjx : j ≠ x.id := fun hc2 => hxnotc (hc2 ▸ hj)
    have hjnid : j < nid := by
      obtain ⟨r2, hr2, hrid2⟩ := Bnd_leaf_get hc j hj
      have := hidlt r2 (chainGet_mem hr2)
      omega
    rcases h6 with ⟨vs, he, _, _⟩ | ⟨ksL, vsL, ksR, vsR, he, _, _, _⟩
    · rw [he, h1]
      exact chainGet_update_other rfl hjx
    · rw [he, h1]
      refine chainGet_update2_other rfl hjx ?_
      dsimp only
      omega
  have hBc : Bnd (insertChildren order cs' (routeIdx ks' kb) kb v ch nid).2.2.1
      order c lo (some k0) := Bnd_congr hc hpres
  rw [hroute]
  unfold InsOutL
  rw [hroute, hstep]
  dsimp only
  refine ⟨pre, x, post, P, S, leafIds c ++ newIds, h1, h2, h3, h4, h5, ?_, ?_⟩
  · rcases h6 with ⟨vs, ha, hb, hc'⟩ | ⟨ksL, vsL, ksR, vsR, ha, hb, hc', hd⟩
    · refine Or.inl ⟨vs, ha, hb, ?_⟩
      simp only [leafIdsL, hc']
    · refine Or.inr ⟨ksL, vsL, ksR, vsR, ha, hb, hc', ?_⟩
      rw [hd, show leafIdsL (c :: cs') = leafIds c ++ leafIdsL cs' from rfl,
        idInsertAfter_right hxnotc]
  · rcases hres : (insertChildren order cs' (routeIdx ks' kb) kb v ch nid).2.1 with
      _ | ⟨pk, rt⟩ <;> rw [hres] at h7
    · obtain ⟨hb1, hb2⟩ := h7
      refine ⟨BndL.cons hBc hb1, ?_⟩
      simp only [leafIdsL]
      rw [hb2]
    · obtain ⟨hb1, hb2, hb3, hb4, hb5, hb6⟩ := h7
      refine ⟨?_, ?_, ?_, ?_, ?_, hb6⟩
      · show BndL _ order
          ((c :: (insertChildren order cs' (routeIdx ks' kb) kb v ch nid).1).insertIdx
            (routeIdx ks' kb + 1 + 1) rt) lo hi
          ((k0 :: ks').insertIdx (routeIdx ks' kb + 1) pk)
        rw [List.insertIdx_succ_cons, List.insertIdx_succ_cons]
        exact BndL.cons hBc hb1
      · show leafIdsL
          ((c :: (insertChildren order cs' (routeIdx ks' kb) kb v ch nid).1).insertIdx
            (routeIdx ks' kb + 1 + 1) rt) = leafIds c ++ newIds
        rw [List.insertIdx_succ_cons]
        simp only [leafIdsL]
        rw [hb2]
      · intro j hj
        rw [List.take_succ_cons] at hj
        rcases List.mem_cons.mp hj with rfl | hj2
        · exact hb5
        · exact hb3 j hj2
      · intro j hj
        rw [List.drop_succ_cons] at hj
        exact hb4 j hj
      · cases lo with
        | none => trivial
        | some l =>
          exact bytLt_of_bytLe_of_bytLt (hks k0 (List.mem_cons_self _ _)).1 hb5

/-- Child-list step when the router stays at the first child
(`key_bytes < keys[0]`): recurse into it; the remaining children's
leaves are untouched. -/
theorem insertChildren_cons_left_step {V : Type} {ch : List (LeafRec V)} {order : Nat}
    {c : RT} {cs' : List RT} {k0 : List Nat} {ks' : List (List Nat)}
    {lo hi : Option (List Nat)} {kb : List Nat} {v : V} {nid : Nat}
    (hc : Bnd ch order c lo (some k0))
    (hcs : BndL ch order cs' (some k0) hi ks')
    (hsort : (k0 :: ks').Pairwise KLt)
    (hks : ∀ k ∈ k0 :: ks', loOk lo k ∧ hiOk hi k)
    (hle : bytLe k0 kb = false)
    (hlo : loOk lo kb)
    (hidlt : ∀ t ∈ ch, t.id < nid)
    (hLnd : (leafIdsL (c :: cs')).Nodup)
    (ho : InsOut order kb lo (some k0) c ch nid (insertGo order c kb v ch nid)) :
    InsOutL order kb lo hi (c :: cs') (k0 :: ks') ch nid
      (insertChildren order (c :: cs') (routeIdx (k0 :: ks') kb) kb v ch nid) := by
  obtain ⟨pre, x, post, P, S, newIds, h1, h2, h3, h4, h5, h6, h7⟩ := ho
  have hkb0 : bytLt kb k0 = true := bytLt_of_not_bytLe hle
  have hroute : routeIdx (k0 :: ks') kb = 0 := by
    rw [routeIdx_cons]
    simp [hle]
  have hstep : insertChildren order (c :: cs') 0 kb v ch nid =
      ((insertGo order c kb v ch nid).1 :: cs',
        (insertGo order c kb v ch nid).2.1,
        (insertGo order c kb v ch nid).2.2.1,
        (insertGo order c kb v ch nid).2.2.2) := rfl
  have hmem : findLeafRT c kb ∈ leafIds c := by
    obtain ⟨pre2, post2, he, _, _⟩ := find_spec hc hlo hkb0
    rw [he]
    exact List.mem_append_right _ (List.mem_cons_self _ _)
  have hxmem : x.id ∈ leafIds c := by rw [h2]; exact hmem
  have hdisj : List.Disjoint (leafIds c) (leafIdsL cs') :=
    (List.nodup_append.mp (by simpa [leafIdsL] using hLnd)).2.2
  have hpres : ∀ j ∈ leafIdsL cs',
      chainGet (insertGo order c kb v ch nid).2.2.1 j = chainGet ch j := by
    intro j hj
    have hjx : j ≠ x.id := fun hc2 => hdisj hxmem (hc2 ▸ hj)
    have hjnid : j < nid := by
      obtain ⟨r2, hr2, hrid2⟩ := BndL_leaf_get hcs j hj
      have := hidlt r2 (chainGet_mem hr2)
      omega
    rcases h6 with ⟨vs, he, _, _⟩ | ⟨ksL, vsL, ksR, vsR, he, _, _, _⟩
    · rw [he, h1]
      exact chainGet_update_other rfl hjx
    · rw [he, h1]
      refine chainGet_update2_other rfl hjx ?_
      dsimp only
      omega
  have hBcs : BndL (insertGo order c kb v ch nid).2.2.1 order cs' (some k0) hi ks' :=
    BndL_congr hcs hpres
  rw [hroute]
  unfold InsOutL
  rw [hroute, hstep]
  dsimp only
  refine ⟨pre, x, post, P, S, newIds ++ leafIdsL cs', h1, h2, h3, h4, h5, ?_, ?_⟩
  · rcases h6 with ⟨vs, ha, hb, hc'⟩ | ⟨ksL, vsL, ksR, vsR, ha, hb, hc', hd⟩
    · refine Or.inl ⟨vs, ha, hb, ?_⟩
      simp only [leafIdsL, hc']
    · refine Or.inr ⟨ksL, vsL, ksR, vsR, ha, hb, hc', ?_⟩
      rw [hd, show leafIdsL (c :: cs') = leafIds c ++ leafIdsL cs' from rfl,
        idInsertAfter_left hxmem]
  · rcases hres : (insertGo order c kb v ch nid).2.1 with _ | ⟨pk, rt⟩ <;>
      rw [hres] at h7
    · obtain ⟨hb1, hb2⟩ := h7
      refine ⟨BndL.cons hb1 hBcs, ?_⟩
      simp only [leafIdsL]
      rw [hb2]
    · obtain ⟨hb1, hb2, hb3, hb4, hb5⟩ := h7
      refine ⟨?_, ?_, ?_, ?_, hb3, ?_⟩
      · show BndL _ order
          (((insertGo order c kb v ch nid).1 :: cs').insertIdx (0 + 1) rt) lo hi
          ((k0 :: ks').insertIdx 0 pk)
        rw [List.insertIdx_succ_cons, List.insertIdx_zero, List.insertIdx_zero]
        exact BndL.cons hb1 (BndL.cons hb2 hBcs)
      · show leafIdsL
          (((insertGo order c kb v ch nid).1 :: cs').insertIdx (0 + 1) rt) =
          newIds ++ leafIdsL cs'
        rw [List.insertIdx_succ_cons, List.insertIdx_zero]
        simp only [leafIdsL]
        rw [← hb5, List.append_assoc]
      · intro j hj
        simp at hj
      · intro j hj
        rw [List.drop_zero] at hj
        rcases List.mem_cons.mp hj with rfl | hj2
        · exact hb4
        · exact bytLt_trans hb4 (List.rel_of_pairwise_cons hsort hj2)
      · cases hi with
        | none => trivial
        | some h =>
          exact bytLt_trans hb4 (hks k0 (List.mem_cons_self _ _)).2

end PyMiniDB

namespace PyMiniDB

mutual

/-- `insertGo` on a bounded subtree with a fresh key realises the
`InsOut` outcome contract: the chain is updated exactly at the routed
leaf (split on overflow), boundedness is re-established and the leaf
id sequence transforms accordingly. -/
theorem insert_spec {V : Type} {ch : List (LeafRec V)} {order : Nat} {t : RT}
    {lo hi : Option (List Nat)} {kb : List Nat} {v : V} {nid : Nat}
    (hb : Bnd ch order t lo hi) (horder : 3 ≤ order)
    (hlo : loOk lo kb) (hhi : hiOk hi kb)
    (hfresh : ∀ j ∈ leafIds t, ∀ r, chainGet ch j = some r → ¬ kb ∈ r.keys)
    (hnd : (ch.map (fun t => t.id)).Nodup)
    (hidlt : ∀ t ∈ ch, t.id < nid)
    (hLnd : (leafIds t).Nodup) :
    InsOut order kb lo hi t ch nid (insertGo order t kb v ch nid) := by
  cases hb with
  | leaf r hget hlen hcnt hsortK hin =>
    rename_i i
    have hfr : ¬ kb ∈ r.keys := hfresh i (by simp [leafIds]) r hget
    by_cases hov : order ≤ (r.keys.insertIdx (insPos r.keys kb) kb).length
    · exact insertGo_leaf_split hget hlen hcnt hsortK hin hlo hhi hfr hnd hidlt horder hov
    · exact insertGo_leaf_nosplit hget hlen hsortK hin hlo hhi hfr hnd hov
  | node hsortN hcnt hin hch =>
    exact insertGo_node_step hsortN hcnt hin horder
      (insert_specL hch horder (strictInc_iff_pairwise.mp hsortN) hin hlo hhi
        (by simpa [leafIds] using hfresh) hnd hidlt (by simpa [leafIds] using hLnd))

theorem insert_specL {V : Type} {ch : List (LeafRec V)} {order : Nat} {cs : List RT}
    {lo hi : Option (List Nat)} {ks : List (List Nat)} {kb : List Nat} {v : V} {nid : Nat}
    (hb : BndL ch order cs lo hi ks) (horder : 3 ≤ order)
    (hsort : ks.Pairwise KLt) (hks : ∀ k ∈ ks, loOk lo k ∧ hiOk hi k)
    (hlo : loOk lo kb) (hhi : hiOk hi kb)
    (hfresh : ∀ j ∈ leafIdsL cs, ∀ r, chainGet ch j = some r → ¬ kb ∈ r.keys)
    (hnd : (ch.map (fun t => t.id)).Nodup)
    (hidlt : ∀ t ∈ ch, t.id < nid)
    (hLnd : (leafIdsL cs).Nodup) :
    InsOutL order kb lo hi cs ks ch nid
      (insertChildren order cs (routeIdx ks kb) kb v ch nid) := by
  cases hb with
  | last hc =>
    exact insertChildren_last_step
      (insert_spec hc horder hlo hhi (by simpa [leafIdsL] using hfresh) hnd hidlt
        (by simpa [leafIdsL] using hLnd))
  | cons hc hcs =>
    rename_i c cs' k0 ks'
    by_cases hle : bytLe k0 kb = true
    · have hks2 : ∀ y ∈ ks', loOk (some k0) y ∧ hiOk hi y := fun y hy =>
        ⟨bytLe_of_bytLt (List.rel_of_pairwise_cons hsort hy),
          (hks y (List.mem_cons_of_mem _ hy)).2⟩
      have hfresh2 : ∀ j ∈ leafIdsL cs', ∀ r, chainGet ch j = some r → ¬ kb ∈ r.keys :=
        fun j hj => hfresh j (by simp [leafIdsL, hj])
      have hLnd2 : (leafIdsL cs').Nodup :=
        (List.nodup_append.mp (by simpa [leafIdsL] using hLnd)).2.1
      exact insertChildren_cons_right_step hc hcs hsort hks hle hhi hidlt hLnd
        (insert_specL hcs horder (List.Pairwise.of_cons hsort) hks2 hle hhi
          hfresh2 hnd hidlt hLnd2)
    · have hleF : bytLe k0 kb = false := by
        rcases hx : bytLe k0 kb with _ | _
        · rfl
        · exact absurd hx hle
      have hkb0 : bytLt kb k0 = true := bytLt_of_not_bytLe hleF
      have hfresh2 : ∀ j ∈ leafIds c, ∀ r, chainGet ch j = some r → ¬ kb ∈ r.keys :=
        fun j hj => hfresh j (by simp [leafIdsL, hj])
      have hLnd2 : (leafIds c).Nodup :=
        (List.nodup_append.mp (by simpa [leafIdsL] using hLnd)).1
      exact insertChildren_cons_left_step hc hcs hsort hks hleF hlo hidlt hLnd
        (insert_spec hc horder hlo hkb0 hfresh2 hnd hidlt hLnd2)

end

end PyMiniDB

namespace PyMiniDB

theorem recKeys_append {V : Type} (A B : List (LeafRec V)) :
    recKeys (A ++ B) = recKeys A ++ recKeys B := by
  induction A with
  | nil => rfl
  | cons r t ih =>
    show r.keys ++ recKeys (t ++ B) = (r.keys ++ recKeys t) ++ recKeys B
    rw [ih, List.append_assoc]

theorem recPairs_append {V : Type} (A B : List (LeafRec V)) :
    recPairs (A ++ B) = recPairs A ++ recPairs B := by
  induction A with
  | nil => rfl
  | cons r t ih =>
    show r.keys.zip r.vals ++ recPairs (t ++ B) =
      (r.keys.zip r.vals ++ recPairs t) ++ recPairs B
    rw [ih, List.append_assoc]

theorem recKeys_mem {V : Type} {ch : List (LeafRec V)} {r : LeafRec V} {k : List Nat}
    (hr : r ∈ ch) (hk : k ∈ r.keys) : k ∈ recKeys ch := by
  induction ch with
  | nil => cases hr
  | cons a t ih =>
    show k ∈ a.keys ++ recKeys t
    rcases List.mem_cons.mp hr with rfl | hm
    · exact List.mem_append_left _ hk
    · exact List.mem_append_right _ (ih hm)

theorem recPairs_mem {V : Type} {ch : List (LeafRec V)} {p : List Nat × V}
    (hp : p ∈ recPairs ch) : ∃ r ∈ ch, p ∈ r.keys.zip r.vals := by
  induction ch with
  | nil => cases hp
  | cons a t ih =>
    have hp2 : p ∈ a.keys.zip a.vals ++ recPairs t := hp
    rcases List.mem_append.mp hp2 with h1 | h2
    · exact ⟨a, List.mem_cons_self _ _, h1⟩
    · obtain ⟨r, hr, h⟩ := ih h2
      exact ⟨r, List.mem_cons_of_mem _ hr, h⟩

theorem map_seg_decomp {V : Type} {seg : List (LeafRec V)} {A B : List Nat}
    (h : seg.map (fun r => r.id) = A ++ B) :
    ∃ sA sB, seg = sA ++ sB ∧ sA.map (fun r => r.id) = A ∧
      sB.map (fun r => r.id) = B := by
  induction A generalizing seg with
  | nil => exact ⟨[], seg, rfl, rfl, h⟩
  | cons a A2 ih =>
    cases seg with
    | nil => simp at h
    | cons x t =>
      simp only [List.map_cons, List.cons_append, List.cons.injEq] at h
      obtain ⟨sA, sB, h1, h2, h3⟩ := ih h.2
      exact ⟨x :: sA, sB, by simp [h1], by simp [h2, h.1], h3⟩

theorem findIdx_go {kb : List Nat} {B : List (List Nat)} :
    ∀ (A : List (List Nat)), ¬ kb ∈ A → ∀ i : Nat,
    (A ++ kb :: B).findIdx? (fun k => k == kb) i = some (A.length + i) := by
  intro A
  induction A with
  | nil =>
    intro h i
    rw [List.nil_append, List.findIdx?_cons, if_pos (by simp)]
    simp
  | cons a t ih =>
    intro h i
    have hne : (a == kb) = false := by
      simp only [beq_eq_false_iff_ne]
      intro hc
      exact h (List.mem_cons.mpr (Or.inl hc.symm))
    rw [List.cons_append, List.findIdx?_cons, if_neg (by simp [hne]),
      ih (fun hc => h (List.mem_cons_of_mem _ hc)) (i + 1)]
    congr 1
    simp only [List.length_cons]
    omega

theorem findIdx_decomp {A B : List (List Nat)} {kb : List Nat} (h : ¬ kb ∈ A) :
    (A ++ kb :: B).findIdx? (fun k => k == kb) = some A.length := by
  have hg := @findIdx_go kb B A h 0
  simpa using hg

theorem eraseIdx_decomp {α : Type} (A : List α) (b : α) (B : List α) :
    (A ++ b :: B).eraseIdx A.length = A ++ B := by
  induction A with
  | nil => rfl
  | cons a t ih =>
    show ((a :: (t ++ b :: B)).eraseIdx (t.length + 1)) = a :: (t ++ B)
    rw [List.eraseIdx_cons_succ, ih]

theorem zip_find_none {V : Type} {ks : List (List Nat)} {vs : List V} {kb : List Nat}
    (h : ¬ kb ∈ ks) :
    (ks.zip vs).find? (fun kv => kv.1 == kb) = none := by
  rw [List.find?_eq_none]
  intro p hp hc
  have hm := (List.of_mem_zip hp).1
  simp only [beq_iff_eq] at hc
  exact h (hc ▸ hm)

theorem chainFrom_decomp {V : Type} (pre post : List (LeafRec V)) (x : LeafRec V)
    {i : Nat} (hpre : ∀ y ∈ pre, y.id ≠ i) (hx : x.id = i) :
    chainFrom (pre ++ x :: post) i = x :: post := by
  induction pre with
  | nil =>
    show chainFrom (x :: post) i = x :: post
    unfold chainFrom
    rw [if_pos hx]
  | cons a t ih =>
    show chainFrom (a :: (t ++ x :: post)) i = x :: post
    unfold chainFrom
    rw [if_neg (hpre a (List.mem_cons_self _ _))]
    exact ih fun y hy => hpre y (List.mem_cons_of_mem _ hy)

theorem idInsertAfter_decomp {A B : List Nat} {i nid : Nat} (h : ∀ a ∈ A, a ≠ i) :
    idInsertAfter (A ++ i :: B) i nid = A ++ i :: nid :: B := by
  induction A with
  | nil =>
    show idInsertAfter (i :: B) i nid = i :: nid :: B
    unfold idInsertAfter
    rw [if_pos rfl]
  | cons a t ih =>
    show idInsertAfter (a :: (t ++ i :: B)) i nid = a :: (t ++ i :: nid :: B)
    unfold idInsertAfter
    rw [if_neg (h a (List.mem_cons_self _ _)),
      ih fun y hy => h y (List.mem_cons_of_mem _ hy)]

theorem nodup_insert_mid {A B : List Nat} {i n : Nat} (h : (A ++ i :: B).Nodup)
    (hn : ¬ n ∈ A ++ i :: B) : (A ++ i :: n :: B).Nodup := by
  rw [List.nodup_append] at h ⊢
  obtain ⟨hA, hiB, hd⟩ := h
  rw [List.nodup_cons] at hiB
  refine ⟨hA, ?_, ?_⟩
  · rw [List.nodup_cons, List.nodup_cons]
    refine ⟨?_, ?_, hiB.2⟩
    · intro hc
      rcases List.mem_cons.mp hc with rfl | h2
      · exact hn (List.mem_append_right _ (List.mem_cons_self _ _))
      · exact hiB.1 h2
    · intro hc
      exact hn (List.mem_append_right _ (List.mem_cons_of_mem _ hc))
  · intro a ha hb
    rcases List.mem_cons.mp hb with rfl | h2
    · exact hd ha (List.mem_cons_self _ _)
    · rcases List.mem_cons.mp h2 with rfl | h3
      · exact hn (List.mem_append_left _ ha)
      · exact hd ha (List.mem_cons_of_mem _ h3)

end PyMiniDB

namespace PyMiniDB

mutual

/-- Any chain segment whose ids spell out the in-order leaf ids of a
bounded subtree has globally sorted, interval-bounded keys, and every
record in it satisfies the per-leaf length and capacity conditions. -/
theorem Bnd_seg {V : Type} {ch : List (LeafRec V)} {order : Nat} {t : RT}
    {lo hi : Option (List Nat)} (hb : Bnd ch order t lo hi) :
    ∀ seg : List (LeafRec V), seg.map (fun r => r.id) = leafIds t →
    (∀ r ∈ seg, chainGet ch r.id = some r) →
    (recKeys seg).Pairwise KLt ∧ (∀ k ∈ recKeys seg, loOk lo k ∧ hiOk hi k) ∧
    (∀ r ∈ seg, r.vals.length = r.keys.length ∧ r.keys.length ≤ order - 1) := by
  cases hb with
  | leaf r hget hlen hcnt hsort hin =>
    rename_i i
    intro seg hmap hall
    cases seg with
    | nil => simp [leafIds] at hmap
    | cons x tail =>
      simp only [List.map_cons, leafIds, List.cons.injEq] at hmap
      have htail : tail = [] := List.map_eq_nil.mp hmap.2
      subst htail
      have hx := hall x (List.mem_cons_self _ _)
      rw [hmap.1, hget] at hx
      cases hx
      have hrk : recKeys [r] = r.keys := by
        show r.keys ++ recKeys ([] : List (LeafRec V)) = r.keys
        rw [show recKeys ([] : List (LeafRec V)) = [] from rfl, List.append_nil]
      refine ⟨by rw [hrk]; exact strictInc_iff_pairwise.mp hsort,
        by rw [hrk]; exact hin, ?_⟩
      intro r2 hr2
      rcases List.mem_cons.mp hr2 with rfl | h2
      · exact ⟨hlen, hcnt⟩
      · cases h2
  | node hsort hcnt hin hch =>
    intro seg hmap hall
    exact BndL_seg hch (strictInc_iff_pairwise.mp hsort) hin seg hmap hall

theorem BndL_seg {V : Type} {ch : List (LeafRec V)} {order : Nat} {cs : List RT}
    {lo hi : Option (List Nat)} {ks : List (List Nat)} (hb : BndL ch order cs lo hi ks)
    (hsort : ks.Pairwise KLt) (hks : ∀ k ∈ ks, loOk lo k ∧ hiOk hi k) :
    ∀ seg : List (LeafRec V), seg.map (fun r => r.id) = leafIdsL cs →
    (∀ r ∈ seg, chainGet ch r.id = some r) →
    (recKeys seg).Pairwise KLt ∧ (∀ k ∈ recKeys seg, loOk lo k ∧ hiOk hi k) ∧
    (∀ r ∈ seg, r.vals.length = r.keys.length ∧ r.keys.length ≤ order - 1) := by
  cases hb with
  | last hc =>
    rename_i c
    intro seg hmap hall
    refine Bnd_seg hc seg ?_ hall
    rw [hmap]
    simp [leafIdsL]
  | cons hc hcs =>
    rename_i c cs2 k0 ks2
    intro seg hmap hall
    obtain ⟨hk0lo, hk0hi⟩ := hks k0 (List.mem_cons_self _ _)
    have hks2 : ∀ y ∈ ks2, loOk (some k0) y ∧ hiOk hi y := fun y hy =>
      ⟨bytLe_of_bytLt (List.rel_of_pairwise_cons hsort hy),
        (hks y (List.mem_cons_of_mem _ hy)).2⟩
    have hm2 : seg.map (fun r => r.id) = leafIds c ++ leafIdsL cs2 := hmap
    obtain ⟨sA, sB, hseg, hA, hB⟩ := map_seg_decomp hm2
    subst hseg
    obtain ⟨pA, bA, lA⟩ := Bnd_seg hc sA hA
      (fun r hr => hall r (List.mem_append_left _ hr))
    obtain ⟨pB, bB, lB⟩ := BndL_seg hcs (List.Pairwise.of_cons hsort) hks2 sB hB
      (fun r hr => hall r (List.mem_append_right _ hr))
    rw [recKeys_append]
    refine ⟨?_, ?_, ?_⟩
    · rw [List.pairwise_append]
      refine ⟨pA, pB, ?_⟩
      intro a ha b hb2
      exact bytLt_of_bytLt_of_bytLe (bA a ha).2 (bB b hb2).1
    · intro k hk
      rcases List.mem_append.mp hk with h1 | h2
      · refine ⟨(bA k h1).1, ?_⟩
        cases hi with
        | none => trivial
        | some h => exact bytLt_trans (bA k h1).2 hk0hi
      · refine ⟨?_, (bB k h2).2⟩
        cases lo with
        | none => trivial
        | some l => exact bytLe_trans hk0lo (bB k h2).1
    · intro r hr
      rcases List.mem_append.mp hr with h1 | h2
      · exact lA r h1
      · exact lB r h2

end

end PyMiniDB

namespace PyMiniDB

mutual

/-- Replacing the record of one leaf id by a record whose keys are a
sorted, capacity-respecting subset of the old keys (while every other
leaf id resolves as before) preserves boundedness. -/
theorem Bnd_upd {V : Type} {ch ch2 : List (LeafRec V)} {order : Nat} {t : RT}
    {lo hi : Option (List Nat)} {i : Nat} {r2 : LeafRec V}
    (hb : Bnd ch order t lo hi)
    (hsame : ∀ j ∈ leafIds t, j ≠ i → chainGet ch2 j = chainGet ch j)
    (hget2 : chainGet ch2 i = some r2)
    (hprops : ∀ x, chainGet ch i = some x →
      r2.vals.length = r2.keys.length ∧ r2.keys.length ≤ order - 1 ∧
      strictInc r2.keys = true ∧ ∀ k ∈ r2.keys, k ∈ x.keys) :
    Bnd ch2 order t lo hi := by
  cases hb with
  | leaf r hget hlen hcnt hsort hin =>
    rename_i j
    by_cases hj : j = i
    · subst hj
      obtain ⟨hp1, hp2, hp3, hp4⟩ := hprops r hget
      exact Bnd.leaf r2 hget2 hp1 hp2 hp3 (fun k hk => hin k (hp4 k hk))
    · exact Bnd.leaf r (by rw [hsame j (by simp [leafIds]) hj, hget]) hlen hcnt hsort hin
  | node hsort hcnt hin hch =>
    exact Bnd.node hsort hcnt hin
      (BndL_upd hch (by simpa [leafIds] using hsame) hget2 hprops)

theorem BndL_upd {V : Type} {ch ch2 : List (LeafRec V)} {order : Nat} {cs : List RT}
    {lo hi : Option (List Nat)} {ks : List (List Nat)} {i : Nat} {r2 : LeafRec V}
    (hb : BndL ch order cs lo hi ks)
    (hsame : ∀ j ∈ leafIdsL cs, j ≠ i → chainGet ch2 j = chainGet ch j)
    (hget2 : chainGet ch2 i = some r2)
    (hprops : ∀ x, chainGet ch i = some x →
      r2.vals.length = r2.keys.length ∧ r2.keys.length ≤ order - 1 ∧
      strictInc r2.keys = true ∧ ∀ k ∈ r2.keys, k ∈ x.keys) :
    BndL ch2 order cs lo hi ks := by
  cases hb with
  | last hc =>
    exact BndL.last (Bnd_upd hc (by simpa [leafIdsL] using hsame) hget2 hprops)
  | cons hc hcs =>
    refine BndL.cons (Bnd_upd hc ?_ hget2 hprops) (BndL_upd hcs ?_ hget2 hprops)
    · intro j hj
      exact hsame j (by simp [leafIdsL, hj])
    · intro j hj
      exact hsame j (by simp [leafIdsL, hj])

end

end PyMiniDB

namespace PyMiniDB

theorem bytLt_false_of_bytLe {a b : List Nat} (h : bytLe b a = true) :
    bytLt a b = false := by
  unfold bytLe at h
  cases hx : bytLt a b
  · rfl
  · rw [hx] at h
    simp at h

/-- On a leaf whose keys are sorted, the `range_search` inner loop
collects exactly the in-window values, and the early-return flag
implies some key at or beyond the end bound was seen. -/
theorem scanLeaf_spec {V : Type} (sb eb : List Nat) :
    ∀ pairs : List (List Nat × V), (pairs.map Prod.fst).Pairwise KLt →
    (scanLeaf pairs sb eb).1 =
      (pairs.filter (fun p => bytLe sb p.1 && bytLt p.1 eb)).map (fun p => p.2) ∧
    ((scanLeaf pairs sb eb).2 = true → ∃ p ∈ pairs, bytLe eb p.1 = true) := by
  intro pairs
  induction pairs with
  | nil =>
    intro _
    exact ⟨rfl, fun h => Bool.noConfusion h⟩
  | cons p t ih =>
    obtain ⟨k, v⟩ := p
    intro hs
    have hs2 : (k :: t.map Prod.fst).Pairwise KLt := hs
    have ihs := ih (List.Pairwise.of_cons hs2)
    have hstep : scanLeaf ((k, v) :: t) sb eb =
        (if bytLe sb k && bytLt k eb then
          ((v :: (scanLeaf t sb eb).1, (scanLeaf t sb eb).2) : List V × Bool)
        else if bytLe eb k then (([], true) : List V × Bool)
        else scanLeaf t sb eb) := rfl
    by_cases h1 : (bytLe sb k && bytLt k eb) = true
    · rw [hstep, if_pos h1]
      constructor
      · show v :: (scanLeaf t sb eb).1 = _
        rw [List.filter_cons_of_pos (by exact h1), List.map_cons, ihs.1]
      · intro hflag
        obtain ⟨q, hq, hqe⟩ := ihs.2 hflag
        exact ⟨q, List.mem_cons_of_mem _ hq, hqe⟩
    · rw [hstep, if_neg h1]
      by_cases h2 : bytLe eb k = true
      · rw [if_pos h2]
        refine ⟨?_, fun _ => ⟨(k, v), List.mem_cons_self _ _, h2⟩⟩
        have hnone : ∀ q ∈ t, ¬ (bytLe sb q.1 && bytLt q.1 eb) = true := by
          intro q hq
          have hkq : KLt k q.1 :=
            List.rel_of_pairwise_cons hs2 (List.mem_map_of_mem Prod.fst hq)
          have hle : bytLe eb q.1 = true := bytLe_trans h2 (bytLe_of_bytLt hkq)
          have hf : bytLt q.1 eb = false := bytLt_false_of_bytLe hle
          simp [hf]
        show ([] : List V) = _
        rw [List.filter_cons_of_neg (by exact h1), List.filter_eq_nil.mpr hnone]
        rfl
      · have h2f : bytLe eb k = false := by
          cases hx : bytLe eb k
          · rfl
          · exact absurd hx h2
        rw [if_neg h2]
        refine ⟨?_, ?_⟩
        · rw [ihs.1, List.filter_cons_of_neg (by exact h1)]
        · intro hflag
          obtain ⟨q, hq, hqe⟩ := ihs.2 hflag
          exact ⟨q, List.mem_cons_of_mem _ hq, hqe⟩

/-- The `while leaf:` loop of `range_search`, run over a chain suffix
with globally sorted keys, returns exactly the in-window values. -/
theorem rangeGo_filter {V : Type} (sb eb : List Nat) :
    ∀ chs : List (LeafRec V), (recKeys chs).Pairwise KLt →
    (∀ r ∈ chs, r.vals.length = r.keys.length) →
    rangeGo chs sb eb =
      ((recPairs chs).filter (fun p => bytLe sb p.1 && bytLt p.1 eb)).map
        (fun p => p.2) := by
  intro chs
  induction chs with
  | nil =>
    intro _ _
    rfl
  | cons r t ih =>
    intro hs hlens
    have hmapfst : (r.keys.zip r.vals).map Prod.fst = r.keys :=
      List.map_fst_zip _ _ (Nat.le_of_eq (hlens r (List.mem_cons_self _ _)).symm)
    have hsK : ((r.keys.zip r.vals).map Prod.fst).Pairwise KLt := by
      rw [hmapfst]
      exact List.Pairwise.sublist (List.sublist_append_left _ _) hs
    obtain ⟨hscan1, hscan2⟩ := scanLeaf_spec sb eb (r.keys.zip r.vals) hsK
    have hstep : rangeGo (r :: t) sb eb =
        (if (scanLeaf (r.keys.zip r.vals) sb eb).2 then
          (scanLeaf (r.keys.zip r.vals) sb eb).1
        else (scanLeaf (r.keys.zip r.vals) sb eb).1 ++ rangeGo t sb eb) := rfl
    have hrp : recPairs (r :: t) = r.keys.zip r.vals ++ recPairs t := rfl
    rw [hstep, hrp, List.filter_append, List.map_append]
    by_cases hfl : (scanLeaf (r.keys.zip r.vals) sb eb).2 = true
    · rw [if_pos hfl, hscan1]
      have hnil : (recPairs t).filter (fun p => bytLe sb p.1 && bytLt p.1 eb) = [] := by
        rw [List.filter_eq_nil]
        intro q hq
        obtain ⟨p0, hp0, hp0e⟩ := hscan2 hfl
        have hp0k : p0.1 ∈ r.keys := by
          rw [← hmapfst]
          exact List.mem_map_of_mem Prod.fst hp0
        obtain ⟨r2, hr2, hq2⟩ := recPairs_mem hq
        have hqk : q.1 ∈ recKeys t := recKeys_mem hr2 (List.of_mem_zip hq2).1
        have hpw : (r.keys ++ recKeys t).Pairwise KLt := hs
        have hcross : KLt p0.1 q.1 := (List.pairwise_append.mp hpw).2.2 p0.1 hp0k q.1 hqk
        have hle : bytLe eb q.1 = true := bytLe_trans hp0e (bytLe_of_bytLt hcross)
        have hf : bytLt q.1 eb = false := bytLt_false_of_bytLe hle
        simp [hf]
      rw [hnil]
      simp
    · have iht := ih (List.Pairwise.sublist (List.sublist_append_right _ _) hs)
        (fun r2 hr2 => hlens r2 (List.mem_cons_of_mem _ hr2))
      rw [if_neg hfl, hscan1, iht]

end PyMiniDB

namespace PyMiniDB

/-- Well-formedness of a `SimpleBPlusTree` state, as maintained by the
distinct-key regime: the routing tree is bounded over the chain, the
`next_leaf` chain lists exactly the in-order leaf ids (each once), all
ids are below the fresh-id counter, and `key_to_value`'s key set
mirrors the keys stored in the leaves. -/
structure WFS {V : Type} (s : TreeState V) : Prop where
  horder : 3 ≤ s.order
  hbnd : Bnd s.chain s.order s.root none none
  hchain : s.chain.map (fun r => r.id) = leafIds s.root
  hnd : (s.chain.map (fun r => r.id)).Nodup
  hids : ∀ r ∈ s.chain, r.id < s.nextId
  hmnd : s.mapKeys.Nodup
  hmap : ∀ kb, kb ∈ s.mapKeys ↔ kb ∈ chainKeys s

/-- Tree states reachable from a fresh tree (order at least 3) by
inserting pairwise-distinct keys and deleting arbitrary keys. -/
inductive ReachD (V : Type) : TreeState V → Prop where
  | init (order : Nat) (h : 3 ≤ order) : ReachD V (initState V order)
  | insert {s : TreeState V} (h : ReachD V s) (kb : List Nat) (v : V)
      (hf : ¬ kb ∈ chainKeys s) : ReachD V (insertB s kb v)
  | delete {s : TreeState V} (h : ReachD V s) (kb : List Nat) :
      ReachD V (deleteB s kb).2

theorem wfs_init (V : Type) (order : Nat) (h : 3 ≤ order) :
    WFS (initState V order) := by
  refine ⟨h, ?_, rfl, ?_, ?_, List.nodup_nil, fun kb => Iff.rfl⟩
  · exact Bnd.leaf ⟨0, [], []⟩ rfl rfl (Nat.zero_le _) rfl
      (fun k hk => absurd hk (List.not_mem_nil k))
  · show ([0] : List Nat).Nodup
    simp
  · intro r hr
    rcases List.mem_cons.mp hr with rfl | h2
    · exact Nat.zero_lt_one
    · cases h2

theorem wfs_chain_sorted {V : Type} {s : TreeState V} (hw : WFS s) :
    (chainKeys s).Pairwise KLt ∧
    (∀ r ∈ s.chain, r.vals.length = r.keys.length ∧ r.keys.length ≤ s.order - 1) := by
  have h := Bnd_seg hw.hbnd s.chain hw.hchain
    (fun r hr => chainGet_of_mem_nodup hw.hnd hr)
  exact ⟨h.1, h.2.2⟩

/-- In a well-formed state the chain splits at the leaf `_find_leaf`
reaches: every earlier record holds only keys below, every later
record only keys above. -/
theorem wfs_find_decomp {V : Type} {s : TreeState V} (hw : WFS s) (kb : List Nat) :
    ∃ cpre x cpost, s.chain = cpre ++ x :: cpost ∧
      x.id = findLeafRT s.root kb ∧
      (∀ y ∈ cpre, y.id ≠ x.id) ∧
      (∀ y ∈ cpre, ∀ k ∈ y.keys, KLt k kb) ∧
      (∀ y ∈ cpost, ∀ k ∈ y.keys, KLt kb k) := by
  obtain ⟨fpre, fpost, hfl, hpre, hpost⟩ := find_spec hw.hbnd True.intro True.intro
  obtain ⟨cpre, x, cpost, hch, hA, hx, hB⟩ := map_id_decomp (by rw [hw.hchain, hfl])
  refine ⟨cpre, x, cpost, hch, hx, ?_, ?_, ?_⟩
  · have hnd2 := hw.hnd
    rw [hch, List.map_append, List.map_cons] at hnd2
    have hdj := (List.nodup_append.mp hnd2).2.2
    intro y hy hc
    exact hdj (List.mem_map_of_mem _ hy) (List.mem_cons.mpr (Or.inl hc))
  · intro y hy k hk
    have hyid : y.id ∈ fpre := by
      rw [← hA]
      exact List.mem_map_of_mem _ hy
    have hgy : chainGet s.chain y.id = some y :=
      chainGet_of_mem_nodup hw.hnd (by rw [hch]; exact List.mem_append_left _ hy)
    exact hpre y.id hyid y hgy k hk
  · intro y hy k hk
    have hyid : y.id ∈ fpost := by
      rw [← hB]
      exact List.mem_map_of_mem _ hy
    have hgy : chainGet s.chain y.id = some y :=
      chainGet_of_mem_nodup hw.hnd
        (by rw [hch]; exact List.mem_append_right _ (List.mem_cons_of_mem _ hy))
    exact hpost y.id hyid y hgy k hk

end PyMiniDB

namespace PyMiniDB

theorem recKeys_cons {V : Type} (r : LeafRec V) (t : List (LeafRec V)) :
    recKeys (r :: t) = r.keys ++ recKeys t := rfl

theorem recPairs_cons {V : Type} (r : LeafRec V) (t : List (LeafRec V)) :
    recPairs (r :: t) = r.keys.zip r.vals ++ recPairs t := rfl

/-- Inserting a key not already stored preserves well-formedness. -/
theorem wfs_insert {V : Type} {s : TreeState V} (hw : WFS s) {kb : List Nat} (v : V)
    (hf : ¬ kb ∈ chainKeys s) : WFS (insertB s kb v) := by
  have hLnd : (leafIds s.root).Nodup := hw.hchain ▸ hw.hnd
  have hfresh : ∀ j ∈ leafIds s.root, ∀ r, chainGet s.chain j = some r →
      ¬ kb ∈ r.keys := fun j hj r hr hk => hf (recKeys_mem (chainGet_mem hr) hk)
  have io := @insert_spec V s.chain s.order s.root none none kb v s.nextId
    hw.hbnd hw.horder True.intro True.intro hfresh hw.hnd hw.hids hLnd
  obtain ⟨pre, x, post, P, S, newIds, h1, h2, h3, h4, h5, h6, h7⟩ := io
  set res := insertGo s.order s.root kb v s.chain s.nextId with hres0
  have hmkb : ¬ kb ∈ s.mapKeys := fun hm => hf ((hw.hmap kb).mp hm)
  have hmk : (if kb ∈ s.mapKeys then s.mapKeys else s.mapKeys ++ [kb]) =
      s.mapKeys ++ [kb] := if_neg hmkb
  have hstep : insertB s kb v =
      (match res.2.1 with
        | none => (⟨s.order, res.1, res.2.2.1, res.2.2.2,
            if kb ∈ s.mapKeys then s.mapKeys else s.mapKeys ++ [kb]⟩ : TreeState V)
        | some (pk, r) => ⟨s.order, RT.node [pk] [res.1, r],
            res.2.2.1, res.2.2.2,
            if kb ∈ s.mapKeys then s.mapKeys else s.mapKeys ++ [kb]⟩) := rfl
  have hmapdec : (pre.map (fun r => r.id)) ++ x.id :: (post.map (fun r => r.id)) =
      leafIds s.root := by
    rw [← hw.hchain, h1]
    simp [List.map_append]
  have hxpre : ¬ x.id ∈ pre.map (fun r => r.id) := by
    have hnd2 := hw.hnd
    rw [h1, List.map_append, List.map_cons] at hnd2
    have hdj := (List.nodup_append.mp hnd2).2.2
    intro hc
    exact hdj hc (List.mem_cons_self _ _)
  have hmnd2 : (s.mapKeys ++ [kb]).Nodup := by
    rw [List.nodup_append]
    exact ⟨hw.hmnd, List.nodup_singleton kb,
      fun a ha hb2 => hmkb ((List.mem_singleton.mp hb2) ▸ ha)⟩
  rcases h6 with ⟨vs, hc6, hn6, hni6⟩ | ⟨ksL, vsL, ksR, vsR, hc6, hk6, hn6, hni6⟩
  · -- the target leaf was updated in place
    have hmapc2 : res.2.2.1.map (fun r => r.id) = leafIds s.root := by
      rw [hc6, List.map_append, List.map_cons]
      exact hmapdec
    have hmapnew : res.2.2.1.map (fun r => r.id) = newIds := by
      rw [hmapc2, hni6]
    have hndc2 : (res.2.2.1.map (fun r => r.id)).Nodup := by
      rw [hmapc2]
      exact hLnd
    have hidsc2 : ∀ r ∈ res.2.2.1, r.id < s.nextId := by
      intro r hr
      rw [hc6] at hr
      rcases List.mem_append.mp hr with hA2 | hB2
      · exact hw.hids r (by rw [h1]; exact List.mem_append_left _ hA2)
      · rcases List.mem_cons.mp hB2 with rfl | hC2
        · show x.id < s.nextId
          exact hw.hids x
            (by rw [h1]; exact List.mem_append_right _ (List.mem_cons_self _ _))
        · exact hw.hids r
            (by rw [h1]; exact List.mem_append_right _ (List.mem_cons_of_mem _ hC2))
    have hkeysc2 : ∀ k, k ∈ recKeys res.2.2.1 ↔ k ∈ recKeys s.chain ∨ k = kb := by
      intro k
      rw [hc6, h1]
      simp only [recKeys_append, recKeys_cons, List.mem_append, List.mem_cons, h3]
      tauto
    have hmap2 : ∀ k, k ∈ s.mapKeys ++ [kb] ↔ k ∈ recKeys res.2.2.1 := by
      intro k
      rw [List.mem_append, List.mem_singleton]
      constructor
      · rintro (hm | rfl)
        · exact (hkeysc2 k).mpr (Or.inl ((hw.hmap k).mp hm))
        · exact (hkeysc2 k).mpr (Or.inr rfl)
      · intro hm
        rcases (hkeysc2 k).mp hm with h0 | h0
        · exact Or.inl ((hw.hmap k).mpr h0)
        · exact Or.inr h0
    rcases hres : res.2.1 with _ | ⟨pk, rt⟩ <;> rw [hres] at h7
    · obtain ⟨hbnd2, hids2⟩ := h7
      have hstepN : insertB s kb v =
          ⟨s.order, res.1, res.2.2.1, res.2.2.2, s.mapKeys ++ [kb]⟩ := by
        rw [hstep, hmk, hres]
      rw [hstepN]
      refine ⟨hw.horder, hbnd2, ?_, hndc2, ?_, hmnd2, hmap2⟩
      · rw [hids2]
        exact hmapnew
      · intro r hr
        rw [hn6]
        exact hidsc2 r hr
    · obtain ⟨hb1, hb2x, hl7, hh7, hid7⟩ := h7
      have hstepS : insertB s kb v =
          ⟨s.order, RT.node [pk] [res.1, rt], res.2.2.1, res.2.2.2,
            s.mapKeys ++ [kb]⟩ := by
        rw [hstep, hmk, hres]
      rw [hstepS]
      refine ⟨hw.horder, ?_, ?_, hndc2, ?_, hmnd2, hmap2⟩
      · refine Bnd.node rfl ?_ (fun k hk => ⟨trivial, trivial⟩)
          (BndL.cons hb1 (BndL.last hb2x))
        show ([pk] : List (List Nat)).length ≤ s.order - 1
        have := hw.horder
        simp only [List.length_cons, List.length_nil]
        omega
      · show res.2.2.1.map (fun r => r.id) = leafIds (RT.node [pk] [res.1, rt])
        have hli : leafIds (RT.node [pk] [res.1, rt]) =
            leafIds res.1 ++ leafIds rt := by
          simp [leafIds, leafIdsL]
        rw [hli, hid7]
        exact hmapnew
      · intro r hr
        rw [hn6]
        exact hidsc2 r hr
  · -- the target leaf split into two records
    have hpremap_ne : ∀ a ∈ pre.map (fun r => r.id), a ≠ x.id :=
      fun a ha hc => hxpre (hc ▸ ha)
    have hnewids : newIds =
        pre.map (fun r => r.id) ++ x.id :: s.nextId :: post.map (fun r => r.id) := by
      rw [hni6, ← hmapdec, idInsertAfter_decomp hpremap_ne]
    have hmapc2 : res.2.2.1.map (fun r => r.id) =
        pre.map (fun r => r.id) ++ x.id :: s.nextId :: post.map (fun r => r.id) := by
      rw [hc6, List.map_append, List.map_cons, List.map_cons]
    have hmapnew : res.2.2.1.map (fun r => r.id) = newIds := by
      rw [hmapc2, hnewids]
    have holdnd : (pre.map (fun r => r.id) ++
        x.id :: post.map (fun r => r.id)).Nodup := by
      have hnd2 := hw.hnd
      rw [h1, List.map_append, List.map_cons] at hnd2
      exact hnd2
    have hnidnotin : ¬ s.nextId ∈ pre.map (fun r => r.id) ++
        x.id :: post.map (fun r => r.id) := by
      intro hc
      have hm : s.nextId ∈ s.chain.map (fun r => r.id) := by
        rw [h1, List.map_append, List.map_cons]
        exact hc
      obtain ⟨r0, hr0, hr0e⟩ := List.mem_map.mp hm
      have := hw.hids r0 hr0
      omega
    have hndc2 : (res.2.2.1.map (fun r => r.id)).Nodup := by
      rw [hmapc2]
      exact nodup_insert_mid holdnd hnidnotin
    have hidsc2 : ∀ r ∈ res.2.2.1, r.id < s.nextId + 1 := by
      intro r hr
      rw [hc6] at hr
      rcases List.mem_append.mp hr with hA2 | hB2
      · have := hw.hids r (by rw [h1]; exact List.mem_append_left _ hA2)
        omega
      · rcases List.mem_cons.mp hB2 with rfl | hC2
        · show x.id < s.nextId + 1
          have := hw.hids x
            (by rw [h1]; exact List.mem_append_right _ (List.mem_cons_self _ _))
          omega
        · rcases List.mem_cons.mp hC2 with rfl | hD2
          · show s.nextId < s.nextId + 1
            omega
          · have := hw.hids r
              (by rw [h1]; exact List.mem_append_right _ (List.mem_cons_of_mem _ hD2))
            omega
    have hrk : recKeys res.2.2.1 = recKeys pre ++ ((P ++ kb :: S) ++ recKeys post) := by
      rw [hc6, recKeys_append, recKeys_cons, recKeys_cons]
      dsimp only
      rw [← hk6, List.append_assoc]
    have hold : recKeys s.chain = recKeys pre ++ ((P ++ S) ++ recKeys post) := by
      rw [h1, recKeys_append, recKeys_cons, h3]
    have hkeysc2 : ∀ k, k ∈ recKeys res.2.2.1 ↔ k ∈ recKeys s.chain ∨ k = kb := by
      intro k
      rw [hrk, hold]
      simp only [List.mem_append, List.mem_cons]
      tauto
    have hmap2 : ∀ k, k ∈ s.mapKeys ++ [kb] ↔ k ∈ recKeys res.2.2.1 := by
      intro k
      rw [List.mem_append, List.mem_singleton]
      constructor
      · rintro (hm | rfl)
        · exact (hkeysc2 k).mpr (Or.inl ((hw.hmap k).mp hm))
        · exact (hkeysc2 k).mpr (Or.inr rfl)
      · intro hm
        rcases (hkeysc2 k).mp hm with h0 | h0
        · exact Or.inl ((hw.hmap k).mpr h0)
        · exact Or.inr h0
    rcases hres : res.2.1 with _ | ⟨pk, rt⟩ <;> rw [hres] at h7
    · obtain ⟨hbnd2, hids2⟩ := h7
      have hstepN : insertB s kb v =
          ⟨s.order, res.1, res.2.2.1, res.2.2.2, s.mapKeys ++ [kb]⟩ := by
        rw [hstep, hmk, hres]
      rw [hstepN]
      refine ⟨hw.horder, hbnd2, ?_, hndc2, ?_, hmnd2, hmap2⟩
      · rw [hids2]
        exact hmapnew
      · intro r hr
        rw [hn6]
        exact hidsc2 r hr
    · obtain ⟨hb1, hb2x, hl7, hh7, hid7⟩ := h7
      have hstepS : insertB s kb v =
          ⟨s.order, RT.node [pk] [res.1, rt], res.2.2.1, res.2.2.2,
            s.mapKeys ++ [kb]⟩ := by
        rw [hstep, hmk, hres]
      rw [hstepS]
      refine ⟨hw.horder, ?_, ?_, hndc2, ?_, hmnd2, hmap2⟩
      · refine Bnd.node rfl ?_ (fun k hk => ⟨trivial, trivial⟩)
          (BndL.cons hb1 (BndL.last hb2x))
        show ([pk] : List (List Nat)).length ≤ s.order - 1
        have := hw.horder
        simp only [List.length_cons, List.length_nil]
        omega
      · show res.2.2.1.map (fun r => r.id) = leafIds (RT.node [pk] [res.1, rt])
        have hli : leafIds (RT.node [pk] [res.1, rt]) =
            leafIds res.1 ++ leafIds rt := by
          simp [leafIds, leafIdsL]
        rw [hli, hid7]
        exact hmapnew
      · intro r hr
        rw [hn6]
        exact hidsc2 r hr

end PyMiniDB

namespace PyMiniDB

theorem recKeys_mem_ex {V : Type} {ch : List (LeafRec V)} {k : List Nat}
    (h : k ∈ recKeys ch) : ∃ r ∈ ch, k ∈ r.keys := by
  induction ch with
  | nil => cases h
  | cons a t ih =>
    have h2 : k ∈ a.keys ++ recKeys t := h
    rcases List.mem_append.mp h2 with h0 | h0
    · exact ⟨a, List.mem_cons_self _ _, h0⟩
    · obtain ⟨r, hr, hk⟩ := ih h0
      exact ⟨r, List.mem_cons_of_mem _ hr, hk⟩

/-- Deleting a key that is stored in a well-formed tree: the
`key_to_value` gate passes, `_find_leaf` reaches the unique record
holding the key, `pop` removes exactly that entry, and the resulting
state is spelled out in full. -/
theorem delete_present {V : Type} {s : TreeState V} (hw : WFS s) {kb : List Nat}
    (hm : kb ∈ chainKeys s) :
    ∃ cpre x cpost A B vA v0 vB,
      s.chain = cpre ++ x :: cpost ∧
      x.id = findLeafRT s.root kb ∧
      chainGet s.chain (findLeafRT s.root kb) = some x ∧
      (∀ y ∈ cpre, y.id ≠ x.id) ∧
      (∀ y ∈ cpost, y.id ≠ x.id) ∧
      x.keys = A ++ kb :: B ∧
      x.vals = vA ++ v0 :: vB ∧
      vA.length = A.length ∧
      x.keys.Pairwise KLt ∧
      ¬ kb ∈ A ∧ ¬ kb ∈ B ∧
      (∀ y ∈ cpre, ∀ k ∈ y.keys, KLt k kb) ∧
      (∀ y ∈ cpost, ∀ k ∈ y.keys, KLt kb k) ∧
      deleteB s kb = (true, ⟨s.order, s.root,
        cpre ++ (⟨x.id, A ++ B, vA ++ vB⟩ : LeafRec V) :: cpost,
        s.nextId, s.mapKeys.erase kb⟩) := by
  have hmkb : kb ∈ s.mapKeys := (hw.hmap kb).mpr hm
  obtain ⟨cpre, x, cpost, hch, hx, hprene, hprek, hpostk⟩ := wfs_find_decomp hw kb
  have hpostne : ∀ y ∈ cpost, y.id ≠ x.id := by
    have hnd2 := hw.hnd
    rw [hch, List.map_append, List.map_cons] at hnd2
    have h2 := (List.nodup_append.mp hnd2).2.1
    rw [List.nodup_cons] at h2
    intro y hy hc
    exact h2.1 (hc ▸ List.mem_map_of_mem (fun r => r.id) hy)
  have hget : chainGet s.chain (findLeafRT s.root kb) = some x := by
    rw [hch, chainGet_skip_all _ (fun y hy => by rw [← hx]; exact hprene y hy), ← hx]
    exact chainGet_cons_self _ _
  have hsorted := (wfs_chain_sorted hw).1
  have hxmem : x ∈ s.chain := by
    rw [hch]
    exact List.mem_append_right _ (List.mem_cons_self _ _)
  have hxsort : x.keys.Pairwise KLt := by
    refine List.Pairwise.sublist ?_ hsorted
    rw [show chainKeys s = recKeys s.chain from rfl, hch, recKeys_append, recKeys_cons]
    exact List.Sublist.trans (List.sublist_append_left _ _)
      (List.sublist_append_right _ _)
  have hkbx : kb ∈ x.keys := by
    have hm2 : kb ∈ recKeys s.chain := hm
    rw [hch, recKeys_append, recKeys_cons] at hm2
    rcases List.mem_append.mp hm2 with h0 | h0
    · obtain ⟨y, hy, hky⟩ := recKeys_mem_ex h0
      exact (KLt_irrefl' (hprek y hy kb hky)).elim
    · rcases List.mem_append.mp h0 with h1 | h1
      · exact h1
      · obtain ⟨y, hy, hky⟩ := recKeys_mem_ex h1
        exact (KLt_irrefl' (hpostk y hy kb hky)).elim
  obtain ⟨A, B, hkeq⟩ := List.append_of_mem hkbx
  have hAkb : ¬ kb ∈ A := by
    intro hc
    have hpw := hxsort
    rw [hkeq, List.pairwise_append] at hpw
    exact KLt_irrefl' (hpw.2.2 kb hc kb (List.mem_cons_self _ _))
  have hBkb : ¬ kb ∈ B := by
    intro hc
    have hpw := hxsort
    rw [hkeq, List.pairwise_append] at hpw
    exact KLt_irrefl' (List.rel_of_pairwise_cons hpw.2.1 hc)
  have hlx := (wfs_chain_sorted hw).2 x hxmem
  have hAlt : A.length < x.vals.length := by
    rw [hlx.1, hkeq, List.length_append, List.length_cons]
    omega
  obtain ⟨vA, v0, vB, hveq, hAlen⟩ :
      ∃ vA v0 vB, x.vals = vA ++ v0 :: vB ∧ vA.length = A.length := by
    refine ⟨x.vals.take A.length, x.vals.get ⟨A.length, hAlt⟩,
      x.vals.drop (A.length + 1), ?_, ?_⟩
    · have h := List.take_append_drop A.length x.vals
      rw [List.drop_eq_getElem_cons hAlt] at h
      exact h.symm
    · rw [List.length_take]
      omega
  have hfind : x.keys.findIdx? (fun k => k == kb) = some A.length := by
    rw [hkeq]
    exact findIdx_decomp hAkb
  have hstep : deleteB s kb = (true, ⟨s.order, s.root,
      chainSet s.chain (findLeafRT s.root kb)
        ⟨x.id, x.keys.eraseIdx A.length, x.vals.eraseIdx A.length⟩,
      s.nextId, s.mapKeys.erase kb⟩) := by
    rw [show deleteB s kb = (if kb ∈ s.mapKeys then
        (match chainGet s.chain (findLeafRT s.root kb) with
          | none => ((false, { s with mapKeys := s.mapKeys.erase kb }) :
              Bool × TreeState V)
          | some r =>
            match r.keys.findIdx? (fun k => k == kb) with
            | none => (false, { s with mapKeys := s.mapKeys.erase kb })
            | some j => (true, { s with
                chain := chainSet s.chain (findLeafRT s.root kb)
                  ⟨r.id, r.keys.eraseIdx j, r.vals.eraseIdx j⟩,
                mapKeys := s.mapKeys.erase kb }))
      else (false, s)) from rfl]
    rw [if_pos hmkb, hget]
    dsimp only
    rw [hfind]
  have hke : x.keys.eraseIdx A.length = A ++ B := by
    rw [hkeq]
    exact eraseIdx_decomp A kb B
  have hve : x.vals.eraseIdx A.length = vA ++ vB := by
    rw [hveq, ← hAlen]
    exact eraseIdx_decomp vA v0 vB
  have hchain2 : chainSet s.chain (findLeafRT s.root kb)
      ⟨x.id, x.keys.eraseIdx A.length, x.vals.eraseIdx A.length⟩ =
      cpre ++ (⟨x.id, A ++ B, vA ++ vB⟩ : LeafRec V) :: cpost := by
    rw [hke, hve, hch]
    exact chainSet_decomp cpre cpost x _
      (fun y hy => by rw [← hx]; exact hprene y hy) hx
      (fun y hy => by rw [← hx]; exact hpostne y hy)
  exact ⟨cpre, x, cpost, A, B, vA, v0, vB, hch, hx, hget, hprene, hpostne, hkeq,
    hveq, hAlen, hxsort, hAkb, hBkb, hprek, hpostk, by rw [hstep, hchain2]⟩

end PyMiniDB

namespace PyMiniDB

/-- `delete` on a key absent from `key_to_value` returns the state
unchanged with result `False`. -/
theorem delete_absent {V : Type} (s : TreeState V) {kb : List Nat}
    (hmkb : ¬ kb ∈ s.mapKeys) : deleteB s kb = (false, s) := by
  rw [show deleteB s kb = (if kb ∈ s.mapKeys then
      (match chainGet s.chain (findLeafRT s.root kb) with
        | none => ((false, { s with mapKeys := s.mapKeys.erase kb }) :
            Bool × TreeState V)
        | some r =>
          match r.keys.findIdx? (fun k => k == kb) with
          | none => (false, { s with mapKeys := s.mapKeys.erase kb })
          | some j => (true, { s with
              chain := chainSet s.chain (findLeafRT s.root kb)
                ⟨r.id, r.keys.eraseIdx j, r.vals.eraseIdx j⟩,
              mapKeys := s.mapKeys.erase kb }))
    else (false, s)) from rfl]
  rw [if_neg hmkb]

/-- `delete` preserves well-formedness. -/
theorem wfs_delete {V : Type} {s : TreeState V} (hw : WFS s) (kb : List Nat) :
    WFS (deleteB s kb).2 := by
  by_cases hmkb : kb ∈ s.mapKeys
  · have hm : kb ∈ chainKeys s := (hw.hmap kb).mp hmkb
    obtain ⟨cpre, x, cpost, A, B, vA, v0, vB, hch, hx, hget, hprene, hpostne, hkeq,
      hveq, hAlen, hxsort, hAkb, hBkb, hprek, hpostk, hdel⟩ := delete_present hw hm
    rw [hdel]
    have hlx := (wfs_chain_sorted hw).2 x
      (by rw [hch]; exact List.mem_append_right _ (List.mem_cons_self _ _))
    have hlens : x.vals.length = x.keys.length := hlx.1
    rw [hkeq, hveq, List.length_append, List.length_append, List.length_cons,
      List.length_cons] at hlens
    have hmapsame : (cpre ++ (⟨x.id, A ++ B, vA ++ vB⟩ : LeafRec V) ::
        cpost).map (fun r => r.id) = s.chain.map (fun r => r.id) := by
      rw [hch]
      simp [List.map_append, List.map_cons]
    have hnk1 : ¬ kb ∈ recKeys cpre := by
      intro hc
      obtain ⟨y, hy, hky⟩ := recKeys_mem_ex hc
      exact KLt_irrefl' (hprek y hy kb hky)
    have hnk2 : ¬ kb ∈ recKeys cpost := by
      intro hc
      obtain ⟨y, hy, hky⟩ := recKeys_mem_ex hc
      exact KLt_irrefl' (hpostk y hy kb hky)
    refine ⟨hw.horder, ?_, ?_, ?_, ?_, ?_, ?_⟩
    · refine @Bnd_upd V s.chain _ s.order s.root none none
        (findLeafRT s.root kb) ⟨x.id, A ++ B, vA ++ vB⟩ hw.hbnd ?_ ?_ ?_
      · intro j hj hjne
        rw [hch]
        exact chainGet_update_other rfl (by rw [hx]; exact hjne)
      · rw [chainGet_skip_all _ (fun y hy => by rw [← hx]; exact hprene y hy), ← hx]
        exact chainGet_cons_self _ _
      · intro y hy
        rw [hget] at hy
        cases hy
        refine ⟨?_, ?_, ?_, ?_⟩
        · show (vA ++ vB).length = (A ++ B).length
          rw [List.length_append, List.length_append]
          omega
        · show (A ++ B).length ≤ s.order - 1
          have hc := hlx.2
          rw [hkeq, List.length_append, List.length_cons] at hc
          rw [List.length_append]
          omega
        · show strictInc (A ++ B) = true
          refine strictInc_iff_pairwise.mpr (List.Pairwise.sublist ?_ hxsort)
          rw [hkeq]
          exact (List.sublist_cons_self kb B).append_left A
        · intro k hk
          rw [hkeq]
          rcases List.mem_append.mp hk with h0 | h0
          · exact List.mem_append_left _ h0
          · exact List.mem_append_right _ (List.mem_cons_of_mem _ h0)
    · show _ = leafIds s.root
      rw [hmapsame]
      exact hw.hchain
    · show List.Nodup _
      rw [hmapsame]
      exact hw.hnd
    · intro r hr
      rcases List.mem_append.mp hr with h0 | h0
      · exact hw.hids r (by rw [hch]; exact List.mem_append_left _ h0)
      · rcases List.mem_cons.mp h0 with rfl | h1
        · show x.id < s.nextId
          exact hw.hids x
            (by rw [hch]; exact List.mem_append_right _ (List.mem_cons_self _ _))
        · exact hw.hids r
            (by rw [hch]; exact List.mem_append_right _ (List.mem_cons_of_mem _ h1))
    · exact hw.hmnd.erase kb
    · intro k
      rw [List.Nodup.mem_erase_iff hw.hmnd, hw.hmap k]
      show _ ↔ k ∈ recKeys (cpre ++ (⟨x.id, A ++ B, vA ++ vB⟩ : LeafRec V) :: cpost)
      rw [show chainKeys s = recKeys s.chain from rfl, hch, recKeys_append,
        recKeys_cons, hkeq, recKeys_append, recKeys_cons]
      dsimp only
      simp only [List.mem_append, List.mem_cons]
      constructor
      · rintro ⟨hne2, h0 | h1 | h2⟩
        · exact Or.inl h0
        · rcases h1 with hA0 | hkb0 | hB0
          · exact Or.inr (Or.inl (Or.inl hA0))
          · exact absurd hkb0 hne2
          · exact Or.inr (Or.inl (Or.inr hB0))
        · exact Or.inr (Or.inr h2)
      · intro h0
        refine ⟨?_, ?_⟩
        · rintro rfl
          rcases h0 with h1 | h1 | h1
          · exact hnk1 h1
          · rcases h1 with h2 | h2
            · exact hAkb h2
            · exact hBkb h2
          · exact hnk2 h1
        · rcases h0 with h1 | h1 | h1
          · exact Or.inl h1
          · rcases h1 with h2 | h2
            · exact Or.inr (Or.inl (Or.inl h2))
            · exact Or.inr (Or.inl (Or.inr (Or.inr h2)))
          · exact Or.inr (Or.inr h1)
  · rw [delete_absent s hmkb]
    exact hw

end PyMiniDB

namespace PyMiniDB

/-- Every state reachable by distinct-key inserts and arbitrary
deletes is well-formed. -/
theorem reach_wfs {V : Type} {s : TreeState V} (h : ReachD V s) : WFS s := by
  induction h with
  | init order h0 => exact wfs_init V order h0
  | insert h0 kb v hf ih => exact wfs_insert ih v hf
  | delete h0 kb ih => exact wfs_delete ih kb

mutual

/-- The per-node structural invariants of the spec, as a predicate
over the routing tree and the leaf store: strictly increasing keys,
at most `order - 1` keys per node, `len(values) == len(keys)` in
leaves, `len(children) == len(keys) + 1` in internal nodes. -/
def invOk {V : Type} (ch : List (LeafRec V)) (order : Nat) : RT → Prop
  | .leaf i => ∃ r, chainGet ch i = some r ∧ r.vals.length = r.keys.length ∧
      r.keys.length ≤ order - 1 ∧ strictInc r.keys = true
  | .node keys children => strictInc keys = true ∧ keys.length ≤ order - 1 ∧
      children.length = keys.length + 1 ∧ invOkL ch order children

def invOkL {V : Type} (ch : List (LeafRec V)) (order : Nat) : List RT → Prop
  | [] => True
  | c :: cs => invOk ch order c ∧ invOkL ch order cs

end

mutual

theorem Bnd_invOk {V : Type} {ch : List (LeafRec V)} {order : Nat} {t : RT}
    {lo hi : Option (List Nat)} (hb : Bnd ch order t lo hi) : invOk ch order t := by
  cases hb with
  | leaf r hget hlen hcnt hsort hin => exact ⟨r, hget, hlen, hcnt, hsort⟩
  | node hsort hcnt hin hch =>
    exact ⟨hsort, hcnt, BndL_length hch, Bnd_invOkL hch⟩

theorem Bnd_invOkL {V : Type} {ch : List (LeafRec V)} {order : Nat} {cs : List RT}
    {lo hi : Option (List Nat)} {ks : List (List Nat)}
    (hb : BndL ch order cs lo hi ks) : invOkL ch order cs := by
  cases hb with
  | last hc => exact ⟨Bnd_invOk hc, trivial⟩
  | cons hc hcs => exact ⟨Bnd_invOk hc, Bnd_invOkL hcs⟩

end

end PyMiniDB

namespace PyMiniDB

/-- C3 (amended to the distinct-key regime): on every state reachable
by inserting pairwise-distinct keys and deleting arbitrary keys,
`range_search(start, end)` returns exactly the values whose serialized
keys lie in the half-open window `[start, end)`, in the order of the
leaf chain - which is globally strictly ascending by key - so the scan
has no gaps, no duplicates, and yields values in ascending key order;
a full scan returns every value. -/
theorem c3_range_scan {V : Type} (s : TreeState V) (h : ReachD V s)
    (sb eb : List Nat) :
    rangeSearchB s sb eb =
      ((chainPairs s).filter (fun p => bytLe sb p.1 && bytLt p.1 eb)).map
        (fun p => p.2) ∧
    strictInc (chainKeys s) = true := by
  have hw := reach_wfs h
  have hsorted := (wfs_chain_sorted hw).1
  have hlens := (wfs_chain_sorted hw).2
  refine ⟨?_, strictInc_iff_pairwise.mpr hsorted⟩
  obtain ⟨cpre, x, cpost, hch, hx, hprene, hprek, hpostk⟩ := wfs_find_decomp hw sb
  have hcf : chainFrom s.chain (findLeafRT s.root sb) = x :: cpost := by
    rw [hch]
    exact chainFrom_decomp cpre cpost x
      (fun y hy => by rw [← hx]; exact hprene y hy) hx
  show rangeGo (chainFrom s.chain (findLeafRT s.root sb)) sb eb = _
  rw [hcf]
  have hsorted2 : (recKeys (x :: cpost)).Pairwise KLt := by
    refine List.Pairwise.sublist ?_ hsorted
    rw [show chainKeys s = recKeys s.chain from rfl, hch, recKeys_append]
    exact List.sublist_append_right _ _
  have hlens2 : ∀ r ∈ x :: cpost, r.vals.length = r.keys.length := by
    intro r hr
    exact (hlens r (by rw [hch]; exact List.mem_append_right _ hr)).1
  rw [rangeGo_filter sb eb (x :: cpost) hsorted2 hlens2]
  show _ = ((recPairs s.chain).filter _).map _
  rw [hch, recPairs_append, List.filter_append, List.map_append]
  have hnil : (recPairs cpre).filter (fun p => bytLe sb p.1 && bytLt p.1 eb) = [] := by
    rw [List.filter_eq_nil]
    intro q hq
    obtain ⟨y, hy, hq2⟩ := recPairs_mem hq
    have hqk := (List.of_mem_zip hq2).1
    have hlt : KLt q.1 sb := hprek y hy q.1 hqk
    have hfalse : bytLe sb q.1 = false := by
      unfold bytLe
      rw [show bytLt q.1 sb = true from hlt]
      rfl
    simp [hfalse]
  rw [hnil, List.map_nil, List.nil_append]

/-- C4 (amended to the distinct-key regime): on every reachable state,
`delete` of a stored key returns `True` and removes exactly the single
entry holding that key, after which `search` of the key returns none;
`delete` of a key that is not stored returns `False` and leaves the
state completely unchanged. -/
theorem c4_delete_contract {V : Type} (s : TreeState V) (h : ReachD V s)
    (kb : List Nat) :
    (kb ∈ chainKeys s →
      (deleteB s kb).1 = true ∧
      (∃ A2 B2 v, chainPairs s = A2 ++ (kb, v) :: B2 ∧
        ¬ kb ∈ A2.map Prod.fst ∧
        chainPairs (deleteB s kb).2 = A2 ++ B2) ∧
      searchB (deleteB s kb).2 kb = none) ∧
    (¬ kb ∈ chainKeys s → deleteB s kb = (false, s)) := by
  have hw := reach_wfs h
  constructor
  · intro hm
    obtain ⟨cpre, x, cpost, A, B, vA, v0, vB, hch, hx, hget, hprene, hpostne, hkeq,
      hveq, hAlen, hxsort, hAkb, hBkb, hprek, hpostk, hdel⟩ := delete_present hw hm
    have hzip : x.keys.zip x.vals = A.zip vA ++ (kb, v0) :: B.zip vB := by
      rw [hkeq, hveq, List.zip_append hAlen.symm]
      rfl
    have hzipnew : (A ++ B).zip (vA ++ vB) = A.zip vA ++ B.zip vB :=
      List.zip_append hAlen.symm
    refine ⟨by rw [hdel], ?_, ?_⟩
    · refine ⟨recPairs cpre ++ A.zip vA, B.zip vB ++ recPairs cpost, v0, ?_, ?_, ?_⟩
      · show recPairs s.chain = _
        rw [hch, recPairs_append, recPairs_cons, hzip]
        simp [List.append_assoc]
      · intro hc
        rcases List.mem_map.mp hc with ⟨p, hp, hpe⟩
        rcases List.mem_append.mp hp with h0 | h0
        · obtain ⟨y, hy, hq2⟩ := recPairs_mem h0
          have hqk := (List.of_mem_zip hq2).1
          exact KLt_irrefl' (hpe ▸ hprek y hy p.1 hqk)
        · have hqk := (List.of_mem_zip h0).1
          exact hAkb (hpe ▸ hqk)
      · rw [hdel]
        show recPairs (cpre ++ (⟨x.id, A ++ B, vA ++ vB⟩ : LeafRec V) :: cpost) = _
        rw [recPairs_append, recPairs_cons]
        dsimp only
        rw [hzipnew]
        simp [List.append_assoc]
    · rw [hdel]
      show (match chainGet (cpre ++ (⟨x.id, A ++ B, vA ++ vB⟩ : LeafRec V) :: cpost)
          (findLeafRT s.root kb) with
        | none => none
        | some r => ((r.keys.zip r.vals).find? (fun kv => kv.1 == kb)).map
            (fun kv => kv.2)) = none
      rw [chainGet_skip_all _ (fun y hy => by rw [← hx]; exact hprene y hy), ← hx,
        show chainGet ((⟨x.id, A ++ B, vA ++ vB⟩ : LeafRec V) :: cpost) x.id =
          some ⟨x.id, A ++ B, vA ++ vB⟩ from chainGet_cons_self _ _]
      dsimp only
      rw [zip_find_none (fun hc => by
        rcases List.mem_append.mp hc with h0 | h0
        · exact hAkb h0
        · exact hBkb h0)]
      rfl
  · intro hnm
    exact delete_absent s (fun hc => hnm ((hw.hmap kb).mp hc))

/-- C5 (amended to the distinct-key regime): every reachable state
satisfies the node structural invariants - strictly increasing keys,
at most `order - 1` keys per node, `len(values) == len(keys)` in
leaves, `len(children) == len(keys) + 1` internally - and the
`next_leaf` chain enumerates exactly the in-order leaves of the tree,
with the traversal's keys in globally strictly ascending order. -/
theorem c5_node_invariants {V : Type} (s : TreeState V) (h : ReachD V s) :
    invOk s.chain s.order s.root ∧
    s.chain.map (fun r => r.id) = leafIds s.root ∧
    strictInc (chainKeys s) = true := by
  have hw := reach_wfs h
  exact ⟨Bnd_invOk hw.hbnd, hw.hchain,
    strictInc_iff_pairwise.mpr (wfs_chain_sorted hw).1⟩

end PyMiniDB

namespace PyMiniDB

/-- A small distinct-key reachable state: order 4, keys 10, 20, 30. -/
def wState : TreeState Nat :=
  insertB (insertB (insertB (initState Nat 4) (beBytes 8 10) 1)
    (beBytes 8 20) 2) (beBytes 8 30) 3

theorem wReach : ReachD Nat wState :=
  ReachD.insert (ReachD.insert (ReachD.insert (ReachD.init 4 (by decide))
    (beBytes 8 10) 1 (by decide)) (beBytes 8 20) 2 (by decide))
    (beBytes 8 30) 3 (by decide)

theorem c3_witness :
    ReachD Nat wState ∧
    (rangeSearchB wState (beBytes 8 15) (beBytes 8 25) =
      ((chainPairs wState).filter
        (fun p => bytLe (beBytes 8 15) p.1 && bytLt p.1 (beBytes 8 25))).map
        (fun p => p.2) ∧
     strictInc (chainKeys wState) = true) :=
  ⟨wReach, c3_range_scan wState wReach (beBytes 8 15) (beBytes 8 25)⟩

theorem c4_witness :
    ReachD Nat wState ∧
    ((beBytes 8 20 ∈ chainKeys wState →
      (deleteB wState (beBytes 8 20)).1 = true ∧
      (∃ A2 B2 v, chainPairs wState = A2 ++ (beBytes 8 20, v) :: B2 ∧
        ¬ beBytes 8 20 ∈ A2.map Prod.fst ∧
        chainPairs (deleteB wState (beBytes 8 20)).2 = A2 ++ B2) ∧
      searchB (deleteB wState (beBytes 8 20)).2 (beBytes 8 20) = none) ∧
    (¬ beBytes 8 20 ∈ chainKeys wState →
      deleteB wState (beBytes 8 20) = (false, wState))) :=
  ⟨wReach, c4_delete_contract wState wReach (beBytes 8 20)⟩

theorem c5_witness :
    ReachD Nat wState ∧
    (invOk wState.chain wState.order wState.root ∧
     wState.chain.map (fun r => r.id) = leafIds wState.root ∧
     strictInc (chainKeys wState) = true) :=
  ⟨wReach, c5_node_invariants wState wReach⟩

end PyMiniDB
